import Mathlib

set_option autoImplicit false

/-!
A shallow embedding of the parameter-to-object coercion engine of
remix-params-helper (src/helper.ts) together with proofs about it.

The engine takes a flat list of string key/value pairs, routes each pair
through a Zod-style schema (dotted keys descend into nested objects, a
bracket marker is stripped from keys), coerces the string value according
to the leaf schema kind, and finally validates the assembled object with
the schema validator.

JavaScript runtime behaviour that the source relies on is modelled
explicitly: property lookup on plain objects falls back to the inherited
Object.prototype properties (constructor, toString, ...), assignment to a
property of a primitive value is a silent no-op, and String.replace with a
plain-string pattern replaces the first occurrence anywhere in the string.
Properties specific to other prototypes (Array.prototype methods, string
indices, internal fields of validator instances) are outside the model.
-/

/-- Names of the inherited Object.prototype properties, including the
Annex-B legacy accessor helpers: on a plain JavaScript object (such as a
schema shape literal or the coerced output object), property reads of
these names succeed via the prototype chain even when no own property
exists, and they yield function values (or the prototype object for
proto), never undefined. -/
def inheritedName (s : String) : Bool :=
  s = "constructor" || s = "toString" || s = "toLocaleString" || s = "valueOf" ||
  s = "hasOwnProperty" || s = "isPrototypeOf" || s = "propertyIsEnumerable" ||
  s = "__proto__" || s = "__defineGetter__" || s = "__defineSetter__" ||
  s = "__lookupGetter__" || s = "__lookupSetter__"

/-- Splits a character list at every dot, mirroring JavaScript
key.split(.). The result is always nonempty; splitting an empty string
gives a single empty segment. -/
def splitOnDotChars : List Char → List (List Char)
  | [] => [[]]
  | c :: rest =>
    if c = '.' then [] :: splitOnDotChars rest
    else
      match splitOnDotChars rest with
      | [] => [[c]]
      | s :: ss => (c :: s) :: ss

/-- Dot-segments of a key string, mirroring key.split(.). -/
def segsOf (key : String) : List String :=
  (splitOnDotChars key.data).map (fun cs => String.mk cs)

/-- True when the character list contains the two-character substring [],
mirroring key.includes of the bracket marker. -/
def containsBracketsChars : List Char → Bool
  | [] => false
  | [_] => false
  | c1 :: c2 :: rest =>
    if c1 = '[' ∧ c2 = ']' then true else containsBracketsChars (c2 :: rest)

/-- Removes the first occurrence of the substring [] from the character
list, mirroring key.replace with a plain-string pattern (JavaScript
String.replace with a string pattern replaces only the first occurrence,
wherever it appears in the string). -/
def stripBracketsChars : List Char → List Char
  | [] => []
  | [c] => [c]
  | c1 :: c2 :: rest =>
    if c1 = '[' ∧ c2 = ']' then rest else c1 :: stripBracketsChars (c2 :: rest)

/-- True when the key contains the bracket marker []. -/
def containsBrackets (key : String) : Bool :=
  containsBracketsChars key.data

/-- The key with its first [] occurrence removed. -/
def stripBrackets (key : String) : String :=
  String.mk (stripBracketsChars key.data)

/-- Primitive values usable as literal schema payloads. -/
inductive JSPrim where
  | str (s : String)
  | num (q : Rat)
  | bool (b : Bool)
  deriving DecidableEq, Repr

/-- The model of the JavaScript values that flow through the engine:
strings, numbers, booleans, Date objects (kept as their millisecond
timestamp), arrays, plain objects (association lists in property
insertion order with unique keys), and a marker for the opaque function
values reached through inherited Object.prototype properties. -/
inductive JSValue where
  | str (s : String)
  | num (q : Rat)
  | bool (b : Bool)
  | date (ms : Int)
  | arr (elems : List JSValue)
  | obj (fields : List (String × JSValue))
  | junk (name : String)
  deriving Repr

namespace JSValue

mutual

def decEq : (a b : JSValue) → Decidable (a = b)
  | .str a, .str b =>
    if h : a = b then .isTrue (by rw [h]) else .isFalse (by simp [h])
  | .num a, .num b =>
    if h : a = b then .isTrue (by rw [h]) else .isFalse (by simp [h])
  | .bool a, .bool b =>
    if h : a = b then .isTrue (by rw [h]) else .isFalse (by simp [h])
  | .date a, .date b =>
    if h : a = b then .isTrue (by rw [h]) else .isFalse (by simp [h])
  | .junk a, .junk b =>
    if h : a = b then .isTrue (by rw [h]) else .isFalse (by simp [h])
  | .arr xs, .arr ys =>
    match decEqList xs ys with
    | .isTrue h => .isTrue (by rw [h])
    | .isFalse h => .isFalse (by simp [h])
  | .obj fs, .obj gs =>
    match decEqFields fs gs with
    | .isTrue h => .isTrue (by rw [h])
    | .isFalse h => .isFalse (by simp [h])
  | .str _, .num _ => .isFalse nofun
  | .str _, .bool _ => .isFalse nofun
  | .str _, .date _ => .isFalse nofun
  | .str _, .arr _ => .isFalse nofun
  | .str _, .obj _ => .isFalse nofun
  | .str _, .junk _ => .isFalse nofun
  | .num _, .str _ => .isFalse nofun
  | .num _, .bool _ => .isFalse nofun
  | .num _, .date _ => .isFalse nofun
  | .num _, .arr _ => .isFalse nofun
  | .num _, .obj _ => .isFalse nofun
  | .num _, .junk _ => .isFalse nofun
  | .bool _, .str _ => .isFalse nofun
  | .bool _, .num _ => .isFalse nofun
  | .bool _, .date _ => .isFalse nofun
  | .bool _, .arr _ => .isFalse nofun
  | .bool _, .obj _ => .isFalse nofun
  | .bool _, .junk _ => .isFalse nofun
  | .date _, .str _ => .isFalse nofun
  | .date _, .num _ => .isFalse nofun
  | .date _, .bool _ => .isFalse nofun
  | .date _, .arr _ => .isFalse nofun
  | .date _, .obj _ => .isFalse nofun
  | .date _, .junk _ => .isFalse nofun
  | .arr _, .str _ => .isFalse nofun
  | .arr _, .num _ => .isFalse nofun
  | .arr _, .bool _ => .isFalse nofun
  | .arr _, .date _ => .isFalse nofun
  | .arr _, .obj _ => .isFalse nofun
  | .arr _, .junk _ => .isFalse nofun
  | .obj _, .str _ => .isFalse nofun
  | .obj _, .num _ => .isFalse nofun
  | .obj _, .bool _ => .isFalse nofun
  | .obj _, .date _ => .isFalse nofun
  | .obj _, .arr _ => .isFalse nofun
  | .obj _, .junk _ => .isFalse nofun
  | .junk _, .str _ => .isFalse nofun
  | .junk _, .num _ => .isFalse nofun
  | .junk _, .bool _ => .isFalse nofun
  | .junk _, .date _ => .isFalse nofun
  | .junk _, .arr _ => .isFalse nofun
  | .junk _, .obj _ => .isFalse nofun

def decEqList : (xs ys : List JSValue) → Decidable (xs = ys)
  | [], [] => .isTrue rfl
  | x :: xs, y :: ys =>
    match decEq x y, decEqList xs ys with
    | .isTrue h1, .isTrue h2 => .isTrue (by rw [h1, h2])
    | .isFalse h, _ => .isFalse (by simp [h])
    | _, .isFalse h => .isFalse (by simp [h])
  | [], _ :: _ => .isFalse nofun
  | _ :: _, [] => .isFalse nofun

def decEqFields : (xs ys : List (String × JSValue)) → Decidable (xs = ys)
  | [], [] => .isTrue rfl
  | (k1, v1) :: xs, (k2, v2) :: ys =>
    if hk : k1 = k2 then
      match decEq v1 v2, decEqFields xs ys with
      | .isTrue h1, .isTrue h2 => .isTrue (by rw [hk, h1, h2])
      | .isFalse h, _ => .isFalse (by simp [h])
      | _, .isFalse h => .isFalse (by simp [h])
    else .isFalse (by simp [hk])
  | [], _ :: _ => .isFalse nofun
  | _ :: _, [] => .isFalse nofun

end

instance : DecidableEq JSValue := decEq

/-- Reads an own property from an object field list (first match). -/
def getOwnList (fields : List (String × JSValue)) (k : String) : Option JSValue :=
  match fields with
  | [] => none
  | (k', v) :: rest => if k' = k then some v else getOwnList rest k

/-- Writes an own property into an object field list: an existing key is
overwritten in place (JavaScript keeps the original insertion position),
a new key is appended at the end. -/
def setOwnList (fields : List (String × JSValue)) (k : String) (v : JSValue) :
    List (String × JSValue) :=
  match fields with
  | [] => [(k, v)]
  | (k', v') :: rest =>
    if k' = k then (k, v) :: rest else (k', v') :: setOwnList rest k v

/-- JavaScript property read o[k]: own properties of plain objects first,
then the inherited Object.prototype names (which yield opaque function
values on every JavaScript value); anything else reads as undefined.
Own properties of non-object values (array methods, string indices,
validator internals) are outside the model. -/
def getJS (o : JSValue) (k : String) : Option JSValue :=
  match o with
  | .obj fields =>
    match getOwnList fields k with
    | some v => some v
    | none => if inheritedName k then some (.junk k) else none
  | _ => if inheritedName k then some (.junk k) else none

/-- JavaScript property write o[k] = v: a real update on plain objects, a
silent no-op on every other value (property writes on primitives are
discarded; writes of named properties onto arrays and functions are not
observable by the validator and are modelled as no-ops). -/
def setJS (o : JSValue) (k : String) (v : JSValue) : JSValue :=
  match o with
  | .obj fields => .obj (setOwnList fields k v)
  | other => other

/-- True for the values that JavaScript passes by reference, so that
mutation inside a recursive call is visible to the caller. -/
def isRef (o : JSValue) : Bool :=
  match o with
  | .obj _ => true
  | .arr _ => true
  | _ => false

end JSValue

/-! ### Models of the JavaScript builtins the engine calls -/

/-- Numeric value of a decimal digit character. -/
def charVal (c : Char) : Nat := c.toNat - '0'.toNat

/-- Value of a list of decimal digit characters. -/
def digitsVal (ds : List Char) : Nat :=
  ds.foldl (fun a c => a * 10 + charVal c) 0

/-- True when every character is a decimal digit. -/
def allDigits (ds : List Char) : Bool := ds.all (fun c => c.isDigit)

/-- Splits the list at the first character satisfying p, if any. -/
def splitAtChar (p : Char → Bool) : List Char → (List Char × Option (List Char))
  | [] => ([], none)
  | c :: rest =>
    if p c then ([], some rest)
    else
      let (a, b) := splitAtChar p rest
      (c :: a, b)

/-- Optional leading sign of a numeric literal. -/
def parseSign : List Char → (Int × List Char)
  | '-' :: rest => (-1, rest)
  | '+' :: rest => (1, rest)
  | cs => (1, cs)

/-- Modelled from the spec: the JavaScript builtin Number(string) used by
the numeric-coercion branch is not part of this repository. The model
covers decimal literals with optional sign, fraction and exponent, and
maps the empty string to 0; other inputs are NaN (None). Hexadecimal
literals, Infinity and surrounding whitespace are outside the model.
Number values are modelled as exact rationals rather than IEEE doubles. -/
def parseJSNumber (s : String) : Option Rat :=
  match s.data with
  | [] => some 0
  | cs =>
    let (mant, expPart) := splitAtChar (fun c => c = 'e' || c = 'E') cs
    let (sgn, mant1) := parseSign mant
    let (ip, fpOpt) := splitAtChar (fun c => c = '.') mant1
    let fp := fpOpt.getD []
    if allDigits ip && allDigits fp && (ip ≠ [] || fp ≠ []) then
      let mantVal : Rat := (digitsVal ip : Rat) + (digitsVal fp : Rat) / ((10 : Rat) ^ fp.length)
      let base : Rat := (sgn : Rat) * mantVal
      match expPart with
      | none => some base
      | some ec =>
        let (esgn, ed) := parseSign ec
        if allDigits ed && ed ≠ [] then
          some (base * (10 : Rat) ^ (esgn * (digitsVal ed : Int)))
        else none
    else none

/-- Splits a character list at every occurrence of the separator. -/
def splitCharsOn (sep : Char) : List Char → List (List Char)
  | [] => [[]]
  | c :: rest =>
    if c = sep then [] :: splitCharsOn sep rest
    else
      match splitCharsOn sep rest with
      | [] => [[c]]
      | s :: ss => (c :: s) :: ss

/-- Days since the Unix epoch of a proleptic Gregorian civil date,
following the standard era-based algorithm with truncating division. -/
def daysFromCivil (y : Int) (m d : Nat) : Int :=
  let yAdj : Int := if m ≤ 2 then y - 1 else y
  let era : Int := (if 0 ≤ yAdj then yAdj else yAdj - 399) / 400
  let yoe : Int := yAdj - era * 400
  let mp : Int := if 2 < m then (m : Int) - 3 else (m : Int) + 9
  let doy : Int := (153 * mp + 2) / 5 + (d : Int) - 1
  let doe : Int := yoe * 365 + yoe / 4 - yoe / 100 + doy
  era * 146097 + doe - 719468

/-- Digits-only parse of a fixed-width field. -/
def parseNatDigits (cs : List Char) : Option Nat :=
  if cs ≠ [] && allDigits cs then some (digitsVal cs) else none

/-- Milliseconds within the day encoded by an ISO time part HH:MM:SS.mmm
followed by a literal Z. -/
def parseTimeMs (cs : List Char) : Option Int :=
  match cs.reverse with
  | 'Z' :: revRest =>
    let body := revRest.reverse
    match splitCharsOn ':' body with
    | [hh, mm] =>
      match parseNatDigits hh, parseNatDigits mm with
      | some h, some mi =>
        if hh.length = 2 && mm.length = 2 && h < 24 && mi < 60 then
          some ((h : Int) * 3600000 + (mi : Int) * 60000)
        else none
      | _, _ => none
    | [hh, mm, ssf] =>
      let (ss, fracOpt) := splitAtChar (fun c => c = '.') ssf
      let frac := fracOpt.getD ['0']
      match parseNatDigits hh, parseNatDigits mm, parseNatDigits ss, parseNatDigits frac with
      | some h, some mi, some s, some f =>
        if hh.length = 2 && mm.length = 2 && ss.length = 2 && h < 24 && mi < 60 && s < 60 then
          let fracMs : Nat :=
            if frac.length = 3 then f
            else if frac.length = 2 then f * 10
            else if frac.length = 1 then f * 100
            else 0
          some ((h : Int) * 3600000 + (mi : Int) * 60000 + (s : Int) * 1000 + (fracMs : Int))
        else none
      | _, _, _, _ => none
    | _ => none
  | _ => none

/-- Modelled from the spec: the JavaScript builtin Date.parse used by the
date-coercion branch is not part of this repository. The model accepts an
ISO date YYYY-MM-DD with an optional THH:MM:SS.mmmZ time part and yields
the millisecond timestamp; every other string is NaN (None). The many
other formats the real builtin accepts are outside the model. -/
def dateParse (s : String) : Option Int :=
  let (datePart, timePart) := splitAtChar (fun c => c = 'T') s.data
  match splitCharsOn '-' datePart with
  | [ys, ms, ds] =>
    if ys.length = 4 && ms.length = 2 && ds.length = 2 then
      match parseNatDigits ys, parseNatDigits ms, parseNatDigits ds with
      | some y, some mo, some d =>
        if 1 ≤ mo && mo ≤ 12 && 1 ≤ d && d ≤ 31 then
          let dayMs : Int := daysFromCivil (y : Int) mo d * 86400000
          match timePart with
          | none => some dayMs
          | some tp =>
            match parseTimeMs tp with
            | some tms => some (dayMs + tms)
            | none => none
        else none
      | _, _, _ => none
    else none
  | _ => none

/-- JavaScript string truthiness: every nonempty string is truthy. -/
def jsTruthy (s : String) : Bool := s ≠ ""

/-! ### The schema data model -/

/-- The schema node variants relevant to the engine, mirroring the Zod
classes the source dispatches on. An effect node carries, besides its
inner schema, the refinement predicate and issue message that the
black-box validator applies after the inner parse; the engine itself only
ever descends to the inner schema. The other variant stands for any
schema class the coercion engine does not recognise, carrying its type
name for the internal error message. -/
inductive Schema where
  | obj (fields : List (String × Schema))
  | union (options : List Schema)
  | optional (inner : Schema)
  | zdefault (inner : Schema) (d : JSValue)
  | effect (inner : Schema) (check : Option JSValue → Bool) (msg : String)
  | array (elem : Schema)
  | zstring
  | znumber
  | zboolean
  | zdate
  | zenum (vals : List String)
  | literal (v : JSPrim)
  | other (typeName : String)

/-- First-match field lookup in a schema shape. -/
def lookupField : List (String × Schema) → String → Option Schema
  | [], _ => none
  | (k, s) :: rest, name => if k = name then some s else lookupField rest name

/-- The schema argument of the routing procedure: either a genuine schema
node, or the opaque function value reached when a dotted key descends
through an inherited Object.prototype property of a shape. -/
inductive SchemaLike where
  | real (s : Schema)
  | junkShape

/-- Result of the shape-resolution loop of parseParams: the field mapping
of an object schema, a non-object schema node, or an opaque function. -/
inductive ShapeView where
  | fieldsView (fields : List (String × Schema))
  | nodeView (s : Schema)
  | junkView

/-- The shape-resolution loop of parseParams lines 28-39: unwrap effect
wrappers until a non-effect node is reached; an object node resolves to
its field mapping. In the source the loop guard admits only ZodObject and
ZodEffects, and both always provide the next shape (a ZodObject has its
shape literal and a ZodEffects has its inner schema), so the null check
and its Could-not-find-shape throw inside the loop body are unreachable:
no constructor of this data model corresponds to them. -/
def resolveS : Schema → ShapeView
  | .obj fields => .fieldsView fields
  | .effect inner _ _ => resolveS inner
  | .union options => .nodeView (.union options)
  | .optional inner => .nodeView (.optional inner)
  | .zdefault inner d => .nodeView (.zdefault inner d)
  | .array elem => .nodeView (.array elem)
  | .zstring => .nodeView .zstring
  | .znumber => .nodeView .znumber
  | .zboolean => .nodeView .zboolean
  | .zdate => .nodeView .zdate
  | .zenum vals => .nodeView (.zenum vals)
  | .literal v => .nodeView (.literal v)
  | .other tn => .nodeView (.other tn)

/-- Shape resolution lifted to the routing argument. -/
def resolveSL : SchemaLike → ShapeView
  | .real s => resolveS s
  | .junkShape => .junkView

/-- Result of reading a property of a resolved shape. -/
inductive ShapeLookup where
  | scheme (s : Schema)
  | junkFn
  | missing

/-- Modelled from the spec: the validation library's schema nodes are
class instances, not plain objects, so a property read on an un-unwrapped
schema node also finds the validator's own API surface. These are the
member names present and truthy on every such instance: the definition
object and the methods of the common base class, whose reads yield the
definition object or bound functions that the coercion dispatch cannot
process. Members specific to a single node class and properties that read
as undefined (and are therefore skipped by the truthiness guard) are
outside the model. -/
def zodMemberName (s : String) : Bool :=
  s = "_def" || s = "parse" || s = "safeParse" || s = "parseAsync" ||
  s = "safeParseAsync" || s = "spa" || s = "refine" || s = "refinement" ||
  s = "superRefine" || s = "optional" || s = "nullable" || s = "nullish" ||
  s = "array" || s = "promise" || s = "or" || s = "and" || s = "transform" ||
  s = "default" || s = "brand" || s = "describe" || s = "catch" || s = "pipe" ||
  s = "readonly" || s = "isOptional" || s = "isNullable"

/-- JavaScript property read on a resolved shape: a field mapping is a
plain object, so it yields its own entries first and falls back to the
inherited Object.prototype names; a non-object node is a validator
instance, so its reads also find the validator API members; on an opaque
function only the inherited names are modelled. -/
def shapeGet (sv : ShapeView) (name : String) : ShapeLookup :=
  match sv with
  | .fieldsView f =>
    match lookupField f name with
    | some s => .scheme s
    | none => if inheritedName name then .junkFn else .missing
  | .nodeView _ =>
    if zodMemberName name || inheritedName name then .junkFn else .missing
  | .junkView => if inheritedName name then .junkFn else .missing

/-- The JavaScript in operator on a resolved shape. -/
def shapeHas (sv : ShapeView) (name : String) : Bool :=
  match shapeGet sv name with
  | .missing => false
  | _ => true

/-- The thrown errors of the engine: the (unreachable) shape-resolution
error, the unexpected-type error of processDef, the TypeError raised when
processDef receives an inherited function value instead of a schema, and
the error thrown by the OrFail wrappers carrying a serialized message. -/
inductive JSError where
  | couldNotFindShape (key : String)
  | unexpectedType (typeName key : String)
  | junkTypeError (key : String)
  | thrown (msg : String)
  deriving DecidableEq, Repr

/-- The per-leaf string coercion of processDef: strings, literals and
enums pass the raw string through; numbers and dates attempt a parse and
fall back to the raw string; booleans map the literal texts true and
false and otherwise coerce by string truthiness. -/
def coerceScalar : Schema → String → JSValue
  | .zstring, v => .str v
  | .literal _, v => .str v
  | .znumber, v =>
    match parseJSNumber v with
    | some q => .num q
    | none => .str v
  | .zdate, v =>
    match dateParse v with
    | some ms => .date ms
    | none => .str v
  | .zboolean, v => .bool (if v = "true" then true else if v = "false" then false else jsTruthy v)
  | .zenum _, v => .str v
  | _, v => .str v

/-- The final write of processDef: if the current property value is an
array the coerced value is appended, otherwise the property is
overwritten. -/
def writeJS (o : JSValue) (key : String) (pv : JSValue) : JSValue :=
  match JSValue.getJS o key with
  | some (.arr xs) => JSValue.setJS o key (.arr (xs ++ [pv]))
  | _ => JSValue.setJS o key pv

/-- The type-coercion dispatch procedure processDef of the source:
scalar leaves coerce the raw string and write it; optional, default and
effect wrappers recurse into their inner schema; an array schema first
initialises the property with an empty array if it reads as undefined and
then recurses on the element schema (the recursive write then appends);
any other schema class raises the internal unexpected-type error naming
the offending key. -/
def processDef (sdef : Schema) (o : JSValue) (key : String) (value : String) :
    Except JSError JSValue :=
  match sdef with
  | .zstring => .ok (writeJS o key (coerceScalar .zstring value))
  | .literal v => .ok (writeJS o key (coerceScalar (.literal v) value))
  | .znumber => .ok (writeJS o key (coerceScalar .znumber value))
  | .zdate => .ok (writeJS o key (coerceScalar .zdate value))
  | .zboolean => .ok (writeJS o key (coerceScalar .zboolean value))
  | .zenum vals => .ok (writeJS o key (coerceScalar (.zenum vals) value))
  | .optional inner => processDef inner o key value
  | .zdefault inner _ => processDef inner o key value
  | .array elem =>
    let o1 := if (JSValue.getJS o key).isNone then JSValue.setJS o key (.arr []) else o
    processDef elem o1 key value
  | .effect inner _ _ => processDef inner o key value
  | .obj _ => .error (.unexpectedType "ZodObject" key)
  | .union _ => .error (.unexpectedType "ZodUnion" key)
  | .other tn => .error (.unexpectedType tn key)

/-! ### The recursive routing procedure parseParams -/

mutual

/-- Shape resolution and union fan-out of parseParams, parameterised by
what the routing does at the resolved shape. The loop of lines 28-39
unwraps effect wrappers (a ZodObject resolves to its field mapping and
ends the loop); in the source the loop guard admits only ZodObject and
ZodEffects and both always provide the next shape, so the null check and
its Could-not-find-shape throw inside the loop body are unreachable and
correspond to no branch here. A resolved union node repeats the whole
assignment for every option, in order, against the same output object,
exactly as the recursive call of the source re-resolves each option. -/
def fanS (handler : JSValue → ShapeView → Except JSError JSValue) (o : JSValue) :
    Schema → Except JSError JSValue
  | .obj fields => handler o (.fieldsView fields)
  | .effect inner _ _ => fanS handler o inner
  | .union opts => fanList handler o opts
  | .optional inner => handler o (.nodeView (.optional inner))
  | .zdefault inner d => handler o (.nodeView (.zdefault inner d))
  | .array elem => handler o (.nodeView (.array elem))
  | .zstring => handler o (.nodeView .zstring)
  | .znumber => handler o (.nodeView .znumber)
  | .zboolean => handler o (.nodeView .zboolean)
  | .zdate => handler o (.nodeView .zdate)
  | .zenum vals => handler o (.nodeView (.zenum vals))
  | .literal v => handler o (.nodeView (.literal v))
  | .other tn => handler o (.nodeView (.other tn))

/-- The union fan-out loop: process every option in order, threading the
output object; a thrown error aborts the loop. -/
def fanList (handler : JSValue → ShapeView → Except JSError JSValue) (o : JSValue) :
    List Schema → Except JSError JSValue
  | [] => .ok o
  | s :: rest =>
    match fanS handler o s with
    | .ok o2 => fanList handler o2 rest
    | .error e => .error e

end

/-- One routing level of parseParams at an already resolved shape. For a
key with remaining dot-segments (dotted is true): ensure the parent
property exists (creating an empty object when the property read gives
undefined, and always performing the own-property write), then, when the
in operator finds the parent name in the shape, recurse via cont into the
parent property value, against the found sub-schema, or against the
opaque inherited function value when the name was inherited; the
recursion result is written back only when the parent value is a
reference (in the source the recursive call mutates the shared object in
place, so mutations of primitive values are lost). For a final segment:
strip the first bracket-marker occurrence if present, look the name up in
the shape, and dispatch a truthy definition to processDef; an inherited
function value raises the TypeError the source hits when it reads the
typeName of the template string; an undefined lookup silently ignores the
pair. -/
def levelStep (cont : JSValue → SchemaLike → Except JSError JSValue)
    (seg : String) (dotted : Bool) (value : String)
    (o : JSValue) (sv : ShapeView) : Except JSError JSValue :=
  if dotted then
    let cur := (JSValue.getJS o seg).getD (.obj [])
    let o1 := JSValue.setJS o seg cur
    match shapeGet sv seg with
    | .scheme sub =>
      match cont cur (.real sub) with
      | .ok r => .ok (if cur.isRef then JSValue.setJS o1 seg r else o1)
      | .error e => .error e
    | .junkFn =>
      match cont cur .junkShape with
      | .ok r => .ok (if cur.isRef then JSValue.setJS o1 seg r else o1)
      | .error e => .error e
    | .missing => .ok o1
  else
    let key := if containsBrackets seg then stripBrackets seg else seg
    match shapeGet sv key with
    | .scheme sdef => processDef sdef o key value
    | .junkFn => .error (.junkTypeError key)
    | .missing => .ok o

/-- The routing procedure parseParams of the source, with the key already
split into its dot-segments (the source recurses with the remaining
segments rejoined by dots and re-splits them on the next call; since
segments contain no dots the two representations coincide). Each level
resolves the shape, fans out over union options, and performs one routing
step, recursing on the remaining segments for dotted keys. The key of a
routing call is never empty of segments (a split always yields at least
one segment), so the empty case is unreachable and returns the output
unchanged. -/
def parseParamsSegs : JSValue → SchemaLike → List String → String → Except JSError JSValue
  | o, _, [], _ => .ok o
  | o, sl, seg :: rest, value =>
    let handler := levelStep (fun cur sl2 => parseParamsSegs cur sl2 rest value)
      seg (!rest.isEmpty) value
    match sl with
    | .junkShape => handler o .junkView
    | .real s => fanS handler o s

/-- The routing procedure on a raw key string: the key is split at dots
exactly as the source does on entry. -/
def parseParams (o : JSValue) (schema : Schema) (key : String) (value : String) :
    Except JSError JSValue :=
  parseParamsSegs o (.real schema) (segsOf key) value

/-- The accumulation loop of getParamsInternal: starting from an empty
output object, process every entry in order, skipping entries whose value
is the empty string; a thrown error aborts the whole loop. -/
def buildOutput (entries : List (String × String)) (schema : Schema) :
    Except JSError JSValue :=
  entries.foldlM
    (fun o kv => if kv.2 = "" then .ok o else parseParams o schema kv.1 kv.2)
    (.obj [])

instance {e a : Type} [DecidableEq e] [DecidableEq a] : DecidableEq (Except e a)
  | .ok x, .ok y => if h : x = y then .isTrue (by rw [h]) else .isFalse (by simp [h])
  | .error x, .error y => if h : x = y then .isTrue (by rw [h]) else .isFalse (by simp [h])
  | .ok _, .error _ => .isFalse nofun
  | .error _, .ok _ => .isFalse nofun

/-! ### The black-box schema validator -/

/-- One segment of a validator issue path: a field name or an array
index. -/
inductive PathSeg where
  | fieldName (s : String)
  | idx (n : Nat)
  deriving DecidableEq, Repr

/-- A validator issue: a human-readable message and the path of the
offending value. -/
structure Issue where
  message : String
  path : List PathSeg
  deriving DecidableEq, Repr

/-- Result of the validator's safe-parse operation. -/
inductive SafeParseResult where
  | success (data : JSValue)
  | failure (issues : List Issue)
  deriving DecidableEq, Repr

/-- Type tag of a value as it appears in validator messages. -/
def jsTypeName : JSValue → String
  | .str _ => "string"
  | .num _ => "number"
  | .bool _ => "boolean"
  | .date _ => "date"
  | .arr _ => "array"
  | .obj _ => "object"
  | .junk _ => "function"

/-- Type-mismatch message of the validator. -/
def expectedMsg (expected : String) (got : JSValue) : String :=
  "Expected " ++ expected ++ ", received " ++ jsTypeName got

/-- The value a literal schema accepts. -/
def primToValue : JSPrim → JSValue
  | .str s => .str s
  | .num q => .num q
  | .bool b => .bool b

/-- Prefixes a path segment onto an issue. -/
def prefixIssue (seg : PathSeg) (i : Issue) : Issue :=
  ⟨i.message, seg :: i.path⟩

/-- Combines one element's validation result with the result for the
remaining elements, prefixing the element index onto its issue paths. An
element result of undefined cannot arise from a present element and is
dropped. -/
def combineStep (i : Nat) (r : Except (List Issue) (Option JSValue))
    (restRes : Except (List Issue) (List JSValue)) :
    Except (List Issue) (List JSValue) :=
  match r, restRes with
  | .ok (some u), .ok outs => .ok (u :: outs)
  | .ok none, .ok outs => .ok outs
  | .error issues, .ok _ => .error (issues.map (prefixIssue (.idx i)))
  | .ok _, .error issues2 => .error issues2
  | .error issues, .error issues2 =>
    .error (issues.map (prefixIssue (.idx i)) ++ issues2)

/-- Combines the per-element validation results of an array value,
collecting the issues of every failing element. -/
def combineItems : Nat → List (Except (List Issue) (Option JSValue)) →
    Except (List Issue) (List JSValue)
  | _, [] => .ok []
  | i, r :: rest => combineStep i r (combineItems (i + 1) rest)

mutual

/-- Modelled from the spec: the schema validation library (Zod) is an
external collaborator of this repository, exposing a non-throwing parse
returning either the typed value or a list of structured issues. The
model validates a possibly-absent value against a schema node: objects
check every field (reading own properties of the input, omitting fields
that parse to undefined, collecting the issues of all failing fields with
the field name prefixed onto their paths, and stripping unknown input
keys as the default object mode does); unions succeed on the first
succeeding option and report a single issue at the union position when
all options fail; optional turns an absent value into an omitted one;
default fills an absent value with the stored default; an effect parses
its inner schema and then applies its refinement, reporting its message
with an empty relative path on failure; arrays check every element with
the index prefixed onto issue paths; leaves check the value tag, with
enums demanding membership and literals demanding the exact value. A
missing required value reports the Required message. Unrecognised schema
kinds reject their input. -/
def parseValue : Schema → Option JSValue → Except (List Issue) (Option JSValue)
  | .obj fields, v =>
    match v with
    | none => .error [⟨"Required", []⟩]
    | some (.obj props) =>
      match parseObjFields fields props with
      | .ok outFields => .ok (some (.obj outFields))
      | .error issues => .error issues
    | some other => .error [⟨expectedMsg "object" other, []⟩]
  | .union options, v => parseUnionOpts options v
  | .optional inner, v =>
    match v with
    | none => .ok none
    | some x => parseValue inner (some x)
  | .zdefault inner d, v =>
    match v with
    | none => .ok (some d)
    | some x => parseValue inner (some x)
  | .effect inner check msg, v =>
    match parseValue inner v with
    | .ok u => if check u then .ok u else .error [⟨msg, []⟩]
    | .error issues => .error issues
  | .array elem, v =>
    match v with
    | none => .error [⟨"Required", []⟩]
    | some (.arr xs) =>
      match combineItems 0 (xs.map (fun x => parseValue elem (some x))) with
      | .ok outs => .ok (some (.arr outs))
      | .error issues => .error issues
    | some other => .error [⟨expectedMsg "array" other, []⟩]
  | .zstring, v =>
    match v with
    | none => .error [⟨"Required", []⟩]
    | some (.str s) => .ok (some (.str s))
    | some other => .error [⟨expectedMsg "string" other, []⟩]
  | .znumber, v =>
    match v with
    | none => .error [⟨"Required", []⟩]
    | some (.num q) => .ok (some (.num q))
    | some other => .error [⟨expectedMsg "number" other, []⟩]
  | .zboolean, v =>
    match v with
    | none => .error [⟨"Required", []⟩]
    | some (.bool b) => .ok (some (.bool b))
    | some other => .error [⟨expectedMsg "boolean" other, []⟩]
  | .zdate, v =>
    match v with
    | none => .error [⟨"Required", []⟩]
    | some (.date ms) => .ok (some (.date ms))
    | some other => .error [⟨expectedMsg "date" other, []⟩]
  | .zenum vals, v =>
    match v with
    | none => .error [⟨"Required", []⟩]
    | some (.str s) =>
      if s ∈ vals then .ok (some (.str s)) else .error [⟨"Invalid enum value", []⟩]
    | some other => .error [⟨expectedMsg "string" other, []⟩]
  | .literal p, v =>
    match v with
    | none => .error [⟨"Required", []⟩]
    | some x => if x = primToValue p then .ok (some x) else .error [⟨"Invalid literal value", []⟩]
  | .other _, v =>
    match v with
    | none => .error [⟨"Required", []⟩]
    | some _ => .error [⟨"Invalid input", []⟩]

/-- Field-by-field validation of an object: schema fields are checked in
declaration order against the own properties of the input; issues of all
failing fields are collected, each with its field name prefixed. -/
def parseObjFields : List (String × Schema) → List (String × JSValue) →
    Except (List Issue) (List (String × JSValue))
  | [], _ => .ok []
  | (name, fs) :: rest, props =>
    match parseValue fs (JSValue.getOwnList props name), parseObjFields rest props with
    | .ok (some u), .ok outRest => .ok ((name, u) :: outRest)
    | .ok none, .ok outRest => .ok outRest
    | .error issues, .ok _ => .error (issues.map (prefixIssue (.fieldName name)))
    | .ok _, .error issues2 => .error issues2
    | .error issues, .error issues2 =>
      .error (issues.map (prefixIssue (.fieldName name)) ++ issues2)

/-- Union validation: the first option that accepts the value wins; when
every option rejects it, a single invalid-union issue is reported at the
union position. -/
def parseUnionOpts : List Schema → Option JSValue →
    Except (List Issue) (Option JSValue)
  | [], _ => .error [⟨"Invalid input", []⟩]
  | s :: rest, v =>
    match parseValue s v with
    | .ok u => .ok u
    | .error _ => parseUnionOpts rest v

end

/-- The validator's safe-parse entry point on an always-present value. -/
def safeParse (schema : Schema) (o : JSValue) : SafeParseResult :=
  match parseValue schema (some o) with
  | .ok (some d) => .success d
  | .ok none => .success (.obj [])
  | .error issues => .failure issues

/-! ### Error aggregation and the public pipeline -/

/-- An entry of the returned error mapping: a single message, or an
ordered sequence of messages once a second one accumulates. -/
inductive ErrEntry where
  | single (m : String)
  | multi (ms : List String)
  deriving DecidableEq, Repr

/-- Own-property read on the error mapping (hasOwnProperty check). -/
def getOwnErr : List (String × ErrEntry) → String → Option ErrEntry
  | [], _ => none
  | (k, e) :: rest, key => if k = key then some e else getOwnErr rest key

/-- Own-property overwrite on the error mapping, keeping the original
insertion position. -/
def setOwnErr : List (String × ErrEntry) → String → ErrEntry → List (String × ErrEntry)
  | [], key, e => [(key, e)]
  | (k, e0) :: rest, key, e =>
    if k = key then (key, e) :: rest else (k, e0) :: setOwnErr rest key e

/-- Accumulation of one more message into a field's entry: a fresh field
gets the bare message, a second message turns the entry into a sequence,
later messages are appended to the sequence. -/
def pushMsg : Option ErrEntry → String → ErrEntry
  | none, m => .single m
  | some (.single m0), m => .multi [m0, m]
  | some (.multi ms), m => .multi (ms ++ [m])

/-- The error-accumulation step in the runs where the guard call does not
crash: a key not yet present (by hasOwnProperty) is assigned the bare
message; an existing single entry is first wrapped into a sequence, and
the message is appended. -/
def addMsg (errors : List (String × ErrEntry)) (key msg : String) :
    List (String × ErrEntry) :=
  match getOwnErr errors key with
  | none => errors ++ [(key, .single msg)]
  | some e => setOwnErr errors key (pushMsg (some e) msg)

/-- The addError closure of getParamsInternal. Its membership guard is a
method call on the error mapping itself: once an own entry named
hasOwnProperty has been assigned (shadowing the inherited method), the
next call invokes that entry's string value and the whole parse throws a
TypeError; otherwise the message is accumulated. -/
def addError (errors : List (String × ErrEntry)) (key msg : String) :
    Except JSError (List (String × ErrEntry)) :=
  if (getOwnErr errors "hasOwnProperty").isSome then
    .error (.thrown "errors.hasOwnProperty is not a function")
  else .ok (addMsg errors key msg)

/-- The grouping key of an issue: the stringification of the first path
segment. An empty path destructures to an undefined key, which the
property write stringifies to the literal text undefined. -/
def topKey (i : Issue) : String :=
  match i.path with
  | [] => "undefined"
  | .fieldName s :: _ => s
  | .idx n :: _ => toString n

/-- The issue loop of getParamsInternal lines 104-114: every issue's
message is accumulated under the stringified first segment of its path
(the destructured index is used only for dead locals in the source and
plays no part in the grouping); a TypeError thrown by the accumulation
guard aborts the loop and propagates out of the whole call. -/
def aggregateIssues (issues : List Issue) :
    Except JSError (List (String × ErrEntry)) :=
  issues.foldlM (fun errs i => addError errs (topKey i) i.message) []

/-- The accumulated mapping of the runs in which no guard call crashes,
used to state what a completed aggregation contains. -/
def aggregateRun (issues : List Issue) : List (String × ErrEntry) :=
  issues.foldl (fun errs i => addMsg errs (topKey i) i.message) []

/-- The result of one parse call: the typed data on success, or the
error mapping on validation failure. Thrown schema-authoring errors are
the Except layer around this result. -/
inductive ParseResult where
  | success (data : JSValue)
  | failure (errors : List (String × ErrEntry))
  deriving DecidableEq, Repr

/-- The shared engine getParamsInternal: build the output object from the
entries (propagating thrown routing errors), validate it once with the
schema validator, and on failure aggregate the issues into the error
mapping (propagating the TypeError of a crashing aggregation guard). -/
def getParamsInternal (entries : List (String × String)) (schema : Schema) :
    Except JSError ParseResult :=
  match buildOutput entries schema with
  | .error e => .error e
  | .ok o =>
    match safeParse schema o with
    | .success d => .ok (.success d)
    | .failure issues =>
      match aggregateIssues issues with
      | .ok errs => .ok (.failure errs)
      | .error e => .error e

/-- The public getParams wrapper delegates directly to the shared
engine. -/
def getParams (entries : List (String × String)) (schema : Schema) :
    Except JSError ParseResult :=
  getParamsInternal entries schema

/-- Lower-case hexadecimal digit. -/
def hexDigit (n : Nat) : Char :=
  if n < 10 then Char.ofNat (48 + n) else Char.ofNat (87 + n)

/-- Modelled from the spec: JSON.stringify string escaping, a JavaScript
builtin outside this repository. Quotes, backslashes, and control
characters are escaped; everything else passes through. -/
def jsonEscapeChar (c : Char) : List Char :=
  if c = '"' then ['\\', '"']
  else if c = '\\' then ['\\', '\\']
  else if c = '\n' then ['\\', 'n']
  else if c = '\r' then ['\\', 'r']
  else if c = '\t' then ['\\', 't']
  else if c.toNat = 8 then ['\\', 'b']
  else if c.toNat = 12 then ['\\', 'f']
  else if c.toNat < 32 then ['\\', 'u', '0', '0', hexDigit (c.toNat / 16), hexDigit (c.toNat % 16)]
  else [c]

/-- A JSON string literal. -/
def jsonStrLit (s : String) : String :=
  "\"" ++ String.mk (s.data.flatMap jsonEscapeChar) ++ "\""

/-- JSON form of one error entry: a bare message serializes as a string,
a sequence as an array of strings. -/
def jsonErrEntry : ErrEntry → String
  | .single m => jsonStrLit m
  | .multi ms => "[" ++ String.intercalate "," (ms.map jsonStrLit) ++ "]"

/-- Modelled from the spec: JSON.stringify of the error mapping, a
JavaScript builtin outside this repository, serializing own properties
in insertion order. -/
def jsonStringifyErrors (errs : List (String × ErrEntry)) : String :=
  "\x7b" ++
    String.intercalate ","
      (errs.map (fun ke => jsonStrLit ke.1 ++ ":" ++ jsonErrEntry ke.2)) ++
  "\x7d"

/-- The getParamsOrFail wrapper: delegate to the shared engine, return
the data directly on success, and throw an error whose message is the
JSON serialization of the error mapping on validation failure. -/
def getParamsOrFail (entries : List (String × String)) (schema : Schema) :
    Except JSError JSValue :=
  match getParamsInternal entries schema with
  | .ok (.success d) => .ok d
  | .ok (.failure errs) => .error (.thrown (jsonStringifyErrors errs))
  | .error e => .error e

/-! ### Re-serialization of coerced output (specified, not implemented) -/

/-- Ascending search for the smallest exponent k below the fuel bound
with den dividing 10 to the k. -/
def decExpFrom (den : Nat) (k : Nat) : Nat → Option Nat
  | 0 => none
  | fuel + 1 => if den ∣ 10 ^ k then some k else decExpFrom den (k + 1) fuel

/-- Decimal rendering of a rational number value: integers render as
their digits, decimal fractions with a point placed by the minimal
power-of-ten denominator (the minimal exponent leaves no trailing zero);
a non-decimal rational (unreachable from numeric coercion) falls back to
a fraction rendering. -/
def ratToString (q : Rat) : String :=
  if q.den = 1 then toString q.num
  else
    match decExpFrom q.den 0 400 with
    | some k =>
      let scaled : Int := q.num * ((10 ^ k : Nat) : Int) / (q.den : Int)
      let ds := (toString scaled.natAbs).data
      let padded := List.replicate (k + 1 - ds.length) '0' ++ ds
      (if q.num < 0 then "-" else "") ++
        String.mk (padded.take (padded.length - k)) ++ "." ++
        String.mk (padded.drop (padded.length - k))
    | none => toString q.num ++ "/" ++ toString q.den

/-- Civil date of a day count since the Unix epoch (inverse of
daysFromCivil, standard era-based algorithm). -/
def civilFromDays (z0 : Int) : Int × Nat × Nat :=
  let z := z0 + 719468
  let era := (if 0 ≤ z then z else z - 146096) / 146097
  let doe := z - era * 146097
  let yoe := (doe - doe / 1460 + doe / 36524 - doe / 146096) / 365
  let y := yoe + era * 400
  let doy := doe - (365 * yoe + yoe / 4 - yoe / 100)
  let mp := (5 * doy + 2) / 153
  let d := doy - (153 * mp + 2) / 5 + 1
  let m := if mp < 10 then mp + 3 else mp - 9
  (if m ≤ 2 then y + 1 else y, m.toNat, d.toNat)

/-- Two-digit zero padding. -/
def pad2 (n : Nat) : String := if n < 10 then "0" ++ toString n else toString n

/-- Three-digit zero padding. -/
def pad3 (n : Nat) : String :=
  if n < 10 then "00" ++ toString n else if n < 100 then "0" ++ toString n else toString n

/-- ISO rendering of a millisecond timestamp. -/
def dateToString (ms : Int) : String :=
  let day := ms.fdiv 86400000
  let rem := (ms - day * 86400000).toNat
  let ymd := civilFromDays day
  toString ymd.1 ++ "-" ++ pad2 ymd.2.1 ++ "-" ++ pad2 ymd.2.2 ++ "T" ++
    pad2 (rem / 3600000) ++ ":" ++ pad2 (rem / 60000 % 60) ++ ":" ++
    pad2 (rem / 1000 % 60) ++ "." ++ pad3 (rem % 1000) ++ "Z"

/-- Flat string form of a scalar value: strings pass through, booleans
render as their literal texts, numbers and dates as their standard
renderings; reference values have no scalar form. -/
def scalarString : JSValue → String
  | .str s => s
  | .num q => ratToString q
  | .bool b => if b then "true" else "false"
  | .date ms => dateToString ms
  | _ => ""

mutual

/-- Modelled from the spec: re-serialization of coerced output back into
flat key/value form with the keying convention (dots for nesting, a
trailing bracket marker for array elements); no serializer exists in the
source, the spec postulates one for its idempotence property. A nested
object contributes one pair per scalar descendant with the dotted path as
key; an array contributes one pair per element with the bracket marker
appended; a scalar contributes its own pair. -/
def serializeEntry (pathKey : String) : JSValue → List (String × String)
  | .obj fields => serializeNested pathKey fields
  | .arr xs => xs.map (fun x => (pathKey ++ "[]", scalarString x))
  | x => [(pathKey, scalarString x)]

/-- Serialization of the fields of a nested object under a dotted path. -/
def serializeNested (parentKey : String) : List (String × JSValue) → List (String × String)
  | [] => []
  | (k, v) :: rest => serializeEntry (parentKey ++ "." ++ k) v ++ serializeNested parentKey rest

end

/-- Serialization of the fields of the top-level data object. -/
def serializeTop : List (String × JSValue) → List (String × String)
  | [] => []
  | (k, v) :: rest => serializeEntry k v ++ serializeTop rest

/-- Modelled from the spec: flat key/value form of a successful parse
result, for the idempotence property. -/
def serializeData : JSValue → List (String × String)
  | .obj fields => serializeTop fields
  | _ => []

/-! ### Helper lemmas about the accumulation loop -/

/-- Recursive form of the accumulation loop, starting from an arbitrary
intermediate object, used for inductions. -/
def processEntries (schema : Schema) (o : JSValue) : List (String × String) →
    Except JSError JSValue
  | [] => .ok o
  | kv :: rest =>
    match (if kv.2 = "" then Except.ok o else parseParams o schema kv.1 kv.2) with
    | .ok o2 => processEntries schema o2 rest
    | .error e => .error e

theorem buildOutput_eq_processEntries (entries : List (String × String)) (schema : Schema) :
    buildOutput entries schema = processEntries schema (.obj []) entries := by
  suffices h : ∀ (l : List (String × String)) (o : JSValue),
      l.foldlM (fun o kv => if kv.2 = "" then Except.ok o else parseParams o schema kv.1 kv.2)
        o = processEntries schema o l by
    exact h entries (.obj [])
  intro l
  induction l with
  | nil => intro o; rfl
  | cons kv rest ih =>
    intro o
    rw [List.foldlM_cons]
    cases hstep : (if kv.2 = "" then Except.ok o else parseParams o schema kv.1 kv.2) with
    | ok o2 =>
      simp only [processEntries, hstep]
      exact ih o2
    | error e =>
      simp only [processEntries, hstep]
      rfl

/-! ### Small bridge lemmas about keys -/

theorem mk_data (s : String) : String.mk s.data = s := by
  cases s
  rfl

theorem data_append (a b : String) : (a ++ b).data = a.data ++ b.data := by
  cases a
  cases b
  rfl

theorem splitOnDotChars_no_dot (cs : List Char) (h : '.' ∉ cs) :
    splitOnDotChars cs = [cs] := by
  induction cs with
  | nil => rfl
  | cons c rest ih =>
    have hc : ¬ c = '.' := fun he => h (he ▸ List.mem_cons_self c rest)
    have hrest : '.' ∉ rest := fun hm => h (List.mem_cons_of_mem c hm)
    simp only [splitOnDotChars, if_neg hc, ih hrest]

theorem segsOf_no_dot (k : String) (h : '.' ∉ k.data) : segsOf k = [k] := by
  simp only [segsOf, splitOnDotChars_no_dot k.data h, List.map_cons, List.map_nil, mk_data]

theorem stripBracketsChars_of_not_contains : ∀ (cs : List Char),
    containsBracketsChars cs = false → stripBracketsChars cs = cs
  | [], _ => rfl
  | [c], _ => rfl
  | c1 :: c2 :: rest, h => by
    simp only [containsBracketsChars] at h
    by_cases hb : c1 = '[' ∧ c2 = ']'
    · rw [if_pos hb] at h
      exact absurd h (by simp)
    · rw [if_neg hb] at h
      simp only [stripBracketsChars, if_neg hb,
        stripBracketsChars_of_not_contains (c2 :: rest) h]

theorem stripBracketsChars_append : ∀ (cs : List Char),
    containsBracketsChars cs = false → stripBracketsChars (cs ++ ['[', ']']) = cs
  | [], _ => rfl
  | [c], _ => by
    show stripBracketsChars (c :: '[' :: [']']) = [c]
    by_cases hb : c = '[' ∧ '[' = ']'
    · exact absurd hb.2 (by decide)
    · simp only [stripBracketsChars, if_neg hb]
      rfl
  | c1 :: c2 :: rest, h => by
    simp only [containsBracketsChars] at h
    by_cases hb : c1 = '[' ∧ c2 = ']'
    · rw [if_pos hb] at h
      exact absurd h (by simp)
    · rw [if_neg hb] at h
      show stripBracketsChars (c1 :: c2 :: (rest ++ ['[', ']'])) = c1 :: c2 :: rest
      simp only [stripBracketsChars, if_neg hb]
      have := stripBracketsChars_append (c2 :: rest) h
      simpa using this

theorem stripBrackets_of_not_contains (k : String) (h : containsBrackets k = false) :
    stripBrackets k = k := by
  simp only [stripBrackets, containsBrackets] at *
  rw [stripBracketsChars_of_not_contains k.data h, mk_data]

theorem stripBrackets_append (k : String) (h : containsBrackets k = false) :
    stripBrackets (k ++ "[]") = k := by
  simp only [stripBrackets, containsBrackets] at *
  rw [data_append]
  show String.mk (stripBracketsChars (k.data ++ ['[', ']'])) = k
  rw [stripBracketsChars_append k.data h, mk_data]

theorem containsBracketsChars_append_marker : ∀ (cs : List Char),
    containsBracketsChars (cs ++ ['[', ']']) = true
  | [] => rfl
  | [c] => by
    show containsBracketsChars (c :: '[' :: [']']) = true
    by_cases hb : c = '[' ∧ '[' = ']'
    · exact absurd hb.2 (by decide)
    · simp only [containsBracketsChars, if_neg hb]
      rfl
  | c1 :: c2 :: rest => by
    by_cases hb : c1 = '[' ∧ c2 = ']'
    · show containsBracketsChars (c1 :: c2 :: (rest ++ ['[', ']'])) = true
      simp only [containsBracketsChars, if_pos hb]
    · show containsBracketsChars (c1 :: c2 :: (rest ++ ['[', ']'])) = true
      simp only [containsBracketsChars, if_neg hb]
      have := containsBracketsChars_append_marker (c2 :: rest)
      simpa using this

theorem containsBrackets_append_marker (k : String) :
    containsBrackets (k ++ "[]") = true := by
  simp only [containsBrackets, data_append]
  exact containsBracketsChars_append_marker k.data

/-! ### Claim theorems -/

/-- C2: an empty-string-valued pair is excluded before any coercion or
assignment (building the output over any entry list equals building it
over the list with empty-valued pairs filtered out), and parsing a lone
empty-valued name pair against an optional string field succeeds with the
empty object. -/
theorem claim_C2 :
    (∀ (entries : List (String × String)) (schema : Schema),
        buildOutput entries schema =
          buildOutput (entries.filter (fun kv => kv.2 ≠ "")) schema) ∧
    getParamsInternal [("name", "")] (.obj [("name", .optional .zstring)]) =
      .ok (.success (.obj [])) := by
  refine ⟨?_, by decide⟩
  intro entries schema
  rw [buildOutput_eq_processEntries, buildOutput_eq_processEntries]
  suffices h : ∀ (l : List (String × String)) (o : JSValue),
      processEntries schema o l = processEntries schema o (l.filter (fun kv => kv.2 ≠ "")) by
    exact h entries _
  intro l
  induction l with
  | nil => intro o; rfl
  | cons kv rest ih =>
    intro o
    by_cases hv : kv.2 = ""
    · have hfilter : (kv :: rest).filter (fun kv => kv.2 ≠ "") =
          rest.filter (fun kv => kv.2 ≠ "") := by
        simp [List.filter_cons, hv]
      rw [hfilter]
      simp only [processEntries, if_pos hv]
      exact ih o
    · have hfilter : (kv :: rest).filter (fun kv => kv.2 ≠ "") =
          kv :: rest.filter (fun kv => kv.2 ≠ "") := by
        simp [List.filter_cons, hv]
      rw [hfilter]
      simp only [processEntries, if_neg hv]
      cases parseParams o schema kv.1 kv.2 with
      | ok o2 => exact ih o2
      | error e => rfl

/-- C4: a nonempty string coerced under a Boolean schema leaf becomes
true when it is exactly the text true, false when it is exactly the text
false, and true for every other nonempty string. -/
theorem claim_C4 (v : String) (hv : v ≠ "") :
    coerceScalar .zboolean v =
      .bool (if v = "true" then true else if v = "false" then false else true) := by
  simp only [coerceScalar, jsTruthy]
  rcases eq_or_ne v "true" with h | h
  · simp [h]
  · rcases eq_or_ne v "false" with h2 | h2
    · simp [h, h2]
    · simp [h, h2, hv]

/-- Witness for C4 at the string yes. -/
theorem claim_C4_witness :
    ("yes" : String) ≠ "" ∧ coerceScalar .zboolean "yes" = .bool true :=
  ⟨by decide, claim_C4 "yes" (by decide)⟩

/-- C6: the OrFail variant agrees with the plain variant: a successful
parse returns the same data directly, and a failing parse throws an
error whose message is exactly the JSON serialization of the same error
mapping. -/
theorem claim_C6 :
    (∀ (entries : List (String × String)) (schema : Schema) (d : JSValue),
        getParamsInternal entries schema = .ok (.success d) →
        getParamsOrFail entries schema = .ok d) ∧
    (∀ (entries : List (String × String)) (schema : Schema)
        (errs : List (String × ErrEntry)),
        getParamsInternal entries schema = .ok (.failure errs) →
        getParamsOrFail entries schema = .error (.thrown (jsonStringifyErrors errs))) := by
  constructor
  · intro entries schema d h
    simp only [getParamsOrFail, h]
  · intro entries schema errs h
    simp only [getParamsOrFail, h]

/-- Witness for C6: a succeeding case returns the data directly and a
failing case throws the serialized error mapping. -/
theorem claim_C6_witness :
    getParamsOrFail [("name", "Bob")] (.obj [("name", .zstring)]) =
      .ok (.obj [("name", .str "Bob")]) ∧
    getParamsOrFail [("age", "abc")] (.obj [("age", .znumber)]) =
      .error (.thrown "\x7b\"age\":\"Expected number, received string\"\x7d") :=
  ⟨claim_C6.1 _ _ _ (by decide),
   claim_C6.2 [("age", "abc")] (.obj [("age", .znumber)])
     [("age", .single "Expected number, received string")] (by decide)⟩

/-- C8 counterexample: the bracket marker is not only stripped when
trailing. The key a[]b has no trailing marker, yet routing removes its
embedded marker: it populates the field ab (and the same input parsed
against a schema whose field is literally named a[]b leaves that field
unpopulated), contradicting the claim that keys without a trailing marker
are looked up unchanged. -/
theorem claim_C8_counterexample :
    getParamsInternal [("a[]b", "v")] (.obj [("ab", .zstring)]) =
      .ok (.success (.obj [("ab", .str "v")])) ∧
    getParamsInternal [("a[]b", "v")] (.obj [("a[]b", .zstring)]) =
      .ok (.failure [("a[]b", .single "Required")]) := by decide

/-- C8 as amended: during routing of a single-segment key, the field
name looked up is the key with the first occurrence of the bracket marker
removed, wherever that occurrence sits (the claim's trailing-only wording
fails); in particular a bracket-free dotless key and the same key with a
trailing marker appended route identically, and whether a value is
appended to an array is decided solely by the schema (the marker merely
renames the key). -/
theorem claim_C8 :
    (∀ (o : JSValue) (sv : ShapeView) (cont : JSValue → SchemaLike → Except JSError JSValue)
        (k v : String),
        levelStep cont k false v o sv =
          (match shapeGet sv (stripBrackets k) with
           | .scheme sdef => processDef sdef o (stripBrackets k) v
           | .junkFn => .error (.junkTypeError (stripBrackets k))
           | .missing => .ok o)) ∧
    (∀ (o : JSValue) (schema : Schema) (k v : String),
        '.' ∉ k.data → containsBrackets k = false →
        parseParams o schema (k ++ "[]") v = parseParams o schema k v) := by
  constructor
  · intro o sv cont k v
    by_cases hb : containsBrackets k
    · simp only [levelStep, if_pos hb, Bool.false_eq_true, if_false]
    · simp only [levelStep, hb, Bool.false_eq_true, if_false,
        stripBrackets_of_not_contains k (by simpa using hb)]
  · intro o schema k v hdot hb
    have hdot2 : '.' ∉ (k ++ "[]").data := by
      rw [data_append]
      intro hmem
      rcases List.mem_append.mp hmem with hmem | hmem
      · exact hdot hmem
      · simp at hmem
    have hfn : ∀ (cont : JSValue → SchemaLike → Except JSError JSValue),
        levelStep cont (k ++ "[]") (!(List.isEmpty ([] : List String))) v =
        levelStep cont k (!(List.isEmpty ([] : List String))) v := by
      intro cont
      funext o2 sv
      simp only [levelStep, List.isEmpty, Bool.not_true, Bool.false_eq_true, if_false,
        containsBrackets_append_marker k, if_true, stripBrackets_append k hb, hb]
    simp only [parseParams, segsOf_no_dot _ hdot, segsOf_no_dot _ hdot2, parseParamsSegs]
    rw [hfn]

/-- Witness for C8: a key with a trailing marker and the bare key route
identically under an array schema, and the marker itself never causes
appending under a scalar schema. -/
theorem claim_C8_witness :
    parseParams (.obj []) (.obj [("tags", .array .zstring)]) "tags[]" "a" =
      parseParams (.obj []) (.obj [("tags", .array .zstring)]) "tags" "a" :=
  claim_C8.2 (.obj []) (.obj [("tags", .array .zstring)]) "tags" "a" (by decide) (by decide)

/-- The scalar (non-array, non-wrapper) leaf kinds of the coercion
dispatch. -/
def isScalarLeaf : Schema → Bool
  | .zstring => true
  | .znumber => true
  | .zboolean => true
  | .zdate => true
  | .zenum _ => true
  | .literal _ => true
  | _ => false

/-- True exactly on array values. -/
def isArrVal : JSValue → Bool
  | .arr _ => true
  | _ => false

theorem coerceScalar_not_arr (s : Schema) (v : String) :
    isArrVal (coerceScalar s v) = false := by
  cases s <;> simp only [coerceScalar, isArrVal]
  · cases parseJSNumber v <;> rfl
  · cases dateParse v <;> rfl

theorem processDef_scalar (sdef : Schema) (hs : isScalarLeaf sdef = true)
    (o : JSValue) (k v : String) :
    processDef sdef o k v = .ok (writeJS o k (coerceScalar sdef v)) := by
  cases sdef <;> simp_all [isScalarLeaf, processDef]

/-- Routing a clean single-segment key against a one-field object schema
dispatches straight to processDef on the field's definition. -/
theorem parseParams_single_field (o : JSValue) (k : String) (sdef : Schema) (v : String)
    (hdot : '.' ∉ k.data) (hbr : containsBrackets k = false) :
    parseParams o (.obj [(k, sdef)]) k v = processDef sdef o k v := by
  simp [parseParams, segsOf_no_dot _ hdot, parseParamsSegs, fanS, levelStep,
    List.isEmpty, hbr, shapeGet, lookupField]

theorem writeJS_empty (k : String) (pv : JSValue) :
    writeJS (.obj []) k pv = .obj [(k, pv)] := by
  simp only [writeJS, JSValue.getJS, JSValue.getOwnList]
  cases hin : inheritedName k <;>
    simp [JSValue.setJS, JSValue.setOwnList]

theorem writeJS_singleton_scalar (k : String) (w pv : JSValue) (hw : isArrVal w = false) :
    writeJS (.obj [(k, w)]) k pv = .obj [(k, pv)] := by
  cases w <;>
    simp_all [writeJS, JSValue.getJS, JSValue.getOwnList, JSValue.setJS,
      JSValue.setOwnList, isArrVal]

theorem getLastD_map (f : String → JSValue) : ∀ (l : List String) (a : String),
    (l.map f).getLastD (f a) = f (l.getLastD a)
  | [], a => rfl
  | b :: l, a => by
    rw [List.map_cons, List.getLastD_cons, List.getLastD_cons]
    exact getLastD_map f l b

theorem processEntries_scalar_fold (k : String) (sdef : Schema)
    (hs : isScalarLeaf sdef = true) (hdot : '.' ∉ k.data)
    (hbr : containsBrackets k = false) :
    ∀ (vs : List String) (w : JSValue), (∀ v ∈ vs, v ≠ "") → isArrVal w = false →
    processEntries (.obj [(k, sdef)]) (.obj [(k, w)]) (vs.map (fun v => (k, v))) =
      .ok (.obj [(k, (vs.map (coerceScalar sdef)).getLastD w)])
  | [], w, _, _ => rfl
  | v :: rest, w, hv, hw => by
    have hv0 : v ≠ "" := hv v (List.mem_cons_self v rest)
    simp only [List.map_cons, processEntries, if_neg hv0,
      parseParams_single_field _ _ _ _ hdot hbr, processDef_scalar sdef hs,
      writeJS_singleton_scalar k w _ hw]
    rw [processEntries_scalar_fold k sdef hs hdot hbr rest (coerceScalar sdef v)
      (fun x hx => hv x (List.mem_cons_of_mem v hx)) (coerceScalar_not_arr sdef v)]
    rw [List.getLastD_cons]

theorem processEntries_array_fold (k : String) (elemS : Schema)
    (hs : isScalarLeaf elemS = true) (hdot : '.' ∉ k.data)
    (hbr : containsBrackets k = false) :
    ∀ (vs : List String) (acc : List JSValue), (∀ v ∈ vs, v ≠ "") →
    processEntries (.obj [(k, .array elemS)]) (.obj [(k, .arr acc)])
        (vs.map (fun v => (k, v))) =
      .ok (.obj [(k, .arr (acc ++ vs.map (coerceScalar elemS)))])
  | [], acc, _ => by simp [processEntries]
  | v :: rest, acc, hv => by
    have hv0 : v ≠ "" := hv v (List.mem_cons_self v rest)
    have hstep : parseParams (.obj [(k, .arr acc)]) (.obj [(k, .array elemS)]) k v =
        .ok (.obj [(k, .arr (acc ++ [coerceScalar elemS v]))]) := by
      rw [parseParams_single_field _ _ _ _ hdot hbr]
      simp only [processDef]
      have hget : JSValue.getJS (.obj [(k, .arr acc)]) k = some (.arr acc) := by
        simp [JSValue.getJS, JSValue.getOwnList]
      rw [hget]
      simp [processDef_scalar elemS hs, writeJS, hget, JSValue.setJS,
        JSValue.setOwnList]
    simp only [List.map_cons, processEntries, if_neg hv0, hstep]
    rw [processEntries_array_fold k elemS hs hdot hbr rest (acc ++ [coerceScalar elemS v])
      (fun x hx => hv x (List.mem_cons_of_mem v hx))]
    simp

/-- C3 as amended: when the same field key occurs multiple times, a
scalar schema field keeps only the value of the last occurrence in input
order; an array schema field accumulates every occurrence's coerced
value in exactly the input order provided the field name is not an
inherited Object.prototype name — for an inherited-named array field the
initialisation check reads the inherited function instead of undefined,
the array is never created, and every occurrence overwrites. -/
theorem claim_C3 :
    (∀ (k : String) (sdef : Schema) (v0 : String) (rest : List String),
        '.' ∉ k.data → containsBrackets k = false → isScalarLeaf sdef = true →
        (∀ v ∈ v0 :: rest, v ≠ "") →
        buildOutput ((v0 :: rest).map (fun v => (k, v))) (.obj [(k, sdef)]) =
          .ok (.obj [(k, coerceScalar sdef (rest.getLastD v0))])) ∧
    (∀ (k : String) (elemS : Schema) (v0 : String) (rest : List String),
        '.' ∉ k.data → containsBrackets k = false → inheritedName k = false →
        isScalarLeaf elemS = true → (∀ v ∈ v0 :: rest, v ≠ "") →
        buildOutput ((v0 :: rest).map (fun v => (k, v))) (.obj [(k, .array elemS)]) =
          .ok (.obj [(k, .arr ((v0 :: rest).map (coerceScalar elemS)))])) := by
  constructor
  · intro k sdef v0 rest hdot hbr hs hv
    have hv0 : v0 ≠ "" := hv v0 (List.mem_cons_self v0 rest)
    rw [buildOutput_eq_processEntries]
    simp only [List.map_cons, processEntries, if_neg hv0,
      parseParams_single_field _ _ _ _ hdot hbr, processDef_scalar sdef hs,
      writeJS_empty]
    rw [processEntries_scalar_fold k sdef hs hdot hbr rest (coerceScalar sdef v0)
      (fun x hx => hv x (List.mem_cons_of_mem v0 hx)) (coerceScalar_not_arr sdef v0)]
    rw [getLastD_map]
  · intro k elemS v0 rest hdot hbr hinh hs hv
    have hv0 : v0 ≠ "" := hv v0 (List.mem_cons_self v0 rest)
    have hstep : parseParams (.obj []) (.obj [(k, .array elemS)]) k v0 =
        .ok (.obj [(k, .arr [coerceScalar elemS v0])]) := by
      rw [parseParams_single_field _ _ _ _ hdot hbr]
      simp only [processDef]
      have hget : JSValue.getJS (.obj []) k = none := by
        simp [JSValue.getJS, JSValue.getOwnList, hinh]
      rw [hget]
      simp [processDef_scalar elemS hs, writeJS, JSValue.getJS, JSValue.getOwnList,
        JSValue.setJS, JSValue.setOwnList]
    rw [buildOutput_eq_processEntries]
    simp only [List.map_cons, processEntries, if_neg hv0, hstep]
    rw [processEntries_array_fold k elemS hs hdot hbr rest [coerceScalar elemS v0]
      (fun x hx => hv x (List.mem_cons_of_mem v0 hx))]
    simp

/-- Witness for C3: three occurrences of a scalar key keep the last
value, and three occurrences of an array key accumulate in input order. -/
theorem claim_C3_witness :
    buildOutput [("x", "a"), ("x", "b"), ("x", "c")] (.obj [("x", .zstring)]) =
      .ok (.obj [("x", .str "c")]) ∧
    buildOutput [("tags", "a"), ("tags", "b"), ("tags", "c")]
        (.obj [("tags", .array .zstring)]) =
      .ok (.obj [("tags", .arr [.str "a", .str "b", .str "c"])]) :=
  ⟨claim_C3.1 "x" .zstring "a" ["b", "c"] (by decide) (by decide) (by decide)
      (by decide),
   claim_C3.2 "tags" .zstring "a" ["b", "c"] (by decide) (by decide) (by decide)
      (by decide) (by decide)⟩

/-- C3 counterexample: the array half of the claim fails at a field whose
name is an inherited Object.prototype name. For an array field literally
named toString (or the legacy accessor helper defineGetter), the
undefined-check that should initialise the array reads the inherited
function instead, so the array is never created and the second occurrence
overwrites the first instead of appending: two occurrences leave a single
string, not a two-element array. -/
theorem claim_C3_counterexample :
    buildOutput [("toString", "a"), ("toString", "b")]
        (.obj [("toString", .array .zstring)]) =
      .ok (.obj [("toString", .str "b")]) ∧
    buildOutput [("toString", "a"), ("toString", "b")]
        (.obj [("toString", .array .zstring)]) ≠
      .ok (.obj [("toString", .arr [.str "a", .str "b"])]) ∧
    buildOutput [("__defineGetter__", "a"), ("__defineGetter__", "b")]
        (.obj [("__defineGetter__", .array .zstring)]) =
      .ok (.obj [("__defineGetter__", .str "b")]) := by decide

/-! ### Aggregation lemmas for C5 and C10 -/

/-- The messages reported for one grouping key, in report order. -/
def msgsFor (f : String) (issues : List Issue) : List String :=
  (issues.filter (fun i => topKey i = f)).map (fun i => i.message)

/-- Abstract repeated accumulation of messages into one entry. -/
def entryAfter : Option ErrEntry → List String → Option ErrEntry
  | cur, [] => cur
  | cur, m :: ms => entryAfter (some (pushMsg cur m)) ms

/-- The messages held by an entry. -/
def entryMsgs : ErrEntry → List String
  | .single m => [m]
  | .multi ms => ms

theorem getOwnErr_append_single : ∀ (errs : List (String × ErrEntry)) (key f : String)
    (e : ErrEntry), getOwnErr errs key = none →
    getOwnErr (errs ++ [(key, e)]) f =
      (if f = key then some e else getOwnErr errs f)
  | [], key, f, e, _ => by
    simp only [List.nil_append, getOwnErr]
    by_cases h : f = key
    · subst h
      simp
    · rw [if_neg (fun he => h he.symm), if_neg h]
  | (k0, e0) :: rest, key, f, e, hnone => by
    simp only [getOwnErr] at hnone
    by_cases hk : k0 = key
    · rw [if_pos hk] at hnone
      exact absurd hnone (by simp)
    · rw [if_neg hk] at hnone
      simp only [List.cons_append, getOwnErr]
      by_cases hf : k0 = f
      · rw [if_pos hf, if_pos hf]
        have : ¬ f = key := fun he => hk (hf.trans he)
        rw [if_neg this]
      · rw [if_neg hf, if_neg hf]
        exact getOwnErr_append_single rest key f e hnone

theorem getOwnErr_setOwnErr : ∀ (errs : List (String × ErrEntry)) (key f : String)
    (e e0 : ErrEntry), getOwnErr errs key = some e0 →
    getOwnErr (setOwnErr errs key e) f =
      (if f = key then some e else getOwnErr errs f)
  | [], key, f, e, e0, h => by simp [getOwnErr] at h
  | (k0, ee) :: rest, key, f, e, e0, h => by
    simp only [getOwnErr] at h
    by_cases hk : k0 = key
    · subst hk
      rw [if_pos rfl] at h
      simp only [setOwnErr, if_pos rfl, getOwnErr]
      by_cases hf : f = k0
      · subst hf
        simp
      · rw [if_neg hf, if_neg (fun he => hf he.symm), if_neg (fun he => hf he.symm)]
    · rw [if_neg hk] at h
      simp only [setOwnErr, if_neg hk, getOwnErr]
      by_cases hf : k0 = f
      · rw [if_pos hf, if_pos hf]
        have : ¬ f = key := fun he => hk (hf.trans he)
        rw [if_neg this]
      · rw [if_neg hf, if_neg hf]
        exact getOwnErr_setOwnErr rest key f e e0 h

theorem getOwnErr_addMsg (errs : List (String × ErrEntry)) (key msg f : String) :
    getOwnErr (addMsg errs key msg) f =
      (if f = key then some (pushMsg (getOwnErr errs key) msg) else getOwnErr errs f) := by
  unfold addMsg
  cases h : getOwnErr errs key with
  | none => rw [getOwnErr_append_single errs key f (.single msg) h]; rfl
  | some e => rw [getOwnErr_setOwnErr errs key f _ e h]

theorem aggregate_loop : ∀ (issues : List Issue) (acc : List (String × ErrEntry))
    (f : String),
    getOwnErr (issues.foldl (fun errs i => addMsg errs (topKey i) i.message) acc) f =
      entryAfter (getOwnErr acc f) (msgsFor f issues)
  | [], acc, f => rfl
  | i :: rest, acc, f => by
    rw [List.foldl_cons, aggregate_loop rest _ f, getOwnErr_addMsg]
    by_cases hf : topKey i = f
    · rw [if_pos hf.symm]
      have hms : msgsFor f (i :: rest) = i.message :: msgsFor f rest := by
        simp [msgsFor, List.filter_cons, hf]
      rw [hms]
      subst hf
      rfl
    · rw [if_neg (fun he => hf he.symm)]
      have hms : msgsFor f (i :: rest) = msgsFor f rest := by
        simp [msgsFor, List.filter_cons, hf]
      rw [hms]

theorem entryAfter_multi : ∀ (ms acc : List String),
    entryAfter (some (.multi acc)) ms = some (.multi (acc ++ ms))
  | [], acc => by simp [entryAfter]
  | m :: rest, acc => by
    show entryAfter (some (.multi (acc ++ [m]))) rest = _
    rw [entryAfter_multi rest (acc ++ [m])]
    simp

theorem aggregate_shape (issues : List Issue) (f : String) :
    getOwnErr (aggregateRun issues) f =
      (match msgsFor f issues with
       | [] => none
       | [m] => some (.single m)
       | m :: rest => some (.multi (m :: rest))) := by
  rw [aggregateRun, aggregate_loop issues [] f]
  show entryAfter none (msgsFor f issues) = _
  cases msgsFor f issues with
  | nil => rfl
  | cons m rest =>
    show entryAfter (some (.single m)) rest = _
    cases rest with
    | nil => rfl
    | cons m2 rest2 =>
      show entryAfter (some (.multi [m, m2])) rest2 = _
      rw [entryAfter_multi rest2 [m, m2]]
      rfl

theorem aggregate_ok_from : ∀ (issues : List Issue),
    (∀ i ∈ issues, topKey i ≠ "hasOwnProperty") →
    ∀ (acc : List (String × ErrEntry)), getOwnErr acc "hasOwnProperty" = none →
    issues.foldlM (fun errs i => addError errs (topKey i) i.message) acc =
      .ok (issues.foldl (fun errs i => addMsg errs (topKey i) i.message) acc)
  | [], _, acc, _ => rfl
  | i :: rest, hcl, acc, hacc => by
    have hk : topKey i ≠ "hasOwnProperty" := hcl i (List.mem_cons_self _ _)
    have hstep : addError acc (topKey i) i.message =
        .ok (addMsg acc (topKey i) i.message) := by
      unfold addError
      rw [hacc]
      rfl
    rw [List.foldlM_cons, hstep, List.foldl_cons]
    show rest.foldlM (fun errs i => addError errs (topKey i) i.message)
      (addMsg acc (topKey i) i.message) = _
    apply aggregate_ok_from rest (fun j hj => hcl j (List.mem_cons_of_mem _ hj))
    rw [getOwnErr_addMsg]
    rw [if_neg (fun he => hk he.symm)]
    exact hacc

theorem aggregate_ok (issues : List Issue)
    (hcl : ∀ i ∈ issues, topKey i ≠ "hasOwnProperty") :
    aggregateIssues issues = .ok (aggregateRun issues) :=
  aggregate_ok_from issues hcl [] rfl

theorem aggregate_error_thrown : ∀ (issues : List Issue)
    (acc : List (String × ErrEntry)) (e : JSError),
    issues.foldlM (fun errs i => addError errs (topKey i) i.message) acc = .error e →
    e = .thrown "errors.hasOwnProperty is not a function"
  | [], acc, e, h => by
    have h2 : (Except.ok acc : Except JSError (List (String × ErrEntry))) = .error e := h
    simp at h2
  | i :: rest, acc, e, h => by
    rw [List.foldlM_cons] at h
    by_cases hg : (getOwnErr acc "hasOwnProperty").isSome
    · have hstep : addError acc (topKey i) i.message =
          .error (.thrown "errors.hasOwnProperty is not a function") := by
        unfold addError
        rw [if_pos hg]
      rw [hstep] at h
      have h2 : Except.error (JSError.thrown "errors.hasOwnProperty is not a function") =
          (Except.error e : Except JSError (List (String × ErrEntry))) := h
      injection h2 with h3
      exact h3.symm
    · have hstep : addError acc (topKey i) i.message =
          .ok (addMsg acc (topKey i) i.message) := by
        unfold addError
        rw [if_neg hg]
      rw [hstep] at h
      exact aggregate_error_thrown rest _ e h

/-- C5 as amended: when validation fails and no issue groups under the
literal key hasOwnProperty, the aggregation completes and the returned
error mapping records each issue's message under its top-level field
name, the entry being the bare message for a single message and the
ordered sequence of all that key's messages, in report order, once a
second one accumulates. When an entry named hasOwnProperty is assigned
and another accumulation follows, the membership guard instead invokes
the shadowing string and the whole parse throws a TypeError. -/
theorem claim_C5 (entries : List (String × String)) (schema : Schema) (o : JSValue)
    (issues : List Issue)
    (hbuild : buildOutput entries schema = .ok o)
    (hsafe : safeParse schema o = .failure issues)
    (hclean : ∀ i ∈ issues, topKey i ≠ "hasOwnProperty") :
    getParamsInternal entries schema = .ok (.failure (aggregateRun issues)) ∧
    ∀ f, getOwnErr (aggregateRun issues) f =
      (match msgsFor f issues with
       | [] => none
       | [m] => some (.single m)
       | m :: rest => some (.multi (m :: rest))) := by
  have haggr := aggregate_ok issues hclean
  refine ⟨?_, fun f => aggregate_shape issues f⟩
  simp only [getParamsInternal, hbuild, hsafe, haggr]

/-- C5 counterexample: a failing parse does not always return the error
mapping. With a required field literally named hasOwnProperty and a
second required field, validation fails with two issues; aggregating the
first assigns the entry named hasOwnProperty, so the second accumulation
calls that string as the membership guard and the whole parse throws a
TypeError instead of returning the mapping of both messages. -/
theorem claim_C5_counterexample :
    safeParse (.obj [("hasOwnProperty", .zstring), ("x", .zstring)]) (.obj []) =
      .failure [⟨"Required", [.fieldName "hasOwnProperty"]⟩,
        ⟨"Required", [.fieldName "x"]⟩] ∧
    getParamsInternal [] (.obj [("hasOwnProperty", .zstring), ("x", .zstring)]) =
      .error (.thrown "errors.hasOwnProperty is not a function") := by decide

/-- Witness for C5: two bad elements of one array field aggregate into an
ordered two-message sequence under that field's name. -/
theorem claim_C5_witness :
    getParamsInternal [("tags[]", "abc"), ("tags[]", "def")]
        (.obj [("tags", .array .znumber)]) =
      .ok (.failure (aggregateRun
        [⟨"Expected number, received string", [.fieldName "tags", .idx 0]⟩,
         ⟨"Expected number, received string", [.fieldName "tags", .idx 1]⟩])) ∧
    getOwnErr (aggregateRun
        [⟨"Expected number, received string", [.fieldName "tags", .idx 0]⟩,
         ⟨"Expected number, received string", [.fieldName "tags", .idx 1]⟩]) "tags" =
      some (.multi ["Expected number, received string",
        "Expected number, received string"]) := by
  have h := claim_C5 [("tags[]", "abc"), ("tags[]", "def")]
    (.obj [("tags", .array .znumber)])
    (.obj [("tags", .arr [.str "abc", .str "def"])])
    [⟨"Expected number, received string", [.fieldName "tags", .idx 0]⟩,
     ⟨"Expected number, received string", [.fieldName "tags", .idx 1]⟩]
    (by decide) (by decide) (by decide)
  exact ⟨h.1, (h.2 "tags").trans (by decide)⟩

/-- A failed union reports exactly the single invalid-input issue. -/
theorem parseUnionOpts_error_shape : ∀ (opts : List Schema) (v : Option JSValue)
    (issues : List Issue), parseUnionOpts opts v = .error issues →
    issues = [⟨"Invalid input", []⟩]
  | [], v, issues, h => by
    have h2 : (Except.error [(⟨"Invalid input", []⟩ : Issue)] :
        Except (List Issue) (Option JSValue)) = .error issues := h
    injection h2 with h3
    exact h3.symm
  | s :: rest, v, issues, h => by
    simp only [parseUnionOpts] at h
    cases hp : parseValue s v with
    | ok u =>
      rw [hp] at h
      exact absurd h (by simp)
    | error e =>
      rw [hp] at h
      exact parseUnionOpts_error_shape rest v issues h

/-- Every issue of a failing element combination carries its element
index, so its path is nonempty. -/
theorem combineItems_paths : ∀ (i : Nat)
    (rs : List (Except (List Issue) (Option JSValue))) (issues : List Issue),
    combineItems i rs = .error issues → ∀ j ∈ issues, j.path ≠ []
  | i, [], issues, h => by
    have h2 : (Except.ok [] : Except (List Issue) (List JSValue)) = .error issues := h
    simp at h2
  | i, r :: rest, issues, h => by
    simp only [combineItems] at h
    cases r with
    | ok u =>
      cases hrest : combineItems (i + 1) rest with
      | ok outs =>
        rw [hrest] at h
        cases u with
        | some x => simp [combineStep] at h
        | none => simp [combineStep] at h
      | error issues2 =>
        rw [hrest] at h
        have h3 : issues = issues2 := by
          cases u with
          | some x =>
            simp only [combineStep] at h
            injection h with h2
            exact h2.symm
          | none =>
            simp only [combineStep] at h
            injection h with h2
            exact h2.symm
        rw [h3]
        exact combineItems_paths (i + 1) rest issues2 hrest
    | error e0 =>
      cases hrest : combineItems (i + 1) rest with
      | ok outs =>
        rw [hrest] at h
        simp only [combineStep] at h
        injection h with h2
        intro j hj
        rw [← h2] at hj
        rcases List.mem_map.mp hj with ⟨j0, _, hj0⟩
        rw [← hj0]
        simp [prefixIssue]
      | error issues2 =>
        rw [hrest] at h
        simp only [combineStep] at h
        injection h with h2
        intro j hj
        rw [← h2] at hj
        rcases List.mem_append.mp hj with hj | hj
        · rcases List.mem_map.mp hj with ⟨j0, _, hj0⟩
          rw [← hj0]
          simp [prefixIssue]
        · exact combineItems_paths (i + 1) rest issues2 hrest j hj

/-- Every issue of a failing object field list carries its field name, so
its path is nonempty. -/
theorem parseObjFields_paths : ∀ (fields : List (String × Schema))
    (props : List (String × JSValue)) (issues : List Issue),
    parseObjFields fields props = .error issues → ∀ j ∈ issues, j.path ≠ []
  | [], props, issues, h => by
    have h2 : (Except.ok [] : Except (List Issue) (List (String × JSValue))) =
        .error issues := h
    simp at h2
  | (name, fs) :: rest, props, issues, h => by
    simp only [parseObjFields] at h
    cases hp : parseValue fs (JSValue.getOwnList props name) with
    | ok u =>
      cases hrest : parseObjFields rest props with
      | ok outs =>
        rw [hp, hrest] at h
        cases u with
        | some x => simp at h
        | none => simp at h
      | error issues2 =>
        rw [hp, hrest] at h
        have h3 : issues = issues2 := by
          cases u with
          | some x =>
            injection h with h2
            exact h2.symm
          | none =>
            injection h with h2
            exact h2.symm
        rw [h3]
        exact parseObjFields_paths rest props issues2 hrest
    | error e0 =>
      cases hrest : parseObjFields rest props with
      | ok outs =>
        rw [hp, hrest] at h
        injection h with h2
        intro j hj
        rw [← h2] at hj
        rcases List.mem_map.mp hj with ⟨j0, _, hj0⟩
        rw [← hj0]
        simp [prefixIssue]
      | error issues2 =>
        rw [hp, hrest] at h
        injection h with h2
        intro j hj
        rw [← h2] at hj
        rcases List.mem_append.mp hj with hj | hj
        · rcases List.mem_map.mp hj with ⟨j0, _, hj0⟩
          rw [← hj0]
          simp [prefixIssue]
        · exact parseObjFields_paths rest props issues2 hrest j hj

/-- A validator issue list containing an empty-path issue is that single
issue alone: empty relative paths arise only from top-level type
mismatches, failed refinements on a succeeding inner parse, and failed
unions, each of which reports exactly one issue, while object-field and
array-element issues always carry a prefixed path segment. -/
theorem parseValue_empty_singleton : ∀ (fs : Schema) (ov : Option JSValue)
    (issues : List Issue), parseValue fs ov = .error issues →
    ∀ i ∈ issues, i.path = [] → issues = [i]
  | .obj fields, ov, issues, h => by
    cases ov with
    | none =>
      have h2 : (Except.error [(⟨"Required", []⟩ : Issue)] :
          Except (List Issue) (Option JSValue)) = .error issues := h
      injection h2 with h3
      intro i hi _
      rw [← h3] at hi
      rw [← h3, List.mem_singleton.mp hi]
    | some v =>
      cases v with
      | obj props =>
        intro i hi hip
        simp only [parseValue] at h
        cases hpf : parseObjFields fields props with
        | ok outs => rw [hpf] at h; simp at h
        | error issues2 =>
          rw [hpf] at h
          injection h with h2
          rw [← h2] at hi
          exact absurd hip (parseObjFields_paths fields props issues2 hpf i hi)
      | str sv =>
        simp only [parseValue] at h
        injection h with h3
        intro i hi _
        rw [← h3] at hi
        rw [← h3, List.mem_singleton.mp hi]
      | num q =>
        simp only [parseValue] at h
        injection h with h3
        intro i hi _
        rw [← h3] at hi
        rw [← h3, List.mem_singleton.mp hi]
      | bool b =>
        simp only [parseValue] at h
        injection h with h3
        intro i hi _
        rw [← h3] at hi
        rw [← h3, List.mem_singleton.mp hi]
      | date ms =>
        simp only [parseValue] at h
        injection h with h3
        intro i hi _
        rw [← h3] at hi
        rw [← h3, List.mem_singleton.mp hi]
      | arr xs =>
        simp only [parseValue] at h
        injection h with h3
        intro i hi _
        rw [← h3] at hi
        rw [← h3, List.mem_singleton.mp hi]
      | junk n =>
        simp only [parseValue] at h
        injection h with h3
        intro i hi _
        rw [← h3] at hi
        rw [← h3, List.mem_singleton.mp hi]
  | .union opts, ov, issues, h => by
    have h3 := parseUnionOpts_error_shape opts ov issues h
    intro i hi _
    rw [h3] at hi
    rw [h3, List.mem_singleton.mp hi]
  | .optional inner, ov, issues, h => by
    cases ov with
    | none => simp [parseValue] at h
    | some x => exact parseValue_empty_singleton inner (some x) issues h
  | .zdefault inner d, ov, issues, h => by
    cases ov with
    | none => simp [parseValue] at h
    | some x => exact parseValue_empty_singleton inner (some x) issues h
  | .effect inner check msg, ov, issues, h => by
    simp only [parseValue] at h
    cases hp : parseValue inner ov with
    | ok u =>
      rw [hp] at h
      have h2 : (if check u = true then Except.ok u
          else Except.error [(⟨msg, []⟩ : Issue)]) = Except.error issues := h
      by_cases hc : check u = true
      · rw [if_pos hc] at h2
        simp at h2
      · rw [if_neg hc] at h2
        injection h2 with h3
        intro i hi _
        rw [← h3] at hi
        rw [← h3, List.mem_singleton.mp hi]
    | error issues2 =>
      rw [hp] at h
      injection h with h3
      rw [← h3]
      exact parseValue_empty_singleton inner ov issues2 hp
  | .array elem, ov, issues, h => by
    cases ov with
    | none =>
      have h2 : (Except.error [(⟨"Required", []⟩ : Issue)] :
          Except (List Issue) (Option JSValue)) = .error issues := h
      injection h2 with h3
      intro i hi _
      rw [← h3] at hi
      rw [← h3, List.mem_singleton.mp hi]
    | some v =>
      cases v with
      | arr xs =>
        intro i hi hip
        simp only [parseValue] at h
        cases hci : combineItems 0 (xs.map (fun x => parseValue elem (some x))) with
        | ok outs => rw [hci] at h; simp at h
        | error issues2 =>
          rw [hci] at h
          injection h with h2
          rw [← h2] at hi
          exact absurd hip (combineItems_paths 0 _ issues2 hci i hi)
      | str sv =>
        simp only [parseValue] at h
        injection h with h3
        intro i hi _
        rw [← h3] at hi
        rw [← h3, List.mem_singleton.mp hi]
      | num q =>
        simp only [parseValue] at h
        injection h with h3
        intro i hi _
        rw [← h3] at hi
        rw [← h3, List.mem_singleton.mp hi]
      | bool b =>
        simp only [parseValue] at h
        injection h with h3
        intro i hi _
        rw [← h3] at hi
        rw [← h3, List.mem_singleton.mp hi]
      | date ms =>
        simp only [parseValue] at h
        injection h with h3
        intro i hi _
        rw [← h3] at hi
        rw [← h3, List.mem_singleton.mp hi]
      | obj props =>
        simp only [parseValue] at h
        injection h with h3
        intro i hi _
        rw [← h3] at hi
        rw [← h3, List.mem_singleton.mp hi]
      | junk n =>
        simp only [parseValue] at h
        injection h with h3
        intro i hi _
        rw [← h3] at hi
        rw [← h3, List.mem_singleton.mp hi]
  | .zstring, ov, issues, h => by
    intro i hi _
    cases ov with
    | none =>
      have h2 : (Except.error [(⟨"Required", []⟩ : Issue)] :
          Except (List Issue) (Option JSValue)) = .error issues := h
      injection h2 with h3
      rw [← h3] at hi
      rw [← h3, List.mem_singleton.mp hi]
    | some v =>
      cases v <;> simp only [parseValue] at h <;>
        [skip; injection h with h3; injection h with h3; injection h with h3;
         injection h with h3; injection h with h3; injection h with h3] <;>
        first
        | (rw [← h3] at hi; rw [← h3, List.mem_singleton.mp hi])
        | simp at h
  | .znumber, ov, issues, h => by
    intro i hi _
    cases ov with
    | none =>
      have h2 : (Except.error [(⟨"Required", []⟩ : Issue)] :
          Except (List Issue) (Option JSValue)) = .error issues := h
      injection h2 with h3
      rw [← h3] at hi
      rw [← h3, List.mem_singleton.mp hi]
    | some v =>
      cases v <;> simp only [parseValue] at h
      case num => simp at h
      all_goals (injection h with h3; rw [← h3] at hi; rw [← h3, List.mem_singleton.mp hi])
  | .zboolean, ov, issues, h => by
    intro i hi _
    cases ov with
    | none =>
      have h2 : (Except.error [(⟨"Required", []⟩ : Issue)] :
          Except (List Issue) (Option JSValue)) = .error issues := h
      injection h2 with h3
      rw [← h3] at hi
      rw [← h3, List.mem_singleton.mp hi]
    | some v =>
      cases v <;> simp only [parseValue] at h
      case bool => simp at h
      all_goals (injection h with h3; rw [← h3] at hi; rw [← h3, List.mem_singleton.mp hi])
  | .zdate, ov, issues, h => by
    intro i hi _
    cases ov with
    | none =>
      have h2 : (Except.error [(⟨"Required", []⟩ : Issue)] :
          Except (List Issue) (Option JSValue)) = .error issues := h
      injection h2 with h3
      rw [← h3] at hi
      rw [← h3, List.mem_singleton.mp hi]
    | some v =>
      cases v <;> simp only [parseValue] at h
      case date => simp at h
      all_goals (injection h with h3; rw [← h3] at hi; rw [← h3, List.mem_singleton.mp hi])
  | .zenum vals, ov, issues, h => by
    intro i hi _
    cases ov with
    | none =>
      have h2 : (Except.error [(⟨"Required", []⟩ : Issue)] :
          Except (List Issue) (Option JSValue)) = .error issues := h
      injection h2 with h3
      rw [← h3] at hi
      rw [← h3, List.mem_singleton.mp hi]
    | some v =>
      cases v <;> simp only [parseValue] at h
      case str sv =>
        by_cases hsv : sv ∈ vals
        · rw [if_pos hsv] at h; simp at h
        · rw [if_neg hsv] at h
          injection h with h3
          rw [← h3] at hi
          rw [← h3, List.mem_singleton.mp hi]
      all_goals (injection h with h3; rw [← h3] at hi; rw [← h3, List.mem_singleton.mp hi])
  | .literal p, ov, issues, h => by
    intro i hi _
    cases ov with
    | none =>
      have h2 : (Except.error [(⟨"Required", []⟩ : Issue)] :
          Except (List Issue) (Option JSValue)) = .error issues := h
      injection h2 with h3
      rw [← h3] at hi
      rw [← h3, List.mem_singleton.mp hi]
    | some v =>
      simp only [parseValue] at h
      by_cases hv : v = primToValue p
      · rw [if_pos hv] at h; simp at h
      · rw [if_neg hv] at h
        injection h with h3
        rw [← h3] at hi
        rw [← h3, List.mem_singleton.mp hi]
  | .other tn, ov, issues, h => by
    intro i hi _
    cases ov with
    | none =>
      have h2 : (Except.error [(⟨"Required", []⟩ : Issue)] :
          Except (List Issue) (Option JSValue)) = .error issues := h
      injection h2 with h3
      rw [← h3] at hi
      rw [← h3, List.mem_singleton.mp hi]
    | some v =>
      simp only [parseValue] at h
      injection h with h3
      rw [← h3] at hi
      rw [← h3, List.mem_singleton.mp hi]

/-- C10: a validator issue with an empty path is recorded under the
literal string key undefined: the aggregation completes, the failing
parse returns the aggregated mapping, and the entry at the key undefined
contains that issue's message (it is neither dropped nor keyed by a real
field name). -/
theorem claim_C10 (entries : List (String × String)) (schema : Schema) (o : JSValue)
    (issues : List Issue) (i : Issue)
    (hbuild : buildOutput entries schema = .ok o)
    (hsafe : safeParse schema o = .failure issues)
    (hmem : i ∈ issues) (hpath : i.path = []) :
    ∃ errs, aggregateIssues issues = .ok errs ∧
      getParamsInternal entries schema = .ok (.failure errs) ∧
      ∃ e, getOwnErr errs "undefined" = some e ∧ i.message ∈ entryMsgs e := by
  have hpv : parseValue schema (some o) = .error issues := by
    unfold safeParse at hsafe
    cases hp : parseValue schema (some o) with
    | ok r =>
      rw [hp] at hsafe
      cases r <;> simp at hsafe
    | error issues2 =>
      rw [hp] at hsafe
      injection hsafe with h2
      rw [h2]
  have hsingle : issues = [i] :=
    parseValue_empty_singleton schema (some o) issues hpv i hmem hpath
  subst hsingle
  have htop : topKey i = "undefined" := by simp [topKey, hpath]
  have hcl : ∀ j ∈ [i], topKey j ≠ "hasOwnProperty" := by
    intro j hj
    rw [List.mem_singleton.mp hj, htop]
    decide
  have haggr : aggregateIssues [i] = .ok (aggregateRun [i]) := aggregate_ok [i] hcl
  refine ⟨aggregateRun [i], haggr, ?_, ?_⟩
  · simp only [getParamsInternal, hbuild, hsafe, haggr]
  · have hshape := aggregate_shape [i] "undefined"
    have hms : msgsFor "undefined" [i] = [i.message] := by simp [msgsFor, htop]
    rw [hms] at hshape
    exact ⟨.single i.message, hshape, by simp [entryMsgs]⟩

/-- Witness for C10: a failing top-level refinement produces an issue
with an empty path, and its message lands under the key undefined. -/
theorem claim_C10_witness :
    ∃ errs, aggregateIssues [⟨"Custom refinement failed", []⟩] = .ok errs ∧
      getParamsInternal [("name", "Bob")]
          (.effect (.obj [("name", .optional .zstring)]) (fun _ => false)
            "Custom refinement failed") = .ok (.failure errs) ∧
      ∃ e, getOwnErr errs "undefined" = some e ∧
        "Custom refinement failed" ∈ entryMsgs e :=
  claim_C10 [("name", "Bob")]
    (.effect (.obj [("name", .optional .zstring)]) (fun _ => false)
      "Custom refinement failed")
    (.obj [("name", .str "Bob")]) [⟨"Custom refinement failed", []⟩]
    ⟨"Custom refinement failed", []⟩ (by decide) (by decide)
    (List.mem_singleton_self _) rfl

/-! ### C9: the shape-resolution error is unreachable -/

theorem processDef_no_shape : ∀ (sdef : Schema) (o : JSValue) (k v key : String),
    processDef sdef o k v ≠ .error (.couldNotFindShape key)
  | .zstring, o, k, v, key => by simp [processDef]
  | .literal _, o, k, v, key => by simp [processDef]
  | .znumber, o, k, v, key => by simp [processDef]
  | .zdate, o, k, v, key => by simp [processDef]
  | .zboolean, o, k, v, key => by simp [processDef]
  | .zenum _, o, k, v, key => by simp [processDef]
  | .optional inner, o, k, v, key => by
    simp only [processDef]
    exact processDef_no_shape inner o k v key
  | .zdefault inner _, o, k, v, key => by
    simp only [processDef]
    exact processDef_no_shape inner o k v key
  | .array elem, o, k, v, key => by
    simp only [processDef]
    exact processDef_no_shape elem _ k v key
  | .effect inner _ _, o, k, v, key => by
    simp only [processDef]
    exact processDef_no_shape inner o k v key
  | .obj _, o, k, v, key => by simp [processDef]
  | .union _, o, k, v, key => by simp [processDef]
  | .other _, o, k, v, key => by simp [processDef]

theorem levelStep_no_shape (cont : JSValue → SchemaLike → Except JSError JSValue)
    (seg : String) (dotted : Bool) (v : String) (key : String)
    (hcont : ∀ cur sl2, cont cur sl2 ≠ .error (.couldNotFindShape key)) :
    ∀ (o : JSValue) (sv : ShapeView),
    levelStep cont seg dotted v o sv ≠ .error (.couldNotFindShape key) := by
  intro o sv
  unfold levelStep
  by_cases hd : dotted = true
  · rw [if_pos hd]
    cases shapeGet sv seg with
    | scheme sub =>
      cases hc : cont ((JSValue.getJS o seg).getD (.obj [])) (.real sub) with
      | ok r => simp [hc]
      | error e =>
        simp only [hc]
        intro he
        injection he with he2
        exact hcont _ _ (by rw [hc, he2])
    | junkFn =>
      cases hc : cont ((JSValue.getJS o seg).getD (.obj [])) .junkShape with
      | ok r => simp [hc]
      | error e =>
        simp only [hc]
        intro he
        injection he with he2
        exact hcont _ _ (by rw [hc, he2])
    | missing => simp
  · rw [if_neg hd]
    cases hsg : shapeGet sv (if containsBrackets seg = true then stripBrackets seg else seg) with
    | scheme sdef =>
      simp only [hsg]
      exact processDef_no_shape sdef o _ v key
    | junkFn => simp [hsg]
    | missing => simp [hsg]

mutual

theorem fanS_no_shape : ∀ (key : String)
    (handler : JSValue → ShapeView → Except JSError JSValue),
    (∀ o sv, handler o sv ≠ .error (.couldNotFindShape key)) →
    ∀ (o : JSValue) (s : Schema), fanS handler o s ≠ .error (.couldNotFindShape key)
  | key, handler, hh, o, .obj fields => hh o _
  | key, handler, hh, o, .effect inner _ _ => fanS_no_shape key handler hh o inner
  | key, handler, hh, o, .union opts => fanList_no_shape key handler hh o opts
  | key, handler, hh, o, .optional inner => hh o _
  | key, handler, hh, o, .zdefault inner d => hh o _
  | key, handler, hh, o, .array elem => hh o _
  | key, handler, hh, o, .zstring => hh o _
  | key, handler, hh, o, .znumber => hh o _
  | key, handler, hh, o, .zboolean => hh o _
  | key, handler, hh, o, .zdate => hh o _
  | key, handler, hh, o, .zenum vals => hh o _
  | key, handler, hh, o, .literal v => hh o _
  | key, handler, hh, o, .other tn => hh o _

theorem fanList_no_shape : ∀ (key : String)
    (handler : JSValue → ShapeView → Except JSError JSValue),
    (∀ o sv, handler o sv ≠ .error (.couldNotFindShape key)) →
    ∀ (o : JSValue) (opts : List Schema),
    fanList handler o opts ≠ .error (.couldNotFindShape key)
  | key, handler, hh, o, [] => by simp [fanList]
  | key, handler, hh, o, s :: rest => by
    simp only [fanList]
    cases hc : fanS handler o s with
    | ok o2 => exact fanList_no_shape key handler hh o2 rest
    | error e =>
      intro he
      injection he with he2
      exact fanS_no_shape key handler hh o s (by rw [hc, he2])

end

theorem parseParamsSegs_no_shape : ∀ (segs : List String) (o : JSValue)
    (sl : SchemaLike) (v key : String),
    parseParamsSegs o sl segs v ≠ .error (.couldNotFindShape key)
  | [], o, sl, v, key => by simp [parseParamsSegs]
  | seg :: rest, o, sl, v, key => by
    have hcont : ∀ cur sl2, parseParamsSegs cur sl2 rest v ≠
        .error (.couldNotFindShape key) :=
      fun cur sl2 => parseParamsSegs_no_shape rest cur sl2 v key
    have hlev := levelStep_no_shape (fun cur sl2 => parseParamsSegs cur sl2 rest v)
      seg (!rest.isEmpty) v key hcont
    cases sl with
    | junkShape => exact hlev o .junkView
    | real s => exact fanS_no_shape key _ hlev o s

theorem processEntries_no_shape : ∀ (l : List (String × String)) (schema : Schema)
    (o : JSValue) (key : String),
    processEntries schema o l ≠ .error (.couldNotFindShape key)
  | [], schema, o, key => by simp [processEntries]
  | kv :: rest, schema, o, key => by
    simp only [processEntries]
    by_cases hv : kv.2 = ""
    · rw [if_pos hv]
      exact processEntries_no_shape rest schema o key
    · rw [if_neg hv]
      cases hc : parseParams o schema kv.1 kv.2 with
      | ok o2 => exact processEntries_no_shape rest schema o2 key
      | error e =>
        intro he
        injection he with he2
        exact parseParamsSegs_no_shape (segsOf kv.1) o (.real schema) kv.2 key
          (by rw [← parseParams, hc, he2])

theorem getParamsInternal_no_shape (entries : List (String × String)) (schema : Schema)
    (key : String) :
    getParamsInternal entries schema ≠ .error (.couldNotFindShape key) := by
  unfold getParamsInternal
  cases hb : buildOutput entries schema with
  | ok o =>
    cases hs : safeParse schema o with
    | success d => simp [hs]
    | failure issues =>
      cases ha : aggregateIssues issues with
      | ok errs => simp [hs, ha]
      | error e2 =>
        simp only [hs, ha]
        intro he
        injection he with he2
        have ht := aggregate_error_thrown issues [] e2 ha
        rw [ht] at he2
        exact absurd he2 (by simp)
  | error e =>
    simp only
    intro he
    injection he with he2
    rw [buildOutput_eq_processEntries] at hb
    exact processEntries_no_shape entries schema (.obj []) key (by rw [hb, he2])

/-- C9 counterexample: the claim asserts the existence of a key and
schema on which the parse raises the internal Could-not-find-shape error;
in fact no entry list, schema, or key can make the parse raise that
error — the throw guarding a null resolved shape is dead code, since the
resolution loop only runs on object and effect nodes and both always
supply the next shape. -/
theorem claim_C9_counterexample :
    ¬ ∃ (entries : List (String × String)) (schema : Schema) (key : String),
        getParamsInternal entries schema = .error (.couldNotFindShape key) := by
  rintro ⟨entries, schema, key, h⟩
  exact getParamsInternal_no_shape entries schema key h

/-- C9 as amended: the internal Could-not-find-shape error of the
resolution loop is unreachable for every input and schema; the reachable
schema-authoring failure is processDef's unexpected-type error, which
does fail the whole parse call immediately with an error naming the
offending key (shown here for an unrecognised leaf kind) rather than
returning a Failure result or ignoring the key. -/
theorem claim_C9 :
    (∀ (entries : List (String × String)) (schema : Schema) (key : String),
        getParamsInternal entries schema ≠ .error (.couldNotFindShape key)) ∧
    getParamsInternal [("x", "v")] (.obj [("x", .other "ZodNullable")]) =
      .error (.unexpectedType "ZodNullable" "x") :=
  ⟨getParamsInternal_no_shape, by decide⟩

/-! ### C1: unknown keys -/

/-- The name actually looked up for a single-segment key: the key with
its first bracket-marker occurrence removed when one is present. -/
def routedName (k : String) : String :=
  if containsBrackets k then stripBrackets k else k

mutual

/-- True when routing the single-segment name dispatches nothing at any
shape reached through effect unwrapping and union fan-out: at an object
shape the name is a field of no shape, and at an un-unwrapped non-object
node the name is not a validator API member (whose truthy read would be
dispatched and throw). -/
def keyIgnoredS (k : String) : Schema → Bool
  | .obj fields => (lookupField fields k).isNone
  | .effect inner _ _ => keyIgnoredS k inner
  | .union opts => keyIgnoredList k opts
  | .optional _ => !zodMemberName k
  | .zdefault _ _ => !zodMemberName k
  | .array _ => !zodMemberName k
  | .zstring => !zodMemberName k
  | .znumber => !zodMemberName k
  | .zboolean => !zodMemberName k
  | .zdate => !zodMemberName k
  | .zenum _ => !zodMemberName k
  | .literal _ => !zodMemberName k
  | .other _ => !zodMemberName k

/-- The ignored-name condition over every union option. -/
def keyIgnoredList (k : String) : List Schema → Bool
  | [] => true
  | s :: rest => keyIgnoredS k s && keyIgnoredList k rest

end

theorem levelStep_ignored (cont : JSValue → SchemaLike → Except JSError JSValue)
    (seg v : String) (hinh : inheritedName (routedName seg) = false) :
    ∀ (o : JSValue) (fields : List (String × Schema)),
      lookupField fields (routedName seg) = none →
      levelStep cont seg false v o (.fieldsView fields) = .ok o := by
  intro o fields hlook
  unfold levelStep
  rw [if_neg (by simp)]
  show (match shapeGet (.fieldsView fields) (routedName seg) with
    | ShapeLookup.scheme sdef => processDef sdef o (routedName seg) v
    | ShapeLookup.junkFn => Except.error (.junkTypeError (routedName seg))
    | ShapeLookup.missing => Except.ok o) = .ok o
  simp [shapeGet, hlook, hinh]

theorem levelStep_ignored_node (cont : JSValue → SchemaLike → Except JSError JSValue)
    (seg v : String) (hinh : inheritedName (routedName seg) = false)
    (hzod : zodMemberName (routedName seg) = false) :
    ∀ (o : JSValue) (s : Schema),
      levelStep cont seg false v o (.nodeView s) = .ok o := by
  intro o s
  unfold levelStep
  rw [if_neg (by simp)]
  show (match shapeGet (.nodeView s) (routedName seg) with
    | ShapeLookup.scheme sdef => processDef sdef o (routedName seg) v
    | ShapeLookup.junkFn => Except.error (.junkTypeError (routedName seg))
    | ShapeLookup.missing => Except.ok o) = .ok o
  simp [shapeGet, hinh, hzod]

mutual

theorem fanS_ignored : ∀ (cont : JSValue → SchemaLike → Except JSError JSValue)
    (seg v : String), inheritedName (routedName seg) = false →
    ∀ (o : JSValue) (s : Schema), keyIgnoredS (routedName seg) s = true →
    fanS (levelStep cont seg false v) o s = .ok o
  | cont, seg, v, hinh, o, .obj fields, hig => by
    show levelStep cont seg false v o (.fieldsView fields) = .ok o
    exact levelStep_ignored cont seg v hinh o fields
      (by simpa [keyIgnoredS, Option.isNone_iff_eq_none] using hig)
  | cont, seg, v, hinh, o, .effect inner c m, hig =>
    fanS_ignored cont seg v hinh o inner (by simpa [keyIgnoredS] using hig)
  | cont, seg, v, hinh, o, .union opts, hig =>
    fanList_ignored cont seg v hinh o opts (by simpa [keyIgnoredS] using hig)
  | cont, seg, v, hinh, o, .optional inner, hig =>
    levelStep_ignored_node cont seg v hinh (by simpa [keyIgnoredS] using hig) o _
  | cont, seg, v, hinh, o, .zdefault inner d, hig =>
    levelStep_ignored_node cont seg v hinh (by simpa [keyIgnoredS] using hig) o _
  | cont, seg, v, hinh, o, .array elem, hig =>
    levelStep_ignored_node cont seg v hinh (by simpa [keyIgnoredS] using hig) o _
  | cont, seg, v, hinh, o, .zstring, hig =>
    levelStep_ignored_node cont seg v hinh (by simpa [keyIgnoredS] using hig) o _
  | cont, seg, v, hinh, o, .znumber, hig =>
    levelStep_ignored_node cont seg v hinh (by simpa [keyIgnoredS] using hig) o _
  | cont, seg, v, hinh, o, .zboolean, hig =>
    levelStep_ignored_node cont seg v hinh (by simpa [keyIgnoredS] using hig) o _
  | cont, seg, v, hinh, o, .zdate, hig =>
    levelStep_ignored_node cont seg v hinh (by simpa [keyIgnoredS] using hig) o _
  | cont, seg, v, hinh, o, .zenum vals, hig =>
    levelStep_ignored_node cont seg v hinh (by simpa [keyIgnoredS] using hig) o _
  | cont, seg, v, hinh, o, .literal p, hig =>
    levelStep_ignored_node cont seg v hinh (by simpa [keyIgnoredS] using hig) o _
  | cont, seg, v, hinh, o, .other tn, hig =>
    levelStep_ignored_node cont seg v hinh (by simpa [keyIgnoredS] using hig) o _

theorem fanList_ignored : ∀ (cont : JSValue → SchemaLike → Except JSError JSValue)
    (seg v : String), inheritedName (routedName seg) = false →
    ∀ (o : JSValue) (opts : List Schema), keyIgnoredList (routedName seg) opts = true →
    fanList (levelStep cont seg false v) o opts = .ok o
  | cont, seg, v, hinh, o, [], _ => rfl
  | cont, seg, v, hinh, o, s :: rest, hig => by
    have h1 : keyIgnoredS (routedName seg) s = true := by
      simp only [keyIgnoredList, Bool.and_eq_true] at hig
      exact hig.1
    have h2 : keyIgnoredList (routedName seg) rest = true := by
      simp only [keyIgnoredList, Bool.and_eq_true] at hig
      exact hig.2
    show (match fanS (levelStep cont seg false v) o s with
      | Except.ok o2 => fanList (levelStep cont seg false v) o2 rest
      | Except.error e => Except.error e) = .ok o
    rw [fanS_ignored cont seg v hinh o s h1]
    exact fanList_ignored cont seg v hinh o rest h2

end

theorem stringAppend_assoc (a b c : String) : (a ++ b) ++ c = a ++ (b ++ c) := by
  cases a with | mk da =>
  cases b with | mk db =>
  cases c with | mk dc =>
  show String.mk ((da ++ db) ++ dc) = String.mk (da ++ (db ++ dc))
  rw [List.append_assoc]

theorem splitOnDotChars_append_dot (xs ys : List Char) (h : '.' ∉ xs) :
    splitOnDotChars (xs ++ '.' :: ys) = xs :: splitOnDotChars ys := by
  induction xs with
  | nil => rfl
  | cons c rest ih =>
    have hc : ¬ c = '.' := fun he => h (he ▸ List.mem_cons_self c rest)
    have hrest : '.' ∉ rest := fun hm => h (List.mem_cons_of_mem c hm)
    show splitOnDotChars (c :: (rest ++ '.' :: ys)) = (c :: rest) :: splitOnDotChars ys
    simp only [splitOnDotChars, if_neg hc, ih hrest]

theorem splitOnDotChars_ne_nil : ∀ (cs : List Char), splitOnDotChars cs ≠ []
  | [] => by simp [splitOnDotChars]
  | c :: rest => by
    simp only [splitOnDotChars]
    by_cases hc : c = '.'
    · rw [if_pos hc]; simp
    · rw [if_neg hc]
      cases hs : splitOnDotChars rest with
      | nil => simp
      | cons s ss => simp

theorem segsOf_ne_nil (k : String) : segsOf k ≠ [] := by
  simp only [segsOf]
  intro h
  exact splitOnDotChars_ne_nil k.data (List.map_eq_nil_iff.mp h)

theorem segsOf_append_dot (a b : String) (h : '.' ∉ a.data) :
    segsOf (a ++ "." ++ b) = a :: segsOf b := by
  have hdata : (a ++ "." ++ b).data = a.data ++ '.' :: b.data := by
    rw [data_append, data_append]
    simp
  simp only [segsOf, hdata, splitOnDotChars_append_dot a.data b.data h,
    List.map_cons, mk_data]

namespace JSValue

theorem getOwnList_setOwnList_self : ∀ (os : List (String × JSValue)) (k : String)
    (v : JSValue), getOwnList (setOwnList os k v) k = some v
  | [], k, v => by simp [setOwnList, getOwnList]
  | (k0, v0) :: rest, k, v => by
    by_cases hk : k0 = k
    · simp [setOwnList, hk, getOwnList]
    · simp only [setOwnList, if_neg hk, getOwnList, if_neg hk]
      exact getOwnList_setOwnList_self rest k v

theorem setOwnList_setOwnList : ∀ (os : List (String × JSValue)) (k : String)
    (a b : JSValue), setOwnList (setOwnList os k a) k b = setOwnList os k b
  | [], k, a, b => by simp [setOwnList]
  | (k0, v0) :: rest, k, a, b => by
    by_cases hk : k0 = k
    · simp [setOwnList, hk]
    · simp only [setOwnList, if_neg hk]
      rw [setOwnList_setOwnList rest k a b]

theorem setOwnList_absent : ∀ (os : List (String × JSValue)) (k : String)
    (v : JSValue), getOwnList os k = none → setOwnList os k v = os ++ [(k, v)]
  | [], k, v, _ => rfl
  | (k0, v0) :: rest, k, v, h => by
    simp only [getOwnList] at h
    by_cases hk : k0 = k
    · rw [if_pos hk] at h
      exact absurd h (by simp)
    · rw [if_neg hk] at h
      simp only [setOwnList, if_neg hk, List.cons_append]
      rw [setOwnList_absent rest k v h]

theorem getOwnList_not_mem : ∀ (os : List (String × JSValue)) (k : String),
    (∀ p ∈ os, p.1 ≠ k) → getOwnList os k = none
  | [], k, _ => rfl
  | (k0, v0) :: rest, k, h => by
    have hk : k0 ≠ k := h (k0, v0) (List.mem_cons_self _ _)
    simp only [getOwnList, if_neg hk]
    exact getOwnList_not_mem rest k (fun p hp => h p (List.mem_cons_of_mem _ hp))

theorem getOwnList_append_absent : ∀ (os : List (String × JSValue)) (k k2 : String)
    (v : JSValue), getOwnList os k = none →
    getOwnList (os ++ [(k, v)]) k2 = (if k2 = k then some v else getOwnList os k2)
  | [], k, k2, v, _ => by
    simp only [List.nil_append, getOwnList]
    by_cases h2 : k2 = k
    · subst h2; simp
    · rw [if_neg (fun he => h2 he.symm), if_neg h2]
  | (k0, v0) :: rest, k, k2, v, h => by
    simp only [getOwnList] at h
    by_cases hk : k0 = k
    · rw [if_pos hk] at h; exact absurd h (by simp)
    · rw [if_neg hk] at h
      simp only [List.cons_append, getOwnList]
      by_cases h0 : k0 = k2
      · rw [if_pos h0, if_pos h0]
        have : ¬ k2 = k := fun he => hk (h0.trans he)
        rw [if_neg this]
      · rw [if_neg h0, if_neg h0]
        exact getOwnList_append_absent rest k k2 v h

end JSValue

theorem processEntries_append (schema : Schema) : ∀ (l1 l2 : List (String × String))
    (o : JSValue),
    processEntries schema o (l1 ++ l2) =
      (match processEntries schema o l1 with
       | .ok o2 => processEntries schema o2 l2
       | .error e => .error e)
  | [], l2, o => rfl
  | kv :: rest, l2, o => by
    simp only [List.cons_append, processEntries]
    cases (if kv.2 = "" then Except.ok o else parseParams o schema kv.1 kv.2) with
    | ok o2 => exact processEntries_append schema rest l2 o2
    | error e => rfl

/-- A field name safe for the keying convention: nonempty, free of dots
and bracket markers, and not an inherited Object.prototype name. -/
def cleanName (k : String) : Bool :=
  k ≠ "" && '.' ∉ k.data && containsBrackets k = false && inheritedName k = false

/-- The scalar leaf kinds whose coerced values re-serialize exactly:
strings, booleans, enums, and string literals (numbers and dates are
excluded from the round-trip fragment because their rendering is not part
of this repository, and non-string literals can never be produced by the
string-coercion engine). -/
def cleanLeaf : Schema → Bool
  | .zstring => true
  | .zboolean => true
  | .zenum _ => true
  | .literal (.str _) => true
  | _ => false

/-- The inner schema allowed under an optional wrapper in the round-trip
fragment: a clean leaf or an array of clean leaves. An optional object
is excluded because the routing loop does not unwrap Optional during
shape resolution, so dotted keys cannot populate it. -/
def cleanOptInner : Schema → Bool
  | .array elem => cleanLeaf elem
  | s => cleanLeaf s

mutual

/-- Field schemas of the round-trip fragment: clean leaves, arrays of
clean leaves, optionals of those, and required nested objects of clean
fields. Defaults, effects, unions, numbers, dates, non-string literals
and optional objects are outside the fragment. -/
def cleanField : Schema → Bool
  | .optional inner => cleanOptInner inner
  | .array elem => cleanLeaf elem
  | .obj fields => cleanFields fields
  | s => cleanLeaf s

/-- Clean field mappings: clean distinct names with clean field schemas. -/
def cleanFields : List (String × Schema) → Bool
  | [] => true
  | (k, s) :: rest =>
    cleanName k && cleanField s && (lookupField rest k).isNone && cleanFields rest

end

/-- The round-trip fragment: an object schema of clean fields. -/
def CleanSchema : Schema → Bool
  | .obj fields => cleanFields fields
  | _ => false

mutual

/-- Values whose flat re-serialization is faithful: nonempty strings,
booleans, nonempty arrays of good values, and nonempty objects of good
values (an empty string value would be filtered out on re-parse, and an
empty array or object serializes to no pairs at all). -/
def goodData : JSValue → Bool
  | .str s => s ≠ ""
  | .bool _ => true
  | .arr xs => xs.isEmpty = false && goodList xs
  | .obj fields => fields.isEmpty = false && goodFields fields
  | _ => false

/-- Goodness of a list of array elements. -/
def goodList : List JSValue → Bool
  | [] => true
  | x :: rest => goodData x && goodList rest

/-- Goodness of the fields of an object value. -/
def goodFields : List (String × JSValue) → Bool
  | [] => true
  | (_, v) :: rest => goodData v && goodFields rest

end

mutual

/-- The possible stored values of a clean field in validator output: the
value shapes the validator accepts identically for that field schema,
with an absent value allowed exactly under an optional wrapper. -/
def fitsField : Schema → Option JSValue → Bool
  | .zstring, some (.str _) => true
  | .zenum vals, some (.str s) => s ∈ vals
  | .literal (.str l), some (.str s) => s = l
  | .zboolean, some (.bool _) => true
  | .array elem, some (.arr xs) => xs.all (fun x => fitsField elem (some x))
  | .optional inner, some x => fitsField inner (some x)
  | .optional _, none => true
  | .obj fields, some (.obj dfs) => fitsObj fields dfs
  | _, _ => false

/-- Fit of a validator output field list against a schema field mapping:
the output walks the schema fields in order, each field either present
with a fitting value or omitted when its schema admits absence. -/
def fitsObj : List (String × Schema) → List (String × JSValue) → Bool
  | [], dfs => dfs.isEmpty
  | (name, fs) :: rest, (dk, dv) :: drest =>
    if dk = name then fitsField fs (some dv) && fitsObj rest drest
    else fitsField fs none && fitsObj rest ((dk, dv) :: drest)
  | (_, fs) :: rest, [] => fitsField fs none && fitsObj rest []

end

/-- Key-prefixing of a serialized pair with a parent path. -/
def prefixPair (a : String) (p : String × String) : String × String :=
  (a ++ "." ++ p.1, p.2)

theorem appendDot_assoc (a b k : String) :
    (a ++ "." ++ b) ++ "." ++ k = a ++ "." ++ (b ++ "." ++ k) := by
  simp [stringAppend_assoc]

mutual

theorem serializeEntry_prefixed : ∀ (a b : String) (v : JSValue),
    serializeEntry (a ++ "." ++ b) v = (serializeEntry b v).map (prefixPair a)
  | a, b, .obj fields => serializeNested_prefixed a b fields
  | a, b, .arr xs => by
    show xs.map (fun x => ((a ++ "." ++ b) ++ "[]", scalarString x)) =
      (xs.map (fun x => (b ++ "[]", scalarString x))).map (prefixPair a)
    rw [List.map_map]
    apply List.map_congr_left
    intro x _
    simp only [Function.comp, prefixPair, stringAppend_assoc]
  | a, b, .str s => by simp [serializeEntry, prefixPair, stringAppend_assoc]
  | a, b, .num q => by simp [serializeEntry, prefixPair, stringAppend_assoc]
  | a, b, .bool c => by simp [serializeEntry, prefixPair, stringAppend_assoc]
  | a, b, .date ms => by simp [serializeEntry, prefixPair, stringAppend_assoc]
  | a, b, .junk n => by simp [serializeEntry, prefixPair, stringAppend_assoc]

theorem serializeNested_prefixed : ∀ (a b : String) (dfs : List (String × JSValue)),
    serializeNested (a ++ "." ++ b) dfs = (serializeNested b dfs).map (prefixPair a)
  | a, b, [] => rfl
  | a, b, (k, v) :: rest => by
    show serializeEntry ((a ++ "." ++ b) ++ "." ++ k) v ++
        serializeNested (a ++ "." ++ b) rest =
      (serializeEntry (b ++ "." ++ k) v ++ serializeNested b rest).map (prefixPair a)
    rw [appendDot_assoc, serializeEntry_prefixed a (b ++ "." ++ k) v,
      serializeNested_prefixed a b rest, List.map_append]

end

theorem serializeNested_eq_top : ∀ (a : String) (dfs : List (String × JSValue)),
    serializeNested a dfs = (serializeTop dfs).map (prefixPair a)
  | a, [] => rfl
  | a, (k, v) :: rest => by
    show serializeEntry (a ++ "." ++ k) v ++ serializeNested a rest =
      (serializeEntry k v ++ serializeTop rest).map (prefixPair a)
    rw [serializeEntry_prefixed a k v, serializeNested_eq_top a rest, List.map_append]

mutual

theorem serializeEntry_ne_nil : ∀ (k : String) (v : JSValue),
    goodData v = true → serializeEntry k v ≠ []
  | k, .str s, _ => by simp [serializeEntry]
  | k, .bool b, _ => by simp [serializeEntry]
  | k, .arr xs, hg => by
    simp only [goodData, Bool.and_eq_true] at hg
    simp only [serializeEntry]
    intro hmap
    rw [List.map_eq_nil_iff] at hmap
    rw [hmap] at hg
    simp [List.isEmpty] at hg
  | k, .obj fields, hg => by
    simp only [goodData, Bool.and_eq_true] at hg
    show serializeNested k fields ≠ []
    cases fields with
    | nil => simp [List.isEmpty] at hg
    | cons p rest =>
      obtain ⟨kv, v⟩ := p
      show serializeEntry (k ++ "." ++ kv) v ++ serializeNested k rest ≠ []
      intro happ
      rcases List.append_eq_nil.mp happ with ⟨h1, _⟩
      have hgv : goodData v = true := by
        have := hg.2
        simp only [goodFields, Bool.and_eq_true] at this
        exact this.1
      exact serializeEntry_ne_nil (k ++ "." ++ kv) v hgv h1
  | k, .num q, hg => by simp [goodData] at hg
  | k, .date ms, hg => by simp [goodData] at hg
  | k, .junk n, hg => by simp [goodData] at hg

end

theorem cleanField_of_leaf (s : Schema) (h : cleanLeaf s = true) : cleanField s = true := by
  cases s <;> simp_all [cleanLeaf, cleanField]

theorem cleanField_of_optInner (s : Schema) (h : cleanOptInner s = true) :
    cleanField s = true := by
  cases s <;> simp_all [cleanOptInner, cleanLeaf, cleanField]

theorem parseValue_none_fits (fs : Schema) (hc : cleanField fs = true)
    (ov : Option JSValue) (h : parseValue fs ov = .ok none) :
    fitsField fs none = true := by
  cases fs with
  | optional inner => rfl
  | obj fields =>
    cases ov with
    | none => simp [parseValue] at h
    | some v =>
      cases v <;> simp only [parseValue] at h <;> try (exact absurd h (by simp))
      cases hpf : parseObjFields fields _ with
      | ok outs => rw [hpf] at h; simp at h
      | error issues => rw [hpf] at h; simp at h
  | array elem =>
    cases ov with
    | none => simp [parseValue] at h
    | some v =>
      cases v <;> simp only [parseValue] at h <;> try (exact absurd h (by simp))
      cases hci : combineItems 0 _ with
      | ok outs => rw [hci] at h; simp at h
      | error issues => rw [hci] at h; simp at h
  | zstring =>
    cases ov with
    | none => simp [parseValue] at h
    | some v => cases v <;> simp [parseValue] at h
  | zboolean =>
    cases ov with
    | none => simp [parseValue] at h
    | some v => cases v <;> simp [parseValue] at h
  | zenum vals =>
    cases ov with
    | none => simp [parseValue] at h
    | some v =>
      cases v <;> simp only [parseValue] at h <;> try (exact absurd h (by simp))
      case str s =>
        by_cases hs : s ∈ vals
        · rw [if_pos hs] at h; simp at h
        · rw [if_neg hs] at h; simp at h
  | literal p =>
    cases ov with
    | none => simp [parseValue] at h
    | some v =>
      simp only [parseValue] at h
      by_cases hx : v = primToValue p
      · rw [if_pos hx] at h; simp at h
      · rw [if_neg hx] at h; simp at h
  | union options => simp [cleanField, cleanLeaf] at hc
  | zdefault inner d => simp [cleanField, cleanLeaf] at hc
  | effect inner c m => simp [cleanField, cleanLeaf] at hc
  | znumber => simp [cleanField, cleanLeaf] at hc
  | zdate => simp [cleanField, cleanLeaf] at hc
  | other tn => simp [cleanField, cleanLeaf] at hc

theorem parseObjFields_names : ∀ (fields : List (String × Schema))
    (props dfs : List (String × JSValue)),
    parseObjFields fields props = .ok dfs →
    ∀ p ∈ dfs, ∃ s, lookupField fields p.1 = some s
  | [], props, dfs, h => by
    simp only [parseObjFields] at h
    injection h with h2
    subst h2
    intro p hp
    exact absurd hp (by simp)
  | (name, fs) :: rest, props, dfs, h => by
    simp only [parseObjFields] at h
    cases h1 : parseValue fs (JSValue.getOwnList props name) with
    | ok u =>
      cases h2 : parseObjFields rest props with
      | ok outRest =>
        rw [h1, h2] at h
        cases u with
        | some u0 =>
          simp only [] at h
          injection h with h3
          subst h3
          intro p hp
          rcases List.mem_cons.mp hp with hp | hp
          · subst hp
            exact ⟨fs, by simp [lookupField]⟩
          · rcases parseObjFields_names rest props outRest h2 p hp with ⟨s, hs⟩
            by_cases hn : name = p.1
            · exact ⟨fs, by simp [lookupField, hn]⟩
            · exact ⟨s, by simp [lookupField, hn, hs]⟩
        | none =>
          simp only [] at h
          injection h with h3
          subst h3
          intro p hp
          rcases parseObjFields_names rest props _ h2 p hp with ⟨s, hs⟩
          by_cases hn : name = p.1
          · exact ⟨fs, by simp [lookupField, hn]⟩
          · exact ⟨s, by simp [lookupField, hn, hs]⟩
      | error iss =>
        rw [h1, h2] at h
        cases u <;> simp at h
    | error iss =>
      cases h2 : parseObjFields rest props with
      | ok outRest =>
        rw [h1, h2] at h
        simp at h
      | error iss2 =>
        rw [h1, h2] at h
        simp at h

theorem combineItems_all (P : JSValue → Prop) : ∀ (i : Nat)
    (rs : List (Except (List Issue) (Option JSValue))) (outs : List JSValue),
    combineItems i rs = .ok outs →
    (∀ r ∈ rs, ∀ u, r = .ok (some u) → P u) → ∀ u ∈ outs, P u
  | i, [], outs, h, _ => by
    simp only [combineItems] at h
    injection h with h2
    subst h2
    intro u hu
    exact absurd hu (by simp)
  | i, r :: rest, outs, h, hp => by
    simp only [combineItems] at h
    unfold combineStep at h
    cases hr : r with
    | ok u0 =>
      cases hc : combineItems (i + 1) rest with
      | ok outs2 =>
        rw [hr, hc] at h
        cases u0 with
        | some u1 =>
          simp only [] at h
          injection h with h2
          subst h2
          intro u hu
          rcases List.mem_cons.mp hu with hu | hu
          · subst hu
            exact hp r (List.mem_cons_self _ _) u hr
          · exact combineItems_all P (i + 1) rest outs2 hc
              (fun r2 hr2 u2 hu2 => hp r2 (List.mem_cons_of_mem _ hr2) u2 hu2) u hu
        | none =>
          simp only [] at h
          injection h with h2
          subst h2
          intro u hu
          exact combineItems_all P (i + 1) rest _ hc
            (fun r2 hr2 u2 hu2 => hp r2 (List.mem_cons_of_mem _ hr2) u2 hu2) u hu
      | error iss =>
        rw [hr, hc] at h
        cases u0 <;> simp at h
    | error iss =>
      cases hc : combineItems (i + 1) rest with
      | ok outs2 => rw [hr, hc] at h; simp at h
      | error iss2 => rw [hr, hc] at h; simp at h

mutual

theorem parseValue_fits : ∀ (fs : Schema), cleanField fs = true →
    ∀ (ov r : Option JSValue), parseValue fs ov = .ok r → fitsField fs r = true
  | .zstring, _, ov, r, h => by
    cases ov with
    | none => simp [parseValue] at h
    | some v =>
      cases v with
      | str s =>
        simp only [parseValue] at h
        injection h with h2
        subst h2
        rfl
      | num q => simp [parseValue] at h
      | bool b => simp [parseValue] at h
      | date ms => simp [parseValue] at h
      | arr xs => simp [parseValue] at h
      | obj props => simp [parseValue] at h
      | junk n => simp [parseValue] at h
  | .zboolean, _, ov, r, h => by
    cases ov with
    | none => simp [parseValue] at h
    | some v =>
      cases v with
      | bool b =>
        simp only [parseValue] at h
        injection h with h2
        subst h2
        rfl
      | str s => simp [parseValue] at h
      | num q => simp [parseValue] at h
      | date ms => simp [parseValue] at h
      | arr xs => simp [parseValue] at h
      | obj props => simp [parseValue] at h
      | junk n => simp [parseValue] at h
  | .zenum vals, _, ov, r, h => by
    cases ov with
    | none => simp [parseValue] at h
    | some v =>
      cases v with
      | str s =>
        simp only [parseValue] at h
        by_cases hs : s ∈ vals
        · rw [if_pos hs] at h
          injection h with h2
          subst h2
          simp [fitsField, hs]
        · rw [if_neg hs] at h
          simp at h
      | num q => simp [parseValue] at h
      | bool b => simp [parseValue] at h
      | date ms => simp [parseValue] at h
      | arr xs => simp [parseValue] at h
      | obj props => simp [parseValue] at h
      | junk n => simp [parseValue] at h
  | .literal p, hc, ov, r, h => by
    cases p with
    | num q => simp [cleanField, cleanLeaf] at hc
    | bool b => simp [cleanField, cleanLeaf] at hc
    | str l =>
      cases ov with
      | none => simp [parseValue] at h
      | some v =>
        simp only [parseValue] at h
        by_cases hx : v = primToValue (.str l)
        · rw [if_pos hx] at h
          injection h with h2
          subst h2
          rw [hx]
          simp [fitsField, primToValue]
        · rw [if_neg hx] at h
          simp at h
  | .optional inner, hc, ov, r, h => by
    cases ov with
    | none =>
      simp only [parseValue] at h
      injection h with h2
      subst h2
      rfl
    | some x =>
      simp only [parseValue] at h
      have hcm := cleanField_of_optInner inner (by simpa [cleanField] using hc)
      have hfit := parseValue_fits inner hcm (some x) r h
      cases r with
      | none => rfl
      | some u => simpa [fitsField] using hfit
  | .array elem, hc, ov, r, h => by
    have hce : cleanField elem = true :=
      cleanField_of_leaf elem (by simpa [cleanField] using hc)
    cases ov with
    | none => simp [parseValue] at h
    | some v =>
      cases v with
      | arr xs =>
        simp only [parseValue] at h
        cases hci : combineItems 0 (xs.map fun x => parseValue elem (some x)) with
        | ok outs =>
          rw [hci] at h
          injection h with h2
          subst h2
          show (outs.all fun u => fitsField elem (some u)) = true
          rw [List.all_eq_true]
          intro u hu
          refine combineItems_all (fun u => fitsField elem (some u) = true) 0 _ outs hci
            ?_ u hu
          intro r2 hr2 u2 hu2
          rcases List.mem_map.mp hr2 with ⟨x, _, hx⟩
          exact parseValue_fits elem hce (some x) (some u2) (by rw [hx, hu2])
        | error iss =>
          rw [hci] at h
          simp at h
      | str s => simp [parseValue] at h
      | num q => simp [parseValue] at h
      | bool b => simp [parseValue] at h
      | date ms => simp [parseValue] at h
      | obj props => simp [parseValue] at h
      | junk n => simp [parseValue] at h
  | .obj fields, hc, ov, r, h => by
    cases ov with
    | none => simp [parseValue] at h
    | some v =>
      cases v with
      | obj props =>
        simp only [parseValue] at h
        cases hpf : parseObjFields fields props with
        | ok dfs =>
          rw [hpf] at h
          injection h with h2
          subst h2
          show fitsObj fields dfs = true
          exact parseObjFields_fits fields (by simpa [cleanField] using hc) props dfs hpf
        | error iss =>
          rw [hpf] at h
          simp at h
      | str s => simp [parseValue] at h
      | num q => simp [parseValue] at h
      | bool b => simp [parseValue] at h
      | date ms => simp [parseValue] at h
      | arr xs => simp [parseValue] at h
      | junk n => simp [parseValue] at h
  | .union options, hc, ov, r, h => by simp [cleanField, cleanLeaf] at hc
  | .zdefault inner d, hc, ov, r, h => by simp [cleanField, cleanLeaf] at hc
  | .effect inner c m, hc, ov, r, h => by simp [cleanField, cleanLeaf] at hc
  | .znumber, hc, ov, r, h => by simp [cleanField, cleanLeaf] at hc
  | .zdate, hc, ov, r, h => by simp [cleanField, cleanLeaf] at hc
  | .other tn, hc, ov, r, h => by simp [cleanField, cleanLeaf] at hc

theorem parseObjFields_fits : ∀ (fields : List (String × Schema)),
    cleanFields fields = true →
    ∀ (props dfs : List (String × JSValue)),
    parseObjFields fields props = .ok dfs → fitsObj fields dfs = true
  | [], _, props, dfs, h => by
    simp only [parseObjFields] at h
    injection h with h2
    subst h2
    rfl
  | (name, fs) :: rest, hc, props, dfs, h => by
    have hcparts : cleanName name = true ∧ cleanField fs = true ∧
        (lookupField rest name).isNone = true ∧ cleanFields rest = true := by
      simpa [cleanFields, Bool.and_eq_true, and_assoc] using hc
    obtain ⟨hcn, hcf, hlnone, hcr⟩ := hcparts
    simp only [parseObjFields] at h
    cases h1 : parseValue fs (JSValue.getOwnList props name) with
    | ok u =>
      cases h2 : parseObjFields rest props with
      | ok outRest =>
        rw [h1, h2] at h
        cases u with
        | some u0 =>
          simp only [] at h
          injection h with h3
          subst h3
          show fitsObj ((name, fs) :: rest) ((name, u0) :: outRest) = true
          simp only [fitsObj, if_true, Bool.and_eq_true]
          exact ⟨parseValue_fits fs hcf _ _ h1,
            parseObjFields_fits rest hcr props outRest h2⟩
        | none =>
          simp only [] at h
          injection h with h3
          subst h3
          have hfn : fitsField fs none = true := parseValue_none_fits fs hcf _ h1
          have hrest : fitsObj rest outRest = true :=
            parseObjFields_fits rest hcr props outRest h2
          show fitsObj ((name, fs) :: rest) outRest = true
          cases outRest with
          | nil => simp [fitsObj, hfn, hrest]
          | cons p drest =>
            obtain ⟨dk, dv⟩ := p
            have hdk : ¬ dk = name := by
              rcases parseObjFields_names rest props _ h2 (dk, dv)
                (List.mem_cons_self _ _) with ⟨s, hs⟩
              intro he
              rw [he] at hs
              rw [hs] at hlnone
              simp at hlnone
            simp only [fitsObj, if_neg hdk, Bool.and_eq_true]
            exact ⟨hfn, hrest⟩
      | error iss =>
        rw [h1, h2] at h
        cases u <;> simp at h
    | error iss =>
      cases h2 : parseObjFields rest props with
      | ok outRest => rw [h1, h2] at h; simp at h
      | error iss2 => rw [h1, h2] at h; simp at h

end

theorem parseObjFields_congr : ∀ (fields : List (String × Schema))
    (props1 props2 : List (String × JSValue)),
    (∀ k s, lookupField fields k = some s →
      JSValue.getOwnList props1 k = JSValue.getOwnList props2 k) →
    parseObjFields fields props1 = parseObjFields fields props2
  | [], _, _, _ => rfl
  | (name, fs) :: rest, props1, props2, hh => by
    simp only [parseObjFields]
    have hname : JSValue.getOwnList props1 name = JSValue.getOwnList props2 name :=
      hh name fs (by simp [lookupField])
    rw [hname]
    have hrest : parseObjFields rest props1 = parseObjFields rest props2 := by
      apply parseObjFields_congr rest props1 props2
      intro k s hks
      by_cases hn : name = k
      · exact hh k fs (by simp [lookupField, hn])
      · exact hh k s (by simp [lookupField, hn, hks])
    rw [hrest]

theorem fitsObj_names : ∀ (fields : List (String × Schema))
    (dfs : List (String × JSValue)), fitsObj fields dfs = true →
    ∀ p ∈ dfs, ∃ s, lookupField fields p.1 = some s
  | [], dfs, h, p, hp => by
    cases dfs with
    | nil => exact absurd hp (by simp)
    | cons q drest => simp [fitsObj, List.isEmpty] at h
  | (name, fs) :: rest, [], h, p, hp => absurd hp (by simp)
  | (name, fs) :: rest, (dk, dv) :: drest, h, p, hp => by
    simp only [fitsObj] at h
    by_cases hdk : dk = name
    · rw [if_pos hdk, Bool.and_eq_true] at h
      rcases List.mem_cons.mp hp with hp | hp
      · subst hp
        exact ⟨fs, by simp [lookupField, hdk]⟩
      · rcases fitsObj_names rest drest h.2 p hp with ⟨s, hs⟩
        by_cases hn : name = p.1
        · exact ⟨fs, by simp [lookupField, hn]⟩
        · exact ⟨s, by simp [lookupField, hn, hs]⟩
    · rw [if_neg hdk, Bool.and_eq_true] at h
      rcases fitsObj_names rest ((dk, dv) :: drest) h.2 p hp with ⟨s, hs⟩
      by_cases hn : name = p.1
      · exact ⟨fs, by simp [lookupField, hn]⟩
      · exact ⟨s, by simp [lookupField, hn, hs]⟩

theorem fitsField_none_parse (fs : Schema) (hc : cleanField fs = true)
    (hfit : fitsField fs none = true) : parseValue fs none = .ok none := by
  cases fs with
  | optional inner => rfl
  | zstring => simp [fitsField] at hfit
  | zboolean => simp [fitsField] at hfit
  | zenum vals => simp [fitsField] at hfit
  | literal p => simp [fitsField] at hfit
  | array elem => simp [fitsField] at hfit
  | obj fields => simp [fitsField] at hfit
  | union options => simp [cleanField, cleanLeaf] at hc
  | zdefault inner d => simp [cleanField, cleanLeaf] at hc
  | effect inner c m => simp [cleanField, cleanLeaf] at hc
  | znumber => simp [cleanField, cleanLeaf] at hc
  | zdate => simp [cleanField, cleanLeaf] at hc
  | other tn => simp [cleanField, cleanLeaf] at hc

theorem combineItems_ok (f : JSValue → Except (List Issue) (Option JSValue)) :
    ∀ (xs : List JSValue) (i : Nat), (∀ x ∈ xs, f x = .ok (some x)) →
    combineItems i (xs.map f) = .ok xs
  | [], i, _ => rfl
  | x :: rest, i, hall => by
    simp only [List.map_cons, combineItems]
    rw [hall x (List.mem_cons_self _ _),
      combineItems_ok f rest (i + 1) (fun y hy => hall y (List.mem_cons_of_mem _ hy))]
    rfl

mutual

theorem parseValue_revalidate : ∀ (fs : Schema), cleanField fs = true →
    ∀ (v : JSValue), fitsField fs (some v) = true →
    parseValue fs (some v) = .ok (some v)
  | .zstring, _, v, hfit => by
    cases v with
    | str s => rfl
    | num q => simp [fitsField] at hfit
    | bool b => simp [fitsField] at hfit
    | date ms => simp [fitsField] at hfit
    | arr xs => simp [fitsField] at hfit
    | obj props => simp [fitsField] at hfit
    | junk n => simp [fitsField] at hfit
  | .zboolean, _, v, hfit => by
    cases v with
    | bool b => rfl
    | str s => simp [fitsField] at hfit
    | num q => simp [fitsField] at hfit
    | date ms => simp [fitsField] at hfit
    | arr xs => simp [fitsField] at hfit
    | obj props => simp [fitsField] at hfit
    | junk n => simp [fitsField] at hfit
  | .zenum vals, _, v, hfit => by
    cases v with
    | str s =>
      have hs : s ∈ vals := by simpa [fitsField] using hfit
      simp [parseValue, hs]
    | num q => simp [fitsField] at hfit
    | bool b => simp [fitsField] at hfit
    | date ms => simp [fitsField] at hfit
    | arr xs => simp [fitsField] at hfit
    | obj props => simp [fitsField] at hfit
    | junk n => simp [fitsField] at hfit
  | .literal p, hc, v, hfit => by
    cases p with
    | num q => simp [cleanField, cleanLeaf] at hc
    | bool b => simp [cleanField, cleanLeaf] at hc
    | str l =>
      cases v with
      | str s =>
        have hs : s = l := by simpa [fitsField] using hfit
        simp [parseValue, primToValue, hs]
      | num q => simp [fitsField] at hfit
      | bool b => simp [fitsField] at hfit
      | date ms => simp [fitsField] at hfit
      | arr xs => simp [fitsField] at hfit
      | obj props => simp [fitsField] at hfit
      | junk n => simp [fitsField] at hfit
  | .optional inner, hc, v, hfit => by
    have hcm := cleanField_of_optInner inner (by simpa [cleanField] using hc)
    show parseValue inner (some v) = .ok (some v)
    exact parseValue_revalidate inner hcm v (by simpa [fitsField] using hfit)
  | .array elem, hc, v, hfit => by
    have hce : cleanField elem = true :=
      cleanField_of_leaf elem (by simpa [cleanField] using hc)
    cases v with
    | arr xs =>
      simp only [parseValue]
      rw [combineItems_ok (fun x => parseValue elem (some x)) xs 0 ?_]
      · intro x hx
        have hfx : fitsField elem (some x) = true := by
          have := (List.all_eq_true.mp (by simpa [fitsField] using hfit)) x hx
          simpa using this
        exact parseValue_revalidate elem hce x hfx
    | str s => simp [fitsField] at hfit
    | num q => simp [fitsField] at hfit
    | bool b => simp [fitsField] at hfit
    | date ms => simp [fitsField] at hfit
    | obj props => simp [fitsField] at hfit
    | junk n => simp [fitsField] at hfit
  | .obj fields, hc, v, hfit => by
    cases v with
    | obj dfs =>
      simp only [parseValue]
      rw [parseObjFields_revalidate fields (by simpa [cleanField] using hc) dfs
        (by simpa [fitsField] using hfit)]
    | str s => simp [fitsField] at hfit
    | num q => simp [fitsField] at hfit
    | bool b => simp [fitsField] at hfit
    | date ms => simp [fitsField] at hfit
    | arr xs => simp [fitsField] at hfit
    | junk n => simp [fitsField] at hfit
  | .union options, hc, v, hfit => by simp [cleanField, cleanLeaf] at hc
  | .zdefault inner d, hc, v, hfit => by simp [cleanField, cleanLeaf] at hc
  | .effect inner c m, hc, v, hfit => by simp [cleanField, cleanLeaf] at hc
  | .znumber, hc, v, hfit => by simp [cleanField, cleanLeaf] at hc
  | .zdate, hc, v, hfit => by simp [cleanField, cleanLeaf] at hc
  | .other tn, hc, v, hfit => by simp [cleanField, cleanLeaf] at hc

theorem parseObjFields_revalidate : ∀ (fields : List (String × Schema)),
    cleanFields fields = true → ∀ (dfs : List (String × JSValue)),
    fitsObj fields dfs = true → parseObjFields fields dfs = .ok dfs
  | [], _, dfs, hfit => by
    cases dfs with
    | nil => rfl
    | cons p drest => simp [fitsObj, List.isEmpty] at hfit
  | (name, fs) :: rest, hc, dfs, hfit => by
    have hcparts : cleanName name = true ∧ cleanField fs = true ∧
        (lookupField rest name).isNone = true ∧ cleanFields rest = true := by
      simpa [cleanFields, Bool.and_eq_true, and_assoc] using hc
    obtain ⟨hcn, hcf, hlnone, hcr⟩ := hcparts
    simp only [parseObjFields]
    cases dfs with
    | nil =>
      simp only [fitsObj, Bool.and_eq_true] at hfit
      rw [show JSValue.getOwnList [] name = none from rfl,
        fitsField_none_parse fs hcf hfit.1,
        parseObjFields_revalidate rest hcr [] hfit.2]
    | cons p drest =>
      obtain ⟨dk, dv⟩ := p
      simp only [fitsObj] at hfit
      by_cases hdk : dk = name
      · rw [if_pos hdk, Bool.and_eq_true] at hfit
        subst hdk
        have hget : JSValue.getOwnList ((dk, dv) :: drest) dk = some dv := by
          simp [JSValue.getOwnList]
        rw [hget, parseValue_revalidate fs hcf dv hfit.1]
        have hcong : parseObjFields rest ((dk, dv) :: drest) =
            parseObjFields rest drest := by
          apply parseObjFields_congr
          intro k s hks
          have hkn : ¬ dk = k := by
            intro he
            rw [← he] at hks
            rw [hks] at hlnone
            simp at hlnone
          simp [JSValue.getOwnList, hkn]
        rw [hcong, parseObjFields_revalidate rest hcr drest hfit.2]
      · rw [if_neg hdk, Bool.and_eq_true] at hfit
        have hnone : JSValue.getOwnList ((dk, dv) :: drest) name = none := by
          apply JSValue.getOwnList_not_mem
          intro p hp
          rcases fitsObj_names rest ((dk, dv) :: drest) hfit.2 p hp with ⟨s, hs⟩
          intro he
          rw [he] at hs
          rw [hs] at hlnone
          simp at hlnone
        rw [hnone, fitsField_none_parse fs hcf hfit.1,
          parseObjFields_revalidate rest hcr _ hfit.2]

end

/-- Routing a clean single-segment key against an object schema
dispatches straight to processDef on the found field definition. -/
theorem parseParams_field (o : JSValue) (fields : List (String × Schema)) (k : String)
    (sdef : Schema) (v : String) (hlk : lookupField fields k = some sdef)
    (hdot : '.' ∉ k.data) (hbr : containsBrackets k = false) :
    parseParams o (.obj fields) k v = processDef sdef o k v := by
  simp [parseParams, segsOf_no_dot _ hdot, parseParamsSegs, fanS, levelStep,
    List.isEmpty, hbr, shapeGet, hlk]

theorem writeJS_obj (os : List (String × JSValue)) (k : String) (pv : JSValue) :
    ∃ os2, writeJS (.obj os) k pv = .obj os2 := by
  unfold writeJS
  cases JSValue.getJS (.obj os) k with
  | none => exact ⟨_, rfl⟩
  | some w => cases w <;> exact ⟨_, rfl⟩

theorem processDef_obj : ∀ (sdef : Schema) (os : List (String × JSValue))
    (k v : String) (r : JSValue),
    processDef sdef (.obj os) k v = .ok r → ∃ os2, r = .obj os2
  | .zstring, os, k, v, r, h => by
    rcases writeJS_obj os k (coerceScalar .zstring v) with ⟨os2, hw⟩
    simp only [processDef, hw] at h
    exact ⟨os2, by injection h with h2; exact h2.symm⟩
  | .literal p, os, k, v, r, h => by
    rcases writeJS_obj os k (coerceScalar (.literal p) v) with ⟨os2, hw⟩
    simp only [processDef, hw] at h
    exact ⟨os2, by injection h with h2; exact h2.symm⟩
  | .znumber, os, k, v, r, h => by
    rcases writeJS_obj os k (coerceScalar .znumber v) with ⟨os2, hw⟩
    simp only [processDef, hw] at h
    exact ⟨os2, by injection h with h2; exact h2.symm⟩
  | .zdate, os, k, v, r, h => by
    rcases writeJS_obj os k (coerceScalar .zdate v) with ⟨os2, hw⟩
    simp only [processDef, hw] at h
    exact ⟨os2, by injection h with h2; exact h2.symm⟩
  | .zboolean, os, k, v, r, h => by
    rcases writeJS_obj os k (coerceScalar .zboolean v) with ⟨os2, hw⟩
    simp only [processDef, hw] at h
    exact ⟨os2, by injection h with h2; exact h2.symm⟩
  | .zenum vals, os, k, v, r, h => by
    rcases writeJS_obj os k (coerceScalar (.zenum vals) v) with ⟨os2, hw⟩
    simp only [processDef, hw] at h
    exact ⟨os2, by injection h with h2; exact h2.symm⟩
  | .optional inner, os, k, v, r, h =>
    processDef_obj inner os k v r (by simpa [processDef] using h)
  | .zdefault inner d, os, k, v, r, h =>
    processDef_obj inner os k v r (by simpa [processDef] using h)
  | .effect inner c m, os, k, v, r, h =>
    processDef_obj inner os k v r (by simpa [processDef] using h)
  | .array elem, os, k, v, r, h => by
    simp only [processDef] at h
    by_cases hn : (JSValue.getJS (.obj os) k).isNone
    · rw [if_pos hn] at h
      exact processDef_obj elem _ k v r h
    · rw [if_neg hn] at h
      exact processDef_obj elem os k v r h
  | .obj _, os, k, v, r, h => by simp [processDef] at h
  | .union _, os, k, v, r, h => by simp [processDef] at h
  | .other _, os, k, v, r, h => by simp [processDef] at h

theorem levelStep_obj (cont : JSValue → SchemaLike → Except JSError JSValue)
    (seg : String) (dotted : Bool) (v : String) :
    ∀ (os : List (String × JSValue)) (sv : ShapeView) (r : JSValue),
    levelStep cont seg dotted v (.obj os) sv = .ok r → ∃ os2, r = .obj os2 := by
  intro os sv r h
  unfold levelStep at h
  by_cases hd : dotted = true
  · rw [if_pos hd] at h
    cases hsg : shapeGet sv seg with
    | scheme sub =>
      simp only [hsg] at h
      cases hc : cont ((JSValue.getJS (.obj os) seg).getD (.obj []))
          (.real sub) with
      | ok r2 =>
        simp only [hc] at h
        injection h with h2
        by_cases hr : ((JSValue.getJS (.obj os) seg).getD (.obj [])).isRef = true
        · rw [if_pos hr] at h2
          exact ⟨_, h2.symm⟩
        · rw [if_neg hr] at h2
          exact ⟨_, h2.symm⟩
      | error e =>
        simp only [hc] at h
        simp at h
    | junkFn =>
      simp only [hsg] at h
      cases hc : cont ((JSValue.getJS (.obj os) seg).getD (.obj [])) .junkShape with
      | ok r2 =>
        simp only [hc] at h
        injection h with h2
        by_cases hr : ((JSValue.getJS (.obj os) seg).getD (.obj [])).isRef = true
        · rw [if_pos hr] at h2
          exact ⟨_, h2.symm⟩
        · rw [if_neg hr] at h2
          exact ⟨_, h2.symm⟩
      | error e =>
        simp only [hc] at h
        simp at h
    | missing =>
      simp only [hsg] at h
      injection h with h2
      exact ⟨_, h2.symm⟩
  · rw [if_neg hd] at h
    cases hsg : shapeGet sv (if containsBrackets seg = true then stripBrackets seg
        else seg) with
    | scheme sdef =>
      simp only [hsg] at h
      exact processDef_obj sdef os _ v r h
    | junkFn =>
      simp only [hsg] at h
      simp at h
    | missing =>
      simp only [hsg] at h
      injection h with h2
      exact ⟨os, h2.symm⟩

mutual

theorem fanS_obj : ∀ (handler : JSValue → ShapeView → Except JSError JSValue),
    (∀ os sv r, handler (.obj os) sv = .ok r → ∃ os2, r = .obj os2) →
    ∀ (os : List (String × JSValue)) (s : Schema) (r : JSValue),
    fanS handler (.obj os) s = .ok r → ∃ os2, r = .obj os2
  | handler, hh, os, .obj fields, r, h => hh os _ r h
  | handler, hh, os, .effect inner c m, r, h => fanS_obj handler hh os inner r h
  | handler, hh, os, .union opts, r, h => fanList_obj handler hh os opts r h
  | handler, hh, os, .optional inner, r, h => hh os _ r h
  | handler, hh, os, .zdefault inner d, r, h => hh os _ r h
  | handler, hh, os, .array elem, r, h => hh os _ r h
  | handler, hh, os, .zstring, r, h => hh os _ r h
  | handler, hh, os, .znumber, r, h => hh os _ r h
  | handler, hh, os, .zboolean, r, h => hh os _ r h
  | handler, hh, os, .zdate, r, h => hh os _ r h
  | handler, hh, os, .zenum vals, r, h => hh os _ r h
  | handler, hh, os, .literal p, r, h => hh os _ r h
  | handler, hh, os, .other tn, r, h => hh os _ r h

theorem fanList_obj : ∀ (handler : JSValue → ShapeView → Except JSError JSValue),
    (∀ os sv r, handler (.obj os) sv = .ok r → ∃ os2, r = .obj os2) →
    ∀ (os : List (String × JSValue)) (opts : List Schema) (r : JSValue),
    fanList handler (.obj os) opts = .ok r → ∃ os2, r = .obj os2
  | handler, hh, os, [], r, h => by
    simp only [fanList] at h
    injection h with h2
    exact ⟨os, h2.symm⟩
  | handler, hh, os, s :: rest, r, h => by
    simp only [fanList] at h
    cases hc : fanS handler (.obj os) s with
    | ok o2 =>
      rw [hc] at h
      rcases fanS_obj handler hh os s o2 hc with ⟨os2, ho2⟩
      subst ho2
      exact fanList_obj handler hh os2 rest r h
    | error e =>
      rw [hc] at h
      simp at h

end

theorem parseParamsSegs_obj : ∀ (segs : List String) (os : List (String × JSValue))
    (sl : SchemaLike) (v : String) (r : JSValue),
    parseParamsSegs (.obj os) sl segs v = .ok r → ∃ os2, r = .obj os2
  | [], os, sl, v, r, h => by
    simp only [parseParamsSegs] at h
    injection h with h2
    exact ⟨os, h2.symm⟩
  | seg :: rest, os, sl, v, r, h => by
    have hlev := levelStep_obj (fun cur sl2 => parseParamsSegs cur sl2 rest v)
      seg (!rest.isEmpty) v
    cases sl with
    | junkShape => exact hlev os .junkView r h
    | real s => exact fanS_obj _ hlev os s r h

theorem getJS_own (os : List (String × JSValue)) (k : String)
    (hinh : inheritedName k = false) :
    JSValue.getJS (.obj os) k = JSValue.getOwnList os k := by
  show (match JSValue.getOwnList os k with
    | some v => some v
    | none => if inheritedName k = true then some (JSValue.junk k) else none) =
    JSValue.getOwnList os k
  cases hg : JSValue.getOwnList os k with
  | some v => simp
  | none => simp [hinh]

/-- Routing a dotted clean key against an object schema: the parent
property is materialised (an absent or object-valued parent reads as an
object, so the recursive mutation is visible), the tail segments are
routed against the found sub-schema inside the parent value, and the
result is written back under the parent name. -/
theorem parseParams_dotted (os : List (String × JSValue))
    (fields : List (String × Schema)) (selfKey restKey v : String) (subS : Schema)
    (hlk : lookupField fields selfKey = some subS)
    (hdot : '.' ∉ selfKey.data) (hinh : inheritedName selfKey = false)
    (hcur : JSValue.getOwnList os selfKey = none ∨
      ∃ cf, JSValue.getOwnList os selfKey = some (.obj cf)) :
    parseParams (.obj os) (.obj fields) (selfKey ++ "." ++ restKey) v =
      (match parseParamsSegs ((JSValue.getOwnList os selfKey).getD (.obj []))
          (.real subS) (segsOf restKey) v with
       | .ok r => .ok (.obj (JSValue.setOwnList os selfKey r))
       | .error e => .error e) := by
  have hcr : ((JSValue.getOwnList os selfKey).getD (.obj [])).isRef = true := by
    rcases hcur with h | ⟨cf, h⟩ <;> simp [h, JSValue.isRef]
  rw [parseParams, segsOf_append_dot selfKey restKey hdot]
  cases hsg : segsOf restKey with
  | nil => exact absurd hsg (segsOf_ne_nil restKey)
  | cons s0 srest =>
    show levelStep (fun cur sl2 => parseParamsSegs cur sl2 (s0 :: srest) v)
      selfKey (!(s0 :: srest).isEmpty) v (.obj os) (.fieldsView fields) = _
    unfold levelStep
    rw [if_pos (by simp [List.isEmpty])]
    rw [getJS_own os selfKey hinh]
    simp only [shapeGet, hlk]
    cases hrec : parseParamsSegs ((JSValue.getOwnList os selfKey).getD (.obj []))
        (.real subS) (s0 :: srest) v with
    | ok r =>
      simp only [hrec, hcr, if_true]
      show Except.ok (JSValue.setJS (JSValue.setJS (.obj os) selfKey
        ((JSValue.getOwnList os selfKey).getD (.obj []))) selfKey r) = _
      rw [show JSValue.setJS (JSValue.setJS (.obj os) selfKey
          ((JSValue.getOwnList os selfKey).getD (.obj []))) selfKey r =
          .obj (JSValue.setOwnList os selfKey r) from by
        show JSValue.obj (JSValue.setOwnList (JSValue.setOwnList os selfKey _)
          selfKey r) = _
        rw [JSValue.setOwnList_setOwnList]]
    | error e =>
      simp only [hrec]

/-- Folding a block of pairs that all share one parent prefix: routing the
prefixed pairs at the object level equals routing the unprefixed pairs
against the parent field's schema inside the parent property, with the
final parent value written back. -/
theorem processEntries_block (fields : List (String × Schema)) (selfKey : String)
    (subS : Schema) (hlk : lookupField fields selfKey = some subS)
    (hdot : '.' ∉ selfKey.data) (hinh : inheritedName selfKey = false) :
    ∀ (subpairs : List (String × String)) (os : List (String × JSValue)),
    (∀ p ∈ subpairs, p.2 ≠ "") →
    (JSValue.getOwnList os selfKey = none ∨
      ∃ cf, JSValue.getOwnList os selfKey = some (.obj cf)) →
    processEntries (.obj fields) (.obj os) (subpairs.map (prefixPair selfKey)) =
      (match subpairs with
       | [] => .ok (.obj os)
       | _ :: _ =>
         (match processEntries subS ((JSValue.getOwnList os selfKey).getD (.obj []))
             subpairs with
          | .ok r => .ok (.obj (JSValue.setOwnList os selfKey r))
          | .error e => .error e))
  | [], os, _, _ => rfl
  | (pk, pv) :: rest, os, hne, hcur => by
    have hpv : pv ≠ "" := hne (pk, pv) (List.mem_cons_self _ _)
    have hcurobj : ∃ cf2, ((JSValue.getOwnList os selfKey).getD (.obj [])) =
        JSValue.obj cf2 := by
      rcases hcur with h | ⟨cf, h⟩
      · exact ⟨[], by rw [h]; rfl⟩
      · exact ⟨cf, by rw [h]; rfl⟩
    simp only [List.map_cons, processEntries, prefixPair]
    rw [if_neg hpv, if_neg hpv,
      parseParams_dotted os fields selfKey pk pv subS hlk hdot hinh hcur]
    rw [show parseParamsSegs ((JSValue.getOwnList os selfKey).getD (.obj []))
        (.real subS) (segsOf pk) pv =
      parseParams ((JSValue.getOwnList os selfKey).getD (.obj [])) subS pk pv from rfl]
    cases hstep : parseParams ((JSValue.getOwnList os selfKey).getD (.obj []))
        subS pk pv with
    | error e => rfl
    | ok r =>
      obtain ⟨cf2, hcf2⟩ := hcurobj
      obtain ⟨os2, hr⟩ : ∃ os2, r = JSValue.obj os2 := by
        apply parseParamsSegs_obj (segsOf pk) cf2 (.real subS) pv r
        rw [← hcf2]
        exact hstep
      have hosNew : JSValue.getOwnList (JSValue.setOwnList os selfKey r) selfKey =
          some r := JSValue.getOwnList_setOwnList_self os selfKey r
      have hih := processEntries_block fields selfKey subS hlk hdot hinh rest
        (JSValue.setOwnList os selfKey r)
        (fun p hp => hne p (List.mem_cons_of_mem _ hp))
        (Or.inr ⟨os2, by rw [hosNew, hr]⟩)
      show processEntries (Schema.obj fields)
          (JSValue.obj (JSValue.setOwnList os selfKey r))
          (List.map (prefixPair selfKey) rest) =
        (match processEntries subS r rest with
         | Except.ok r2 => Except.ok (JSValue.obj (JSValue.setOwnList os selfKey r2))
         | Except.error e => Except.error e)
      rw [hih]
      cases rest with
      | nil => rfl
      | cons q qs =>
        simp only [hosNew, Option.getD]
        cases hsub : processEntries subS r (q :: qs) with
        | ok r2 => simp [JSValue.setOwnList_setOwnList]
        | error e => rfl

theorem cleanName_parts (k : String) (h : cleanName k = true) :
    k ≠ "" ∧ '.' ∉ k.data ∧ containsBrackets k = false ∧ inheritedName k = false := by
  simpa [cleanName, Bool.and_eq_true, and_assoc] using h

theorem cleanLeaf_isScalar (s : Schema) (h : cleanLeaf s = true) :
    isScalarLeaf s = true := by
  cases s <;> simp_all [cleanLeaf, isScalarLeaf]

theorem setOwnList_self_of_get : ∀ (os : List (String × JSValue)) (k : String)
    (v : JSValue), JSValue.getOwnList os k = some v → JSValue.setOwnList os k v = os
  | [], k, v, h => by simp [JSValue.getOwnList] at h
  | (k0, v0) :: rest, k, v, h => by
    simp only [JSValue.getOwnList] at h
    by_cases hk : k0 = k
    · rw [if_pos hk] at h
      injection h with h2
      simp [JSValue.setOwnList, hk, h2]
    · rw [if_neg hk] at h
      simp only [JSValue.setOwnList, if_neg hk]
      rw [setOwnList_self_of_get rest k v h]

theorem coerce_scalarString (leaf : Schema) (hl : cleanLeaf leaf = true) (x : JSValue)
    (hfit : fitsField leaf (some x) = true) :
    coerceScalar leaf (scalarString x) = x := by
  cases leaf with
  | zstring =>
    cases x with
    | str s => rfl
    | num q => simp [fitsField] at hfit
    | bool b => simp [fitsField] at hfit
    | date ms => simp [fitsField] at hfit
    | arr xs => simp [fitsField] at hfit
    | obj props => simp [fitsField] at hfit
    | junk n => simp [fitsField] at hfit
  | zboolean =>
    cases x with
    | bool b => cases b <;> rfl
    | str s => simp [fitsField] at hfit
    | num q => simp [fitsField] at hfit
    | date ms => simp [fitsField] at hfit
    | arr xs => simp [fitsField] at hfit
    | obj props => simp [fitsField] at hfit
    | junk n => simp [fitsField] at hfit
  | zenum vals =>
    cases x with
    | str s => rfl
    | num q => simp [fitsField] at hfit
    | bool b => simp [fitsField] at hfit
    | date ms => simp [fitsField] at hfit
    | arr xs => simp [fitsField] at hfit
    | obj props => simp [fitsField] at hfit
    | junk n => simp [fitsField] at hfit
  | literal p =>
    cases p with
    | str l =>
      cases x with
      | str s => rfl
      | num q => simp [fitsField] at hfit
      | bool b => simp [fitsField] at hfit
      | date ms => simp [fitsField] at hfit
      | arr xs => simp [fitsField] at hfit
      | obj props => simp [fitsField] at hfit
      | junk n => simp [fitsField] at hfit
    | num q => simp [cleanLeaf] at hl
    | bool b => simp [cleanLeaf] at hl
  | znumber => simp [cleanLeaf] at hl
  | zdate => simp [cleanLeaf] at hl
  | obj fields => simp [cleanLeaf] at hl
  | array elem => simp [cleanLeaf] at hl
  | optional inner => simp [cleanLeaf] at hl
  | zdefault inner d => simp [cleanLeaf] at hl
  | effect inner c m => simp [cleanLeaf] at hl
  | union options => simp [cleanLeaf] at hl
  | other tn => simp [cleanLeaf] at hl

theorem scalarString_ne (leaf : Schema) (hl : cleanLeaf leaf = true) (x : JSValue)
    (hfit : fitsField leaf (some x) = true) (hg : goodData x = true) :
    scalarString x ≠ "" := by
  cases x with
  | str s => simpa [scalarString, goodData] using hg
  | bool b => cases b <;> simp [scalarString]
  | num q => cases leaf <;> simp_all [fitsField, cleanLeaf]
  | date ms => cases leaf <;> simp_all [fitsField, cleanLeaf]
  | arr xs => cases leaf <;> simp_all [fitsField, cleanLeaf]
  | obj props => cases leaf <;> simp_all [fitsField, cleanLeaf]
  | junk n => cases leaf <;> simp_all [fitsField, cleanLeaf]

theorem parseParams_field_marker (o : JSValue) (fields : List (String × Schema))
    (k : String) (sdef : Schema) (v : String)
    (hlk : lookupField fields k = some sdef) (hdot : '.' ∉ k.data)
    (hbr : containsBrackets k = false) :
    parseParams o (.obj fields) (k ++ "[]") v = processDef sdef o k v := by
  have hdot2 : '.' ∉ (k ++ "[]").data := by
    rw [data_append]
    intro hmem
    rcases List.mem_append.mp hmem with hmem | hmem
    · exact hdot hmem
    · simp at hmem
  simp [parseParams, segsOf_no_dot _ hdot2, parseParamsSegs, fanS, levelStep,
    List.isEmpty, containsBrackets_append_marker k, stripBrackets_append k hbr,
    shapeGet, hlk]

/-- Folding the bracket-marker serialized pairs of an array's elements onto
an object whose property already holds an array: every element's coerced
value is appended in order, reconstructing the full array value. -/
theorem arr_append_fold (fields : List (String × Schema)) (selfKey : String)
    (elemS subS : Schema) (hlk : lookupField fields selfKey = some subS)
    (hpd : ∀ (o : JSValue) (v : String),
      processDef subS o selfKey v = processDef (.array elemS) o selfKey v)
    (helem : cleanLeaf elemS = true)
    (hdot : '.' ∉ selfKey.data) (hbr : containsBrackets selfKey = false)
    (hinh : inheritedName selfKey = false) :
    ∀ (xs acc : List JSValue) (os : List (String × JSValue)),
    (∀ x ∈ xs, fitsField elemS (some x) = true) →
    (∀ x ∈ xs, goodData x = true) →
    JSValue.getOwnList os selfKey = some (.arr acc) →
    processEntries (.obj fields) (.obj os)
        (xs.map (fun x => (selfKey ++ "[]", scalarString x))) =
      .ok (.obj (JSValue.setOwnList os selfKey (.arr (acc ++ xs))))
  | [], acc, os, _, _, hget => by
    show Except.ok (JSValue.obj os) = _
    rw [List.append_nil, setOwnList_self_of_get os selfKey _ hget]
  | x :: xrest, acc, os, hfit, hgood, hget => by
    have hfx : fitsField elemS (some x) = true := hfit x (List.mem_cons_self _ _)
    have hgx : goodData x = true := hgood x (List.mem_cons_self _ _)
    have hne : scalarString x ≠ "" := scalarString_ne elemS helem x hfx hgx
    simp only [List.map_cons, processEntries]
    rw [if_neg hne]
    rw [parseParams_field_marker (.obj os) fields selfKey subS (scalarString x)
      hlk hdot hbr]
    rw [hpd]
    have hgjs : JSValue.getJS (.obj os) selfKey = some (.arr acc) := by
      rw [getJS_own os selfKey hinh, hget]
    rw [show processDef (.array elemS) (.obj os) selfKey (scalarString x) =
        processDef elemS (.obj os) selfKey (scalarString x) from by
      simp [processDef, hgjs]]
    rw [processDef_scalar elemS (cleanLeaf_isScalar elemS helem)]
    rw [coerce_scalarString elemS helem x hfx]
    rw [show writeJS (.obj os) selfKey x =
        .obj (JSValue.setOwnList os selfKey (.arr (acc ++ [x]))) from by
      simp [writeJS, hgjs, JSValue.setJS]]
    show processEntries (Schema.obj fields)
        (.obj (JSValue.setOwnList os selfKey (.arr (acc ++ [x]))))
        (xrest.map (fun x2 => (selfKey ++ "[]", scalarString x2))) = _
    rw [arr_append_fold fields selfKey elemS subS hlk hpd helem hdot hbr hinh
      xrest (acc ++ [x]) (JSValue.setOwnList os selfKey (.arr (acc ++ [x])))
      (fun y hy => hfit y (List.mem_cons_of_mem _ hy))
      (fun y hy => hgood y (List.mem_cons_of_mem _ hy))
      (JSValue.getOwnList_setOwnList_self os selfKey _)]
    rw [JSValue.setOwnList_setOwnList, List.append_assoc, List.singleton_append]

theorem fitsLeaf_shape (leaf : Schema) (hl : cleanLeaf leaf = true) (v : JSValue)
    (hfit : fitsField leaf (some v) = true) :
    (∃ s, v = .str s) ∨ (∃ b, v = .bool b) := by
  cases leaf with
  | zstring => cases v <;> simp_all [fitsField]
  | zboolean => cases v <;> simp_all [fitsField]
  | zenum vals => cases v <;> simp_all [fitsField]
  | literal p =>
    cases p with
    | str l => cases v <;> simp_all [fitsField]
    | num q => simp [cleanLeaf] at hl
    | bool b => simp [cleanLeaf] at hl
  | znumber => simp [cleanLeaf] at hl
  | zdate => simp [cleanLeaf] at hl
  | obj fields => simp [cleanLeaf] at hl
  | array elem => simp [cleanLeaf] at hl
  | optional inner => simp [cleanLeaf] at hl
  | zdefault inner d => simp [cleanLeaf] at hl
  | effect inner c m => simp [cleanLeaf] at hl
  | union options => simp [cleanLeaf] at hl
  | other tn => simp [cleanLeaf] at hl

theorem goodList_mem : ∀ (xs : List JSValue), goodList xs = true →
    ∀ x ∈ xs, goodData x = true
  | [], _, x, hx => absurd hx (List.not_mem_nil x)
  | y :: rest, hg, x, hx => by
    simp only [goodList, Bool.and_eq_true] at hg
    rcases List.mem_cons.mp hx with h | h
    · rw [h]; exact hg.1
    · exact goodList_mem rest hg.2 x h

/-- Reconstruction of a scalar-leaf field: processing the single serialized
pair of a fitting good value writes exactly that value under the field
name. -/
theorem reconstruct_leafcase (fields : List (String × Schema)) (selfKey : String)
    (leaf subS : Schema) (hleaf : cleanLeaf leaf = true)
    (hlk : lookupField fields selfKey = some subS)
    (hpd : ∀ (o : JSValue) (v : String),
      processDef subS o selfKey v = processDef leaf o selfKey v)
    (hname : cleanName selfKey = true)
    (v : JSValue) (hfit : fitsField leaf (some v) = true) (hg : goodData v = true)
    (os : List (String × JSValue))
    (habs : JSValue.getOwnList os selfKey = none) :
    processEntries (.obj fields) (.obj os) (serializeEntry selfKey v) =
      .ok (.obj (JSValue.setOwnList os selfKey v)) := by
  obtain ⟨hne0, hdot, hbr, hinh⟩ := cleanName_parts selfKey hname
  have hser : serializeEntry selfKey v = [(selfKey, scalarString v)] := by
    rcases fitsLeaf_shape leaf hleaf v hfit with ⟨s, hv⟩ | ⟨b, hv⟩ <;> subst hv <;> rfl
  have hnev : scalarString v ≠ "" := scalarString_ne leaf hleaf v hfit hg
  rw [hser]
  simp only [processEntries]
  rw [if_neg hnev]
  rw [parseParams_field (.obj os) fields selfKey subS (scalarString v) hlk hdot hbr]
  rw [hpd, processDef_scalar leaf (cleanLeaf_isScalar leaf hleaf),
    coerce_scalarString leaf hleaf v hfit]
  have hgjs : JSValue.getJS (.obj os) selfKey = none := by
    rw [getJS_own os selfKey hinh, habs]
  rw [show writeJS (.obj os) selfKey v = .obj (JSValue.setOwnList os selfKey v) from by
    simp [writeJS, hgjs, JSValue.setJS]]

/-- Reconstruction of an array field: processing the bracket-marker pairs
of a fitting nonempty good array initialises the property with an empty
array on the first pair and appends every element in order. -/
theorem reconstruct_arrcase (fields : List (String × Schema)) (selfKey : String)
    (elemS subS : Schema) (helem : cleanLeaf elemS = true)
    (hlk : lookupField fields selfKey = some subS)
    (hpd : ∀ (o : JSValue) (v : String),
      processDef subS o selfKey v = processDef (.array elemS) o selfKey v)
    (hname : cleanName selfKey = true)
    (v : JSValue) (hfit : fitsField (.array elemS) (some v) = true)
    (hg : goodData v = true)
    (os : List (String × JSValue))
    (habs : JSValue.getOwnList os selfKey = none) :
    processEntries (.obj fields) (.obj os) (serializeEntry selfKey v) =
      .ok (.obj (JSValue.setOwnList os selfKey v)) := by
  obtain ⟨hne0, hdot, hbr, hinh⟩ := cleanName_parts selfKey hname
  obtain ⟨xs, hv⟩ : ∃ xs, v = JSValue.arr xs := by
    cases v with
    | arr xs => exact ⟨xs, rfl⟩
    | str s => simp [fitsField] at hfit
    | num q => simp [fitsField] at hfit
    | bool b => simp [fitsField] at hfit
    | date ms => simp [fitsField] at hfit
    | obj props => simp [fitsField] at hfit
    | junk n => simp [fitsField] at hfit
  subst hv
  have hall : ∀ x ∈ xs, fitsField elemS (some x) = true := by
    simp only [fitsField, List.all_eq_true] at hfit
    exact hfit
  simp only [goodData, Bool.and_eq_true] at hg
  have hgood : ∀ x ∈ xs, goodData x = true := goodList_mem xs hg.2
  cases xs with
  | nil => simp [List.isEmpty] at hg
  | cons x0 xrest =>
    have hfx : fitsField elemS (some x0) = true := hall x0 (List.mem_cons_self _ _)
    have hgx : goodData x0 = true := hgood x0 (List.mem_cons_self _ _)
    have hnev : scalarString x0 ≠ "" := scalarString_ne elemS helem x0 hfx hgx
    show processEntries (.obj fields) (.obj os)
      ((selfKey ++ "[]", scalarString x0) ::
        xrest.map (fun x => (selfKey ++ "[]", scalarString x))) = _
    simp only [processEntries]
    rw [if_neg hnev]
    rw [parseParams_field_marker (.obj os) fields selfKey subS (scalarString x0)
      hlk hdot hbr]
    rw [hpd]
    have hgjs : JSValue.getJS (.obj os) selfKey = none := by
      rw [getJS_own os selfKey hinh, habs]
    rw [show processDef (.array elemS) (.obj os) selfKey (scalarString x0) =
        processDef elemS (.obj (JSValue.setOwnList os selfKey (.arr [])))
          selfKey (scalarString x0) from by
      simp [processDef, hgjs, JSValue.setJS]]
    rw [processDef_scalar elemS (cleanLeaf_isScalar elemS helem),
      coerce_scalarString elemS helem x0 hfx]
    have hgjs2 : JSValue.getJS (.obj (JSValue.setOwnList os selfKey (.arr [])))
        selfKey = some (.arr []) := by
      rw [getJS_own _ selfKey hinh, JSValue.getOwnList_setOwnList_self]
    rw [show writeJS (.obj (JSValue.setOwnList os selfKey (.arr []))) selfKey x0 =
        .obj (JSValue.setOwnList os selfKey (.arr [x0])) from by
      simp [writeJS, hgjs2, JSValue.setJS, JSValue.setOwnList_setOwnList]]
    show processEntries (.obj fields) (.obj (JSValue.setOwnList os selfKey (.arr [x0])))
      (xrest.map (fun x => (selfKey ++ "[]", scalarString x))) = _
    rw [arr_append_fold fields selfKey elemS subS hlk hpd helem hdot hbr hinh
      xrest [x0] (JSValue.setOwnList os selfKey (.arr [x0]))
      (fun y hy => hall y (List.mem_cons_of_mem _ hy))
      (fun y hy => hgood y (List.mem_cons_of_mem _ hy))
      (JSValue.getOwnList_setOwnList_self os selfKey _)]
    rw [JSValue.setOwnList_setOwnList, List.singleton_append]

theorem fitsArr_shape (elem : Schema) (v : JSValue)
    (hfit : fitsField (.array elem) (some v) = true) :
    ∃ xs, v = JSValue.arr xs ∧ ∀ x ∈ xs, fitsField elem (some x) = true := by
  cases v with
  | arr xs =>
    refine ⟨xs, rfl, ?_⟩
    simp only [fitsField, List.all_eq_true] at hfit
    exact hfit
  | str s => simp [fitsField] at hfit
  | num q => simp [fitsField] at hfit
  | bool b => simp [fitsField] at hfit
  | date ms => simp [fitsField] at hfit
  | obj props => simp [fitsField] at hfit
  | junk n => simp [fitsField] at hfit

theorem fitsObjVal_shape (fields : List (String × Schema)) (v : JSValue)
    (hfit : fitsField (.obj fields) (some v) = true) :
    ∃ dfs, v = JSValue.obj dfs ∧ fitsObj fields dfs = true := by
  cases v with
  | obj dfs => exact ⟨dfs, rfl, hfit⟩
  | str s => simp [fitsField] at hfit
  | num q => simp [fitsField] at hfit
  | bool b => simp [fitsField] at hfit
  | date ms => simp [fitsField] at hfit
  | arr xs => simp [fitsField] at hfit
  | junk n => simp [fitsField] at hfit

theorem goodFields_mem : ∀ (dfs : List (String × JSValue)), goodFields dfs = true →
    ∀ p ∈ dfs, goodData p.2 = true
  | [], _, p, hp => absurd hp (List.not_mem_nil p)
  | (k0, v0) :: rest, hg, p, hp => by
    simp only [goodFields, Bool.and_eq_true] at hg
    rcases List.mem_cons.mp hp with h | h
    · rw [h]; exact hg.1
    · exact goodFields_mem rest hg.2 p h

theorem serializeVals_leaf (leaf : Schema) (hl : cleanLeaf leaf = true)
    (k : String) (v : JSValue) (hfit : fitsField leaf (some v) = true)
    (hg : goodData v = true) : ∀ p ∈ serializeEntry k v, p.2 ≠ "" := by
  have hser : serializeEntry k v = [(k, scalarString v)] := by
    rcases fitsLeaf_shape leaf hl v hfit with ⟨s, hv⟩ | ⟨b, hv⟩ <;> subst hv <;> rfl
  intro p hp
  rw [hser, List.mem_singleton] at hp
  subst hp
  exact scalarString_ne leaf hl v hfit hg

theorem serializeVals_arr (elem : Schema) (hl : cleanLeaf elem = true)
    (k : String) (v : JSValue) (hfit : fitsField (.array elem) (some v) = true)
    (hg : goodData v = true) : ∀ p ∈ serializeEntry k v, p.2 ≠ "" := by
  obtain ⟨xs, hv, hall⟩ := fitsArr_shape elem v hfit
  subst hv
  simp only [goodData, Bool.and_eq_true] at hg
  have hgood := goodList_mem xs hg.2
  intro p hp
  simp only [serializeEntry, List.mem_map] at hp
  obtain ⟨x, hx, hpx⟩ := hp
  rw [← hpx]
  exact scalarString_ne elem hl x (hall x hx) (hgood x hx)

mutual

/-- Every pair serialized from a fitting good value of a clean field
schema has a nonempty value, so no pair is skipped on re-parse. -/
theorem serializeVals_ne : ∀ (subS : Schema), cleanField subS = true →
    ∀ (k : String) (v : JSValue), fitsField subS (some v) = true →
    goodData v = true → ∀ p ∈ serializeEntry k v, p.2 ≠ ""
  | .zstring, hc, k, v, hfit, hg => serializeVals_leaf .zstring rfl k v hfit hg
  | .zboolean, hc, k, v, hfit, hg => serializeVals_leaf .zboolean rfl k v hfit hg
  | .zenum vals, hc, k, v, hfit, hg => serializeVals_leaf (.zenum vals) rfl k v hfit hg
  | .literal p, hc, k, v, hfit, hg => serializeVals_leaf (.literal p) hc k v hfit hg
  | .array elem, hc, k, v, hfit, hg => serializeVals_arr elem hc k v hfit hg
  | .optional inner, hc, k, v, hfit, hg =>
    serializeVals_ne inner (cleanField_of_optInner inner hc) k v hfit hg
  | .obj f2, hc, k, v, hfit, hg => by
    obtain ⟨dfs, hv, hfo⟩ := fitsObjVal_shape f2 v hfit
    subst hv
    simp only [goodData, Bool.and_eq_true] at hg
    intro p hp
    rw [show serializeEntry k (.obj dfs) = (serializeTop dfs).map (prefixPair k) from
      serializeNested_eq_top k dfs] at hp
    rw [List.mem_map] at hp
    obtain ⟨q, hq, hpq⟩ := hp
    rw [← hpq]
    exact serializeVals_ne_obj f2 hc dfs hfo hg.2 q hq
  | .znumber, hc, k, v, hfit, hg => by simp [cleanField, cleanLeaf] at hc
  | .zdate, hc, k, v, hfit, hg => by simp [cleanField, cleanLeaf] at hc
  | .zdefault inner d, hc, k, v, hfit, hg => by simp [cleanField, cleanLeaf] at hc
  | .effect inner c m, hc, k, v, hfit, hg => by simp [cleanField, cleanLeaf] at hc
  | .union opts, hc, k, v, hfit, hg => by simp [cleanField, cleanLeaf] at hc
  | .other tn, hc, k, v, hfit, hg => by simp [cleanField, cleanLeaf] at hc

/-- Every pair serialized from a fitting good field list of a clean field
mapping has a nonempty value. -/
theorem serializeVals_ne_obj : ∀ (fields : List (String × Schema)),
    cleanFields fields = true →
    ∀ (dfs : List (String × JSValue)), fitsObj fields dfs = true →
    goodFields dfs = true → ∀ p ∈ serializeTop dfs, p.2 ≠ ""
  | [], hc, dfs, hfo, hg => by
    cases dfs with
    | nil => intro p hp; exact absurd hp (List.not_mem_nil p)
    | cons d drest => simp [fitsObj, List.isEmpty] at hfo
  | (name, fs) :: rest, hc, dfs, hfo, hg => by
    simp only [cleanFields, Bool.and_eq_true] at hc
    cases dfs with
    | nil => intro p hp; exact absurd hp (List.not_mem_nil p)
    | cons d drest =>
      obtain ⟨dk, dv⟩ := d
      simp only [goodFields, Bool.and_eq_true] at hg
      by_cases hdk : dk = name
      · rw [show fitsObj ((name, fs) :: rest) ((dk, dv) :: drest) =
            (fitsField fs (some dv) && fitsObj rest drest) from by
          simp [fitsObj, hdk]] at hfo
        rw [Bool.and_eq_true] at hfo
        intro p hp
        have hp2 : p ∈ serializeEntry dk dv ++ serializeTop drest := hp
        rcases List.mem_append.mp hp2 with h | h
        · exact serializeVals_ne fs hc.1.1.2 dk dv hfo.1 hg.1 p h
        · exact serializeVals_ne_obj rest hc.2 drest hfo.2 hg.2 p h
      · rw [show fitsObj ((name, fs) :: rest) ((dk, dv) :: drest) =
            (fitsField fs none && fitsObj rest ((dk, dv) :: drest)) from by
          simp [fitsObj, hdk]] at hfo
        rw [Bool.and_eq_true] at hfo
        intro p hp
        exact serializeVals_ne_obj rest hc.2 ((dk, dv) :: drest) hfo.2
          (by simp [goodFields, hg.1, hg.2]) p hp

end

theorem serializeTop_ne_nil : ∀ (dfs : List (String × JSValue)), dfs ≠ [] →
    goodFields dfs = true → serializeTop dfs ≠ []
  | [], hne, _ => absurd rfl hne
  | (k, v) :: rest, _, hg => by
    simp only [goodFields, Bool.and_eq_true] at hg
    show serializeEntry k v ++ serializeTop rest ≠ []
    intro h
    rcases List.append_eq_nil.mp h with ⟨h1, _⟩
    exact serializeEntry_ne_nil k v hg.1 h1

mutual

/-- Reconstruction of one clean field: processing the serialized pairs of
a fitting good value from an object in which the field is absent writes
exactly that value under the field name. -/
theorem reconstruct_field : ∀ (subS : Schema), cleanField subS = true →
    ∀ (fieldsAll : List (String × Schema)) (selfKey : String) (v : JSValue)
      (os : List (String × JSValue)),
    lookupField fieldsAll selfKey = some subS →
    cleanName selfKey = true →
    fitsField subS (some v) = true →
    goodData v = true →
    JSValue.getOwnList os selfKey = none →
    processEntries (.obj fieldsAll) (.obj os) (serializeEntry selfKey v) =
      .ok (.obj (JSValue.setOwnList os selfKey v))
  | .zstring, hc, fieldsAll, selfKey, v, os, hlk, hname, hfit, hg, habs =>
    reconstruct_leafcase fieldsAll selfKey .zstring .zstring rfl hlk
      (fun _ _ => rfl) hname v hfit hg os habs
  | .zboolean, hc, fieldsAll, selfKey, v, os, hlk, hname, hfit, hg, habs =>
    reconstruct_leafcase fieldsAll selfKey .zboolean .zboolean rfl hlk
      (fun _ _ => rfl) hname v hfit hg os habs
  | .zenum vals, hc, fieldsAll, selfKey, v, os, hlk, hname, hfit, hg, habs =>
    reconstruct_leafcase fieldsAll selfKey (.zenum vals) (.zenum vals) rfl hlk
      (fun _ _ => rfl) hname v hfit hg os habs
  | .literal p, hc, fieldsAll, selfKey, v, os, hlk, hname, hfit, hg, habs =>
    reconstruct_leafcase fieldsAll selfKey (.literal p) (.literal p) hc hlk
      (fun _ _ => rfl) hname v hfit hg os habs
  | .array elem, hc, fieldsAll, selfKey, v, os, hlk, hname, hfit, hg, habs =>
    reconstruct_arrcase fieldsAll selfKey elem (.array elem) hc hlk
      (fun _ _ => rfl) hname v hfit hg os habs
  | .optional inner, hc, fieldsAll, selfKey, v, os, hlk, hname, hfit, hg, habs => by
    have hco : cleanOptInner inner = true := hc
    have hfi : fitsField inner (some v) = true := hfit
    cases inner with
    | array elem =>
      exact reconstruct_arrcase fieldsAll selfKey elem (.optional (.array elem)) hco
        hlk (fun _ _ => rfl) hname v hfi hg os habs
    | zstring =>
      exact reconstruct_leafcase fieldsAll selfKey .zstring (.optional .zstring) rfl
        hlk (fun _ _ => rfl) hname v hfi hg os habs
    | zboolean =>
      exact reconstruct_leafcase fieldsAll selfKey .zboolean (.optional .zboolean) rfl
        hlk (fun _ _ => rfl) hname v hfi hg os habs
    | zenum vals =>
      exact reconstruct_leafcase fieldsAll selfKey (.zenum vals)
        (.optional (.zenum vals)) rfl hlk (fun _ _ => rfl) hname v hfi hg os habs
    | literal p =>
      exact reconstruct_leafcase fieldsAll selfKey (.literal p)
        (.optional (.literal p)) hco hlk (fun _ _ => rfl) hname v hfi hg os habs
    | znumber => simp [cleanOptInner, cleanLeaf] at hco
    | zdate => simp [cleanOptInner, cleanLeaf] at hco
    | obj f2 => simp [cleanOptInner, cleanLeaf] at hco
    | optional i2 => simp [cleanOptInner, cleanLeaf] at hco
    | zdefault i2 d => simp [cleanOptInner, cleanLeaf] at hco
    | effect i2 c m => simp [cleanOptInner, cleanLeaf] at hco
    | union opts => simp [cleanOptInner, cleanLeaf] at hco
    | other tn => simp [cleanOptInner, cleanLeaf] at hco
  | .obj f2, hc, fieldsAll, selfKey, v, os, hlk, hname, hfit, hg, habs => by
    obtain ⟨hne0, hdot, hbr, hinh⟩ := cleanName_parts selfKey hname
    obtain ⟨dfs, hv, hfo⟩ := fitsObjVal_shape f2 v hfit
    subst hv
    simp only [goodData, Bool.and_eq_true] at hg
    have hcf : cleanFields f2 = true := hc
    have hvals : ∀ p ∈ serializeTop dfs, p.2 ≠ "" :=
      serializeVals_ne_obj f2 hcf dfs hfo hg.2
    rw [show serializeEntry selfKey (.obj dfs) =
      (serializeTop dfs).map (prefixPair selfKey) from serializeNested_eq_top selfKey dfs]
    rw [processEntries_block fieldsAll selfKey (.obj f2) hlk hdot hinh
      (serializeTop dfs) os hvals (Or.inl habs)]
    have hdne : dfs ≠ [] := by
      intro hd
      rw [hd] at hg
      simp [List.isEmpty] at hg
    have hstne : serializeTop dfs ≠ [] := serializeTop_ne_nil dfs hdne hg.2
    obtain ⟨q, qs, hst⟩ := List.exists_cons_of_ne_nil hstne
    have hgD : ((JSValue.getOwnList os selfKey).getD (.obj [])) = .obj [] := by
      rw [habs]
      rfl
    have hrec := reconstruct_obj f2 hcf f2 dfs [] hfo hg.2 (fun k s h => h)
      (fun p hp => rfl)
    rw [List.nil_append] at hrec
    rw [hgD, hst]
    show (match processEntries (Schema.obj f2) (JSValue.obj []) (q :: qs) with
      | Except.ok r => Except.ok (JSValue.obj (JSValue.setOwnList os selfKey r))
      | Except.error e => Except.error e) = _
    rw [hst] at hrec
    rw [hrec]
  | .znumber, hc, fieldsAll, selfKey, v, os, hlk, hname, hfit, hg, habs => by
    simp [cleanField, cleanLeaf] at hc
  | .zdate, hc, fieldsAll, selfKey, v, os, hlk, hname, hfit, hg, habs => by
    simp [cleanField, cleanLeaf] at hc
  | .zdefault inner d, hc, fieldsAll, selfKey, v, os, hlk, hname, hfit, hg, habs => by
    simp [cleanField, cleanLeaf] at hc
  | .effect inner c m, hc, fieldsAll, selfKey, v, os, hlk, hname, hfit, hg, habs => by
    simp [cleanField, cleanLeaf] at hc
  | .union opts, hc, fieldsAll, selfKey, v, os, hlk, hname, hfit, hg, habs => by
    simp [cleanField, cleanLeaf] at hc
  | .other tn, hc, fieldsAll, selfKey, v, os, hlk, hname, hfit, hg, habs => by
    simp [cleanField, cleanLeaf] at hc

/-- Reconstruction of a clean object level: processing the serialized
pairs of a fitting good field list appends every field value in order to
the accumulated object. -/
theorem reconstruct_obj : ∀ (fieldsRem : List (String × Schema)),
    cleanFields fieldsRem = true →
    ∀ (fieldsAll : List (String × Schema)) (dfs : List (String × JSValue))
      (oPre : List (String × JSValue)),
    fitsObj fieldsRem dfs = true →
    goodFields dfs = true →
    (∀ (k : String) (s : Schema), lookupField fieldsRem k = some s →
      lookupField fieldsAll k = some s) →
    (∀ p ∈ dfs, JSValue.getOwnList oPre p.1 = none) →
    processEntries (.obj fieldsAll) (.obj oPre) (serializeTop dfs) =
      .ok (.obj (oPre ++ dfs))
  | [], hc, fieldsAll, dfs, oPre, hfo, hg, hlift, habs => by
    cases dfs with
    | nil =>
      show Except.ok (JSValue.obj oPre) = _
      rw [List.append_nil]
    | cons d drest => simp [fitsObj, List.isEmpty] at hfo
  | (name, fs) :: rest, hc, fieldsAll, dfs, oPre, hfo, hg, hlift, habs => by
    simp only [cleanFields, Bool.and_eq_true] at hc
    cases dfs with
    | nil =>
      show Except.ok (JSValue.obj oPre) = _
      rw [List.append_nil]
    | cons d drest =>
      obtain ⟨dk, dv⟩ := d
      simp only [goodFields, Bool.and_eq_true] at hg
      have hliftRest : ∀ (k : String) (s : Schema), lookupField rest k = some s →
          lookupField fieldsAll k = some s := by
        intro k s h
        apply hlift k s
        show (if name = k then some fs else lookupField rest k) = some s
        by_cases hn : name = k
        · exfalso
          rw [← hn] at h
          have := hc.1.2
          rw [h] at this
          simp at this
        · rw [if_neg hn]
          exact h
      by_cases hdk : dk = name
      · rw [show fitsObj ((name, fs) :: rest) ((dk, dv) :: drest) =
            (fitsField fs (some dv) && fitsObj rest drest) from by
          simp [fitsObj, hdk]] at hfo
        rw [Bool.and_eq_true] at hfo
        have habsdk : JSValue.getOwnList oPre dk = none :=
          habs (dk, dv) (List.mem_cons_self _ _)
        have hlkdk : lookupField fieldsAll dk = some fs := by
          apply hlift dk fs
          show (if name = dk then some fs else lookupField rest dk) = some fs
          rw [if_pos hdk.symm]
        have hnamedk : cleanName dk = true := by
          rw [hdk]
          exact hc.1.1.1
        have hW := reconstruct_field fs hc.1.1.2 fieldsAll dk dv oPre hlkdk
          hnamedk hfo.1 hg.1 habsdk
        show processEntries (.obj fieldsAll) (.obj oPre)
          (serializeEntry dk dv ++ serializeTop drest) = _
        rw [processEntries_append]
        rw [hW]
        show processEntries (.obj fieldsAll) (.obj (JSValue.setOwnList oPre dk dv))
          (serializeTop drest) = _
        rw [JSValue.setOwnList_absent oPre dk dv habsdk]
        have habsRest : ∀ p ∈ drest,
            JSValue.getOwnList (oPre ++ [(dk, dv)]) p.1 = none := by
          intro p hp
          have hpne : ¬ p.1 = dk := by
            intro hpk
            rcases fitsObj_names rest drest hfo.2 p hp with ⟨s, hs⟩
            rw [hpk, hdk] at hs
            have := hc.1.2
            rw [hs] at this
            simp at this
          rw [JSValue.getOwnList_append_absent oPre dk p.1 dv habsdk, if_neg hpne]
          exact habs p (List.mem_cons_of_mem _ hp)
        rw [reconstruct_obj rest hc.2 fieldsAll drest (oPre ++ [(dk, dv)]) hfo.2
          hg.2 hliftRest habsRest]
        rw [List.append_assoc, List.singleton_append]
      · rw [show fitsObj ((name, fs) :: rest) ((dk, dv) :: drest) =
            (fitsField fs none && fitsObj rest ((dk, dv) :: drest)) from by
          simp [fitsObj, hdk]] at hfo
        rw [Bool.and_eq_true] at hfo
        exact reconstruct_obj rest hc.2 fieldsAll ((dk, dv) :: drest) oPre hfo.2
          (by simp [goodFields, hg.1, hg.2]) hliftRest habs

end

/-- Counterexample to C7 as stated: the claim quantifies over every flat
input and schema on which parse succeeds. A schema field literally named
with a bracket marker is populated by the doubled-marker key (routing
strips only the first marker occurrence), but its own serialized key has
its marker stripped on re-parse, routes to no field, and the required
field is then reported missing: re-parsing the re-serialized output
fails instead of returning an equal result. -/
theorem claim_C7_counterexample :
    getParamsInternal [("x[][]", "v")] (.obj [("x[]", .zstring)]) =
      .ok (.success (.obj [("x[]", .str "v")])) ∧
    getParamsInternal (serializeData (.obj [("x[]", .str "v")]))
        (.obj [("x[]", .zstring)]) ≠
      .ok (.success (.obj [("x[]", .str "v")])) := by decide

/-- C7 (amended): parsing is idempotent through re-serialization on the
clean fragment: for an object schema whose field names are nonempty,
dot-free, marker-free and not inherited Object.prototype names, and whose
field schemas are strings, booleans, enums, string literals, arrays of
those, optionals of those, or nested such objects, any successful parse
result whose field values are good (nonempty strings, booleans, nonempty
arrays and nonempty objects of good values, recursively) re-parses from
its serialized flat form to exactly the same result. -/
theorem claim_C7 (fields : List (String × Schema)) (entries : List (String × String))
    (dfs : List (String × JSValue))
    (hclean : CleanSchema (.obj fields) = true)
    (hgood : goodFields dfs = true)
    (hparse : getParamsInternal entries (.obj fields) = .ok (.success (.obj dfs))) :
    getParamsInternal (serializeData (.obj dfs)) (.obj fields) =
      .ok (.success (.obj dfs)) := by
  have hcf : cleanFields fields = true := hclean
  have hcfField : cleanField (.obj fields) = true := hclean
  unfold getParamsInternal at hparse
  cases hb : buildOutput entries (.obj fields) with
  | error e => rw [hb] at hparse; exact absurd hparse (by simp)
  | ok o =>
    rw [hb] at hparse
    have hparse2 : (match safeParse (Schema.obj fields) o with
        | SafeParseResult.success d => Except.ok (ParseResult.success d)
        | SafeParseResult.failure issues =>
          (match aggregateIssues issues with
           | Except.ok errs => Except.ok (ParseResult.failure errs)
           | Except.error e => Except.error e)) =
        Except.ok (ParseResult.success (JSValue.obj dfs)) := hparse
    cases hsp : safeParse (.obj fields) o with
    | failure issues =>
      rw [hsp] at hparse2
      have hparse3 : (match aggregateIssues issues with
          | Except.ok errs => Except.ok (ParseResult.failure errs)
          | Except.error e => Except.error e) =
          Except.ok (ParseResult.success (JSValue.obj dfs)) := hparse2
      cases ha : aggregateIssues issues with
      | ok errs => rw [ha] at hparse3; simp at hparse3
      | error e2 => rw [ha] at hparse3; simp at hparse3
    | success d =>
      rw [hsp] at hparse2
      injection hparse2 with h2
      injection h2 with h3
      subst h3
      unfold safeParse at hsp
      cases hpv : parseValue (.obj fields) (some o) with
      | error issues => rw [hpv] at hsp; simp at hsp
      | ok r =>
        cases r with
        | none =>
          have hfn := parseValue_none_fits (.obj fields) hcfField (some o) hpv
          simp [fitsField] at hfn
        | some d2 =>
          rw [hpv] at hsp
          injection hsp with h4
          subst h4
          have hfit : fitsField (.obj fields) (some (.obj dfs)) = true :=
            parseValue_fits (.obj fields) hcfField (some o) (some (.obj dfs)) hpv
          have hfo : fitsObj fields dfs = true := hfit
          show getParamsInternal (serializeTop dfs) (.obj fields) = _
          unfold getParamsInternal
          rw [buildOutput_eq_processEntries]
          rw [reconstruct_obj fields hcf fields dfs [] hfo hgood
            (fun k s h => h) (fun p hp => rfl)]
          rw [List.nil_append]
          show (match safeParse (.obj fields) (.obj dfs) with
            | SafeParseResult.success d3 => Except.ok (ParseResult.success d3)
            | SafeParseResult.failure issues =>
              (match aggregateIssues issues with
               | Except.ok errs => Except.ok (ParseResult.failure errs)
               | Except.error e => Except.error e)) = _
          rw [show safeParse (.obj fields) (.obj dfs) =
              SafeParseResult.success (.obj dfs) from by
            unfold safeParse
            rw [parseValue_revalidate (.obj fields) hcfField (.obj dfs) hfit]]

/-- Witness for C7 at a concrete clean schema, input and good output. -/
theorem claim_C7_witness :
    CleanSchema (.obj [("name", Schema.zstring)]) = true ∧
    goodFields [("name", JSValue.str "a")] = true ∧
    getParamsInternal [("name", "a")] (.obj [("name", .zstring)]) =
      .ok (.success (.obj [("name", .str "a")])) ∧
    getParamsInternal (serializeData (.obj [("name", JSValue.str "a")]))
        (.obj [("name", .zstring)]) = .ok (.success (.obj [("name", .str "a")])) :=
  ⟨by decide, by decide, by decide,
    claim_C7 [("name", Schema.zstring)] [("name", "a")] [("name", JSValue.str "a")]
      (by decide) (by decide) (by decide)⟩
